import Mathlib

/-!
The synchronisation engine of folder-syncer.

A shallow embedding of `internal/syncer/hasher.go` and `internal/syncer/syncer.go`, and the
properties of `CalculateSHA256`, `syncFile` and `syncDirectories` proved on it.

* The file system is a pair of trees, one rooted at `srcDir` and one rooted at `dstDir`
  (the two roots are assumed not to be nested in each other).  A path is a root plus the
  list of components below it, so `filepath.Rel` and `filepath.Join` are exact.  Entries
  are directories and regular files; symbolic links are not modelled.
* Every operating-system call can fail for a reason that the trees do not show
  (permissions, resources): `Env.fails` is the oracle for those failures.  A failing call
  has no effect of its own.
* `filepath.WalkDir` walks the tree that the root holds when the walk starts.
* Goroutines are sequentialised: a `syncFile` task runs either at the point where it is
  spawned or at `wg.Wait()`, as `Env.runsAtSpawn` decides for each task; a task that has
  not run when `syncDirectories` returns without waiting is left in `Cycle.pending`.  The
  two `CalculateSHA256` results of one `syncFile` arrive in the order `Env.dstHashFirst`
  gives; the iteration order of the `toDelete` map is `Env.rangeOrder`.
* `crypto/sha256` and `encoding/hex` are modelled after FIPS 180-4 and the Go sources.
-/

namespace FolderSyncer

/-! ## crypto/sha256 and encoding/hex -/

namespace sha256

/-- Rotation to the right of a 32-bit word. -/
def rotr (x n : Nat) : Nat := ((x >>> n) ||| (x <<< (32 - n))) % 2 ^ 32

/-- The round constants of rounds 0 to 7. -/
def K0 : List Nat :=
  [0x428a2f98, 0x71374491, 0xb5c0fbcf, 0xe9b5dba5, 0x3956c25b, 0x59f111f1, 0x923f82a4, 0xab1c5ed5]

/-- The round constants of rounds 8 to 15. -/
def K1 : List Nat :=
  [0xd807aa98, 0x12835b01, 0x243185be, 0x550c7dc3, 0x72be5d74, 0x80deb1fe, 0x9bdc06a7, 0xc19bf174]

/-- The round constants of rounds 16 to 23. -/
def K2 : List Nat :=
  [0xe49b69c1, 0xefbe4786, 0x0fc19dc6, 0x240ca1cc, 0x2de92c6f, 0x4a7484aa, 0x5cb0a9dc, 0x76f988da]

/-- The round constants of rounds 24 to 31. -/
def K3 : List Nat :=
  [0x983e5152, 0xa831c66d, 0xb00327c8, 0xbf597fc7, 0xc6e00bf3, 0xd5a79147, 0x06ca6351, 0x14292967]

/-- The round constants of rounds 32 to 39. -/
def K4 : List Nat :=
  [0x27b70a85, 0x2e1b2138, 0x4d2c6dfc, 0x53380d13, 0x650a7354, 0x766a0abb, 0x81c2c92e, 0x92722c85]

/-- The round constants of rounds 40 to 47. -/
def K5 : List Nat :=
  [0xa2bfe8a1, 0xa81a664b, 0xc24b8b70, 0xc76c51a3, 0xd192e819, 0xd6990624, 0xf40e3585, 0x106aa070]

/-- The round constants of rounds 48 to 55. -/
def K6 : List Nat :=
  [0x19a4c116, 0x1e376c08, 0x2748774c, 0x34b0bcb5, 0x391c0cb3, 0x4ed8aa4a, 0x5b9cca4f, 0x682e6ff3]

/-- The round constants of rounds 56 to 63. -/
def K7 : List Nat :=
  [0x748f82ee, 0x78a5636f, 0x84c87814, 0x8cc70208, 0x90befffa, 0xa4506ceb, 0xbef9a3f7, 0xc67178f2]

/-- The round constants `_K` of the 64 rounds. -/
def K : List Nat := K0 ++ K1 ++ K2 ++ K3 ++ K4 ++ K5 ++ K6 ++ K7

/-- The eight 32-bit words of the running hash value. -/
structure Digest where
  h0 : Nat
  h1 : Nat
  h2 : Nat
  h3 : Nat
  h4 : Nat
  h5 : Nat
  h6 : Nat
  h7 : Nat
deriving DecidableEq, Repr

/-- The initial hash value. -/
def init : Digest :=
  ⟨0x6a09e667, 0xbb67ae85, 0x3c6ef372, 0xa54ff53a, 0x510e527f, 0x9b05688c, 0x1f83d9ab, 0x5be0cd19⟩

/-- Word `i` of a 64-byte block, big-endian. -/
def be32 (p : List Nat) (i : Nat) : Nat :=
  ((p.getD (4 * i) 0 % 256) <<< 24) ||| ((p.getD (4 * i + 1) 0 % 256) <<< 16) |||
    ((p.getD (4 * i + 2) 0 % 256) <<< 8) ||| (p.getD (4 * i + 3) 0 % 256)

/-- The 64-word message schedule of a block. -/
def schedule (p : List Nat) : List Nat :=
  (List.range 48).foldl (fun w j =>
    let i := j + 16
    let v1 := w.getD (i - 2) 0
    let t1 := rotr v1 17 ^^^ rotr v1 19 ^^^ (v1 >>> 10)
    let v2 := w.getD (i - 15) 0
    let t2 := rotr v2 7 ^^^ rotr v2 18 ^^^ (v2 >>> 3)
    w ++ [(t1 + w.getD (i - 7) 0 + t2 + w.getD (i - 16) 0) % 2 ^ 32])
    ((List.range 16).map (be32 p))

/-- One of the 64 rounds of the compression function. -/
def round (w : List Nat) (s : Digest) (i : Nat) : Digest :=
  let t1 := s.h7 + (rotr s.h4 6 ^^^ rotr s.h4 11 ^^^ rotr s.h4 25) +
    ((s.h4 &&& s.h5) ^^^ ((s.h4 ^^^ 0xffffffff) &&& s.h6)) + K.getD i 0 + w.getD i 0
  let t2 := (rotr s.h0 2 ^^^ rotr s.h0 13 ^^^ rotr s.h0 22) +
    ((s.h0 &&& s.h1) ^^^ (s.h0 &&& s.h2) ^^^ (s.h1 &&& s.h2))
  ⟨(t1 + t2) % 2 ^ 32, s.h0, s.h1, s.h2, (s.h3 + t1) % 2 ^ 32, s.h4, s.h5, s.h6⟩

/-- The compression of one 64-byte block into the running hash value. -/
def block (s : Digest) (p : List Nat) : Digest :=
  let r := (List.range 64).foldl (round (schedule p)) s
  ⟨(s.h0 + r.h0) % 2 ^ 32, (s.h1 + r.h1) % 2 ^ 32, (s.h2 + r.h2) % 2 ^ 32, (s.h3 + r.h3) % 2 ^ 32,
   (s.h4 + r.h4) % 2 ^ 32, (s.h5 + r.h5) % 2 ^ 32, (s.h6 + r.h6) % 2 ^ 32, (s.h7 + r.h7) % 2 ^ 32⟩

/-- The padding: a 0x80 byte, zeros up to 56 modulo 64, the bit length on 8 bytes. -/
def pad (msg : List Nat) : List Nat :=
  let len := msg.length
  let t := len % 64
  let z := if t < 56 then 56 - (t + 1) else 64 + 56 - (t + 1)
  let bits := (len * 8) % 2 ^ 64
  msg ++ [0x80] ++ List.replicate z 0 ++ (List.range 8).map (fun i => (bits >>> (56 - 8 * i)) % 256)

/-- The hash value after all the blocks of the padded message. -/
def compress (msg : List Nat) : Digest :=
  let p := pad msg
  (List.range (p.length / 64)).foldl (fun s i => block s ((p.drop (64 * i)).take 64)) init

/-- The four bytes of a 32-bit word, big-endian. -/
def word (w : Nat) : List Nat := [(w >>> 24) % 256, (w >>> 16) % 256, (w >>> 8) % 256, w % 256]

/-- The 32 bytes of a hash value. -/
def bytes (d : Digest) : List Nat :=
  word d.h0 ++ word d.h1 ++ word d.h2 ++ word d.h3 ++ word d.h4 ++ word d.h5 ++ word d.h6 ++ word d.h7

/-- The SHA-256 checksum of a byte sequence: what `hash.Sum(nil)` returns after the bytes
were written to `sha256.New()`. -/
def Sum (msg : List Nat) : List Nat := bytes (compress msg)

end sha256

namespace hex

/-- The digits of `encoding/hex`: the constant `hextable`. -/
def hextable : List Char := "0123456789abcdef".data

/-- The characters of `hex.EncodeToString`: two digits for each byte. -/
def encode (src : List Nat) : List Char :=
  src.flatMap (fun v => [hextable.getD (v / 16) '0', hextable.getD (v % 16) '0'])

/-- The function `hex.EncodeToString`. -/
def EncodeToString (src : List Nat) : String := String.mk (encode src)

end hex

/-- The bytes of an ASCII string. -/
def asciiBytes (s : String) : List Nat := s.data.map (fun c => c.toNat)

/-! ## The file system -/

/-- Permission bits of a file or directory. -/
abbrev Mode := Nat

/-- The bytes of a file. -/
abbrev Bytes := List Nat

/-- Error numbers of the operating system that the engine can meet. -/
inductive Errno where
  | ENOENT
  | ENOTDIR
  | EISDIR
  | EACCES
  | EINTR
  | ENOSPC
  | EINVAL
deriving DecidableEq, Repr

deriving instance DecidableEq for Except

/-- The entries of one directory: each entry is a regular file or a directory with its own
entries, followed by the remaining entries of the same directory. -/
inductive Listing where
  | nil : Listing
  | file (name : String) (mode : Mode) (content : Bytes) (rest : Listing) : Listing
  | dir (name : String) (mode : Mode) (children : Listing) (rest : Listing) : Listing
deriving DecidableEq, Repr

/-- What a path denotes: a regular file or a directory. -/
inductive Node where
  | file (mode : Mode) (content : Bytes) : Node
  | dir (mode : Mode) (children : Listing) : Node
deriving DecidableEq, Repr

namespace Listing

/-- The entry of a given name. -/
def find : Listing → String → Option Node
  | .nil, _ => none
  | .file n m c rest, x => if x = n then some (.file m c) else find rest x
  | .dir n m ch rest, x => if x = n then some (.dir m ch) else find rest x

/-- A node as the first entry of a listing. -/
def entry (x : String) : Node → Listing → Listing
  | .file m c, rest => .file x m c rest
  | .dir m ch, rest => .dir x m ch rest

/-- Insertion of a new entry at its place in the order of names (the order of strings,
character by character, in which `os.ReadDir` sorts). -/
def insert (x : String) (nd : Node) : Listing → Listing
  | .nil => entry x nd .nil
  | .file n m c rest =>
    if x.data < n.data then entry x nd (.file n m c rest) else .file n m c (insert x nd rest)
  | .dir n m ch rest =>
    if x.data < n.data then entry x nd (.dir n m ch rest) else .dir n m ch (insert x nd rest)

/-- Replacement of the entry of a given name. -/
def replace (x : String) (nd : Node) : Listing → Listing
  | .nil => .nil
  | .file n m c rest => if x = n then entry x nd rest else .file n m c (replace x nd rest)
  | .dir n m ch rest => if x = n then entry x nd rest else .dir n m ch (replace x nd rest)

/-- The listing where a name denotes a given node. -/
def set (l : Listing) (x : String) (nd : Node) : Listing :=
  if (l.find x).isSome then l.replace x nd else l.insert x nd

/-- Removal of the entries of a given name. -/
def erase (x : String) : Listing → Listing
  | .nil => .nil
  | .file n m c rest => if x = n then erase x rest else .file n m c (erase x rest)
  | .dir n m ch rest => if x = n then erase x rest else .dir n m ch (erase x rest)

/-- The listing where a name denotes a given node, or nothing. -/
def put (l : Listing) (x : String) : Option Node → Listing
  | none => l.erase x
  | some nd => l.set x nd

/-- No two entries of a directory have the same name, at every level. -/
def wf : Listing → Bool
  | .nil => true
  | .file n _ _ rest => !(rest.find n).isSome && wf rest
  | .dir n _ ch rest => !(rest.find n).isSome && wf ch && wf rest

end Listing

/-- A tree is well formed when its listings are. -/
def Node.wf : Node → Bool
  | .file _ _ => true
  | .dir _ ch => ch.wf

/-- A root that may be absent is well formed when the tree under it is. -/
def treeWf : Option Node → Bool
  | none => true
  | some n => n.wf

/-- What `components` denotes below a root; the root itself may be absent. -/
def lookup : List String → Option Node → Except Errno Node
  | _, none => .error .ENOENT
  | [], some n => .ok n
  | _ :: _, some (.file _ _) => .error .ENOTDIR
  | x :: xs, some (.dir _ l) => lookup xs (l.find x)

/-- What the walk down a path reaches: the node, or nothing when the parent directory has
no such entry; an error when the parent itself cannot be reached. -/
def peek : List String → Option Node → Except Errno (Option Node)
  | [], r => .ok r
  | _ :: _, none => .error .ENOENT
  | _ :: _, some (.file _ _) => .error .ENOTDIR
  | x :: xs, some (.dir _ l) => peek xs (l.find x)

/-- What `os.Stat` can see of a node: its kind, its mode, and for a file its bytes. -/
inductive Info where
  | file (mode : Mode) (content : Bytes) : Info
  | dir (mode : Mode) : Info
deriving DecidableEq, Repr

/-- The visible part of a node. -/
def Node.info : Node → Info
  | .file m c => .file m c
  | .dir m _ => .dir m

/-- The visible part of what a path denotes below a root. -/
def infoAt (q : List String) (t : Option Node) : Except Errno Info :=
  match lookup q t with
  | .error e => .error e
  | .ok n => .ok n.info

/-- A change of what a path denotes: `f` maps the old node (if any) to the new one. -/
def alter (f : Option Node → Except Errno (Option Node)) :
    List String → Option Node → Except Errno (Option Node)
  | [], r => f r
  | _ :: _, none => .error .ENOENT
  | _ :: _, some (.file _ _) => .error .ENOTDIR
  | x :: xs, some (.dir m l) =>
    match alter f xs (l.find x) with
    | .error e => .error e
    | .ok r => .ok (some (.dir m (l.put x r)))

/-- The tree after `MkdirAll`: the directories that are missing on the path are created
with mode `perm`; a regular file on the path is an error. -/
def mkdirAllTree (perm : Mode) : List String → Option Node → Except Errno Node
  | [], none => .ok (.dir perm .nil)
  | [], some (.dir m l) => .ok (.dir m l)
  | [], some (.file _ _) => .error .ENOTDIR
  | x :: xs, none =>
    match mkdirAllTree perm xs none with
    | .error e => .error e
    | .ok c => .ok (.dir perm (Listing.nil.set x c))
  | x :: xs, some (.dir m l) =>
    match mkdirAllTree perm xs (l.find x) with
    | .error e => .error e
    | .ok c => .ok (.dir m (l.set x c))
  | _ :: _, some (.file _ _) => .error .ENOTDIR

/-- The effect of `mkdir` where the parent exists: a new empty directory, or the directory
that is already there. -/
def mkdirNode (perm : Mode) : Option Node → Except Errno (Option Node)
  | none => .ok (some (.dir perm .nil))
  | some (.dir m l) => .ok (some (.dir m l))
  | some (.file _ _) => .error .ENOTDIR

/-- The effect of `chmod` on a node. -/
def chmodNode (m : Mode) : Option Node → Except Errno (Option Node)
  | none => .error .ENOENT
  | some (.file _ c) => .ok (some (.file m c))
  | some (.dir _ l) => .ok (some (.dir m l))

/-- The effect of opening with `O_CREATE|O_WRONLY|O_TRUNC`: a new empty file with the given
mode, or the existing file emptied; `keep` is what the truncation leaves of the mode of
an existing file (an unprivileged process loses the set-uid and set-gid bits). -/
def truncNode (m : Mode) (keep : Mode → Mode) : Option Node → Except Errno (Option Node)
  | none => .ok (some (.file m []))
  | some (.file m0 _) => .ok (some (.file (keep m0) []))
  | some (.dir _ _) => .error .EISDIR

/-- The effect of writing the whole content of an open file; `keep` is what the write
leaves of the mode of the file (an unprivileged process loses the set-uid and set-gid
bits). -/
def writeNode (c : Bytes) (keep : Mode → Mode) : Option Node → Except Errno (Option Node)
  | none => .error .ENOENT
  | some (.file m _) => .ok (some (.file (keep m) c))
  | some (.dir _ _) => .error .EISDIR

/-- The effect of a recursive removal. -/
def removeNode : Option Node → Except Errno (Option Node)
  | _ => .ok none

/-- The two roots of the engine. -/
inductive Base where
  | src
  | dst
deriving DecidableEq, Repr

/-- A path: one of the two roots and the components below it. -/
structure Path where
  base : Base
  rel : List String
deriving DecidableEq, Repr

/-- The state of the file system: the tree at `srcDir` and the tree at `dstDir`. -/
structure World where
  src : Option Node
  dst : Option Node
deriving DecidableEq, Repr

/-- The tree at a root. -/
def World.tree (w : World) : Base → Option Node
  | .src => w.src
  | .dst => w.dst

/-- The world with a new tree at a root. -/
def World.setTree (w : World) (b : Base) (t : Option Node) : World :=
  match b with
  | .src => ⟨t, w.dst⟩
  | .dst => ⟨w.src, t⟩

/-- What a path denotes in a world. -/
def World.node (w : World) (p : Path) : Except Errno Node := lookup p.rel (w.tree p.base)

/-- The function `filepath.Rel`. -/
def Rel (basepath : Base) (targpath : Path) : Except Errno (List String) :=
  if targpath.base = basepath then .ok targpath.rel else .error .EINVAL

/-- The function `filepath.Join` of a root and a relative path. -/
def Join (dir : Base) (rel : List String) : Path := ⟨dir, rel⟩

/-- The calls whose failures and occurrences are observed. -/
inductive Call where
  | stat
  | lstat
  | readDir
  | mkdirAll
  | chmod
  | open
  | openFile
  | read
  | write
  | removeAll
  | calculateSHA256
deriving DecidableEq, Repr

/-- What the program does not control: failures of calls that the trees do not explain,
the mode a new file or directory really gets (umask), the mode a file has after it was
truncated and after bytes were written to it (for a privileged process the mode it had;
otherwise the set-uid and set-gid bits can be lost), the size a directory reports, the
scheduling of goroutines and the iteration order of a map. -/
structure Env where
  fails : Call → Path → Bool
  createMode : Mode → Mode
  truncMode : Path → Mode → Mode
  writeMode : Path → Mode → Bytes → Mode
  dirSize : Path → Nat
  runsAtSpawn : Path → Bool
  dstHashFirst : Path → Bool
  rangeOrder : List Path → List Path

/-- The result of `os.Stat`. -/
structure FileInfo where
  isDir : Bool
  size : Nat
  mode : Mode
deriving DecidableEq, Repr

/-- The call `os.Stat`. -/
def Stat (env : Env) (w : World) (p : Path) : Except Errno FileInfo :=
  if env.fails .stat p then .error .EACCES else
  match w.node p with
  | .error e => .error e
  | .ok (.file m c) => .ok ⟨false, c.length, m⟩
  | .ok (.dir m _) => .ok ⟨true, env.dirSize p, m⟩

/-- The test `os.IsNotExist` on the error of a call. -/
def IsNotExist {α : Type} : Except Errno α → Bool
  | .error .ENOENT => true
  | _ => false

/-- A change of the tree that holds a path. -/
def World.change (w : World) (p : Path) (f : Option Node → Except Errno (Option Node)) :
    Except Errno World :=
  match alter f p.rel (w.tree p.base) with
  | .error e => .error e
  | .ok t => .ok (w.setTree p.base t)

/-- The permission bits `os.ModePerm`. -/
def ModePerm : Mode := 0o777

/-- The call `os.MkdirAll`. -/
def MkdirAll (env : Env) (w : World) (p : Path) (perm : Mode) : Except Errno World :=
  if env.fails .mkdirAll p then .error .EACCES else
  match mkdirAllTree (env.createMode perm) p.rel (w.tree p.base) with
  | .error e => .error e
  | .ok t => .ok (w.setTree p.base (some t))

/-- The call `os.Chmod`. -/
def Chmod (env : Env) (w : World) (p : Path) (m : Mode) : Except Errno World :=
  if env.fails .chmod p then .error .EACCES else w.change p (chmodNode m)

/-- The call `os.OpenFile(path, os.O_CREATE|os.O_WRONLY|os.O_TRUNC, perm)`. -/
def OpenFile (env : Env) (w : World) (p : Path) (perm : Mode) : Except Errno World :=
  if env.fails .openFile p then .error .EACCES else
  w.change p (truncNode (env.createMode perm) (env.truncMode p))

/-- The call `os.Open`. -/
def Open (env : Env) (w : World) (p : Path) : Except Errno Node :=
  if env.fails .open p then .error .EACCES else w.node p

/-- Reading an open file to its end. -/
def readAll (env : Env) (p : Path) : Node → Except Errno Bytes
  | .dir _ _ => .error .EISDIR
  | .file _ c => if env.fails .read p then .error .EINTR else .ok c

/-- The call `os.RemoveAll`: a path that does not exist is no error. -/
def RemoveAll (env : Env) (w : World) (p : Path) : Except Errno World :=
  if env.fails .removeAll p then .error .EACCES else
  match w.change p removeNode with
  | .error .ENOENT => .ok w
  | r => r

/-! ## hasher.go -/

/-- The function `CalculateSHA256`. -/
def CalculateSHA256 (env : Env) (w : World) (filePath : Path) : Except Errno String :=
  match Open env w filePath with
  | .error e => .error e
  | .ok file =>
    match readAll env filePath file with
    | .error e => .error e
    | .ok b => .ok (hex.EncodeToString (sha256.Sum b))

/-! ## syncer.go -/

/-- The root `s.srcDir`. -/
def srcDir : Base := .src

/-- The root `s.dstDir`. -/
def dstDir : Base := .dst

/-- The return statement of `syncFile` that was reached without an error, named after the
line it logs. -/
inductive Branch where
  | skippedEmpty
  | skippedSameHash
  | synced (n : Nat)
deriving DecidableEq, Repr

/-- One run of `syncFile`: the file system afterwards, the error or the branch taken, and
the calls made, in order. -/
structure FileRun where
  world : World
  result : Except Errno Branch
  calls : List (Call × Path)

/-- The results of the two hashing goroutines in the order they are sent. -/
def arrivals (env : Env) (dstPath : Path) (hs hd : Except Errno String) :
    List (Except Errno String) :=
  if env.dstHashFirst dstPath then [hd, hs] else [hs, hd]

/-- What was sent on `hashChan`. -/
def hashChan (l : List (Except Errno String)) : List String :=
  l.filterMap (fun r => match r with | .ok h => some h | .error _ => none)

/-- What was sent on `errChan`. -/
def errChan (l : List (Except Errno String)) : List Errno :=
  l.filterMap (fun r => match r with | .ok _ => none | .error e => some e)

/-- The loop `for h := range hashChan`: the first hash goes to `srcHash` while that is
empty, the others to `dstHash`. -/
def collect (hs : List String) : String × String :=
  hs.foldl (fun p h => if p.1 = "" then (h, p.2) else (p.1, h)) ("", "")

/-- The comparison of the two digests in `syncFile`: an error of either computation, or
whether `srcHash == dstHash`. -/
def compareHashes (env : Env) (w : World) (srcPath dstPath : Path) : Except Errno Bool :=
  let rs := arrivals env dstPath (CalculateSHA256 env w srcPath) (CalculateSHA256 env w dstPath)
  match errChan rs with
  | e :: _ => .error e
  | [] => .ok (decide ((collect (hashChan rs)).1 = (collect (hashChan rs)).2))

/-- The copy at the end of `syncFile`: open the source, create or truncate the destination,
chmod it, copy the bytes (the write comes after the chmod, so the mode is the one that
the write leaves). -/
def copyFile (env : Env) (w : World) (srcPath dstPath : Path) (srcInfo : FileInfo)
    (calls : List (Call × Path)) : FileRun :=
  match Open env w srcPath with
  | .error e => ⟨w, .error e, calls ++ [(.open, srcPath)]⟩
  | .ok _ =>
    match OpenFile env w dstPath srcInfo.mode with
    | .error e => ⟨w, .error e, calls ++ [(.open, srcPath), (.openFile, dstPath)]⟩
    | .ok w1 =>
      match Chmod env w1 dstPath srcInfo.mode with
      | .error e =>
        ⟨w1, .error e, calls ++ [(.open, srcPath), (.openFile, dstPath), (.chmod, dstPath)]⟩
      | .ok w2 =>
        let all := calls ++
          [(.open, srcPath), (.openFile, dstPath), (.chmod, dstPath), (.write, dstPath)]
        match w2.node srcPath with
        | .error e => ⟨w2, .error e, all⟩
        | .ok srcFile =>
          match readAll env srcPath srcFile with
          | .error e => ⟨w2, .error e, all⟩
          | .ok b =>
            if env.fails .write dstPath then ⟨w2, .error .ENOSPC, all⟩ else
            match w2.change dstPath (writeNode b (fun m => env.writeMode dstPath m b)) with
            | .error e => ⟨w2, .error e, all⟩
            | .ok w3 => ⟨w3, .ok (.synced b.length), all⟩

/-- The method `Syncer.syncFile`. -/
def syncFile (env : Env) (w : World) (srcPath dstPath : Path) : FileRun :=
  match Stat env w srcPath with
  | .error e => ⟨w, .error e, [(.stat, srcPath)]⟩
  | .ok srcInfo =>
    match Stat env w dstPath with
    | .ok dstInfo =>
      if srcInfo.size = 0 ∧ dstInfo.size = 0 then
        ⟨w, .ok .skippedEmpty, [(.stat, srcPath), (.stat, dstPath)]⟩
      else
        let calls := [(.stat, srcPath), (.stat, dstPath),
          (.calculateSHA256, srcPath), (.calculateSHA256, dstPath)]
        match compareHashes env w srcPath dstPath with
        | .error e => ⟨w, .error e, calls⟩
        | .ok true => ⟨w, .ok .skippedSameHash, calls⟩
        | .ok false => copyFile env w srcPath dstPath srcInfo calls
    | .error _ => copyFile env w srcPath dstPath srcInfo [(.stat, srcPath), (.stat, dstPath)]

/-- The argument `d` of a walk callback. -/
structure DirEntry where
  name : String
  isDir : Bool
deriving DecidableEq, Repr

/-- A callback of `filepath.WalkDir`; the variables it captures are the state `σ`. -/
abbrev WalkDirFunc (σ : Type) := σ → Path → Option DirEntry → Option Errno → σ × Option Errno

/-- The loop of `walkDir` over the entries of a directory, with the recursive calls:
the callback on each entry, then for a directory its own entries; the first error
returned by the callback ends the walk. -/
def walkDir {σ : Type} (env : Env) (fn : WalkDirFunc σ) (b : Base) :
    List String → Listing → σ → σ × Option Errno
  | _, .nil, s => (s, none)
  | dir, .file n _ _ rest, s =>
    match fn s ⟨b, dir ++ [n]⟩ (some ⟨n, false⟩) none with
    | (s1, some e) => (s1, some e)
    | (s1, none) => walkDir env fn b dir rest s1
  | dir, .dir n _ ch rest, s =>
    match fn s ⟨b, dir ++ [n]⟩ (some ⟨n, true⟩) none with
    | (s1, some e) => (s1, some e)
    | (s1, none) =>
      if env.fails .readDir ⟨b, dir ++ [n]⟩ then
        match fn s1 ⟨b, dir ++ [n]⟩ (some ⟨n, true⟩) (some .EACCES) with
        | (s2, some e) => (s2, some e)
        | (s2, none) => walkDir env fn b dir rest s2
      else
        match walkDir env fn b (dir ++ [n]) ch s1 with
        | (s2, some e) => (s2, some e)
        | (s2, none) => walkDir env fn b dir rest s2

/-- The function `filepath.WalkDir` on the tree that the world holds at the root when the
walk starts. -/
def WalkDir {σ : Type} (env : Env) (w : World) (root : Path) (fn : WalkDirFunc σ) (s : σ) :
    σ × Option Errno :=
  if env.fails .lstat root then fn s root none (some .EACCES) else
  match w.node root with
  | .error e => fn s root none (some e)
  | .ok (.file _ _) => fn s root (some ⟨"", false⟩) none
  | .ok (.dir _ l) =>
    match fn s root (some ⟨"", true⟩) none with
    | (s1, some e) => (s1, some e)
    | (s1, none) =>
      if env.fails .readDir root then fn s1 root (some ⟨"", true⟩) (some .EACCES)
      else walkDir env fn root.base root.rel l s1

/-- A `syncFile` goroutine. -/
structure Task where
  srcPath : Path
  dstPath : Path
deriving DecidableEq, Repr

/-- The state of one call of `syncDirectories`: the file system, the goroutines that were
started (`wg.Add`), those that have returned with their result, those that have not run
yet, the keys of `toDelete`, the `os.RemoveAll` calls made with their errors, the errors
of the two walks, and whether `wg.Wait()` was reached. -/
structure Cycle where
  world : World
  spawned : List Task
  finished : List (Task × Except Errno Branch)
  pending : List Task
  toDelete : List Path
  removed : List (Path × Option Errno)
  srcWalkErr : Option Errno
  dstWalkErr : Option Errno
  waited : Bool

/-- The start of a goroutine that calls `syncFile`. -/
def spawn (env : Env) (s : Cycle) (t : Task) : Cycle :=
  if env.runsAtSpawn t.dstPath then
    { s with
      world := (syncFile env s.world t.srcPath t.dstPath).world
      spawned := s.spawned ++ [t]
      finished := s.finished ++ [(t, (syncFile env s.world t.srcPath t.dstPath).result)] }
  else
    { s with spawned := s.spawned ++ [t], pending := s.pending ++ [t] }

/-- The callback of the walk over the source. -/
def srcVisit (env : Env) : WalkDirFunc Cycle := fun s srcPath d err =>
  match err with
  | some e => (s, some e)
  | none =>
    match Rel srcDir srcPath with
    | .error e => (s, some e)
    | .ok relPath =>
      let dstPath := Join dstDir relPath
      match Stat env s.world srcPath with
      | .error e => (s, some e)
      | .ok perms =>
        if (match d with | some e => e.isDir | none => false) then
          match MkdirAll env s.world dstPath ModePerm with
          | .error e => (s, some e)
          | .ok w1 =>
            match Chmod env w1 dstPath perms.mode with
            | .error e => ({ s with world := w1 }, some e)
            | .ok w2 => ({ s with world := w2 }, none)
        else
          (spawn env s ⟨srcPath, dstPath⟩, none)

/-- The assignment `toDelete[dstPath] = struct{}{}`. -/
def mark (l : List Path) (dstPath : Path) : List Path :=
  if dstPath ∈ l then l else l ++ [dstPath]

/-- The callback of the walk over the destination. -/
def dstVisit (env : Env) : WalkDirFunc Cycle := fun s dstPath _ err =>
  match err with
  | some e => (s, some e)
  | none =>
    match Rel dstDir dstPath with
    | .error e => (s, some e)
    | .ok relPath =>
      let srcPath := Join srcDir relPath
      if IsNotExist (Stat env s.world srcPath) then
        ({ s with toDelete := mark s.toDelete dstPath }, none)
      else (s, none)

/-- One iteration of the loop over `toDelete`. -/
def removeStep (env : Env) (s : Cycle) (path : Path) : Cycle :=
  match RemoveAll env s.world path with
  | .error e => { s with removed := s.removed ++ [(path, some e)] }
  | .ok w => { s with world := w, removed := s.removed ++ [(path, none)] }

/-- A goroutine that had not run yet runs to its end. -/
def runTask (env : Env) (s : Cycle) (t : Task) : Cycle :=
  { s with
    world := (syncFile env s.world t.srcPath t.dstPath).world
    finished := s.finished ++ [(t, (syncFile env s.world t.srcPath t.dstPath).result)] }

/-- The call `wg.Wait()`: every goroutine that had not run yet has returned. -/
def wgWait (env : Env) (s : Cycle) : Cycle :=
  { s.pending.foldl (runTask env) s with pending := [], waited := true }

/-- The state when `syncDirectories` starts. -/
def Cycle.start (w : World) : Cycle := ⟨w, [], [], [], [], [], none, none, false⟩

/-- The walk over the source in `syncDirectories`. -/
def sourceWalk (env : Env) (w : World) : Cycle :=
  match WalkDir env w ⟨srcDir, []⟩ (srcVisit env) (Cycle.start w) with
  | (s, e) => { s with srcWalkErr := e }

/-- The walk over the destination in `syncDirectories`. -/
def destWalk (env : Env) (s : Cycle) : Cycle :=
  match WalkDir env s.world ⟨dstDir, []⟩ (dstVisit env) s with
  | (s1, e) => { s1 with dstWalkErr := e }

/-- The method `Syncer.syncDirectories`: the state when it returns. -/
def syncDirectories (env : Env) (w : World) : Cycle :=
  let s2 := destWalk env (sourceWalk env w)
  match s2.dstWalkErr with
  | some _ => s2
  | none => wgWait env ((env.rangeOrder s2.toDelete).foldl (removeStep env) s2)

/-- An environment where no call fails beyond what the trees explain, new files and
directories get the mode asked for, truncations and writes keep the mode, goroutines run
when they are spawned. -/
def Env.calm : Env :=
  { fails := fun _ _ => false
    createMode := fun m => m
    truncMode := fun _ m => m
    writeMode := fun _ m _ => m
    dirSize := fun _ => 4096
    runsAtSpawn := fun _ => true
    dstHashFirst := fun _ => false
    rangeOrder := fun l => l }

/-! ## Predicates of the statements -/

/-- Path `q` is `a` or lies below `a`. -/
def under (a q : List String) : Prop := ∃ s, q = a ++ s

/-- A change of a node that keeps what lies below it. -/
def keepsChildren (f : Option Node → Except Errno (Option Node)) : Prop :=
  ∀ r r', f r = .ok r' → ∀ x xs, lookup (x :: xs) r' = lookup (x :: xs) r

/-- The digest `CalculateSHA256` computes from the bytes of a file. -/
def digest (c : Bytes) : String := hex.EncodeToString (sha256.Sum c)

/-- No call fails for a reason outside the trees, and the loop over the `toDelete` map
visits each of its keys once. -/
structure Env.Benign (env : Env) : Prop where
  noFail : ∀ c p, env.fails c p = false
  order : ∀ l, (env.rangeOrder l).Perm l

/-- The parent directory of the path exists and has no entry of that name. -/
def absentAt (q : List String) (t : Option Node) : Prop := peek q t = .ok none

/-- The files of the test `TestSyncFile`, case "File already exists with different content". -/
def worldDifferent : World :=
  ⟨some (.dir 0o755 (.file "file.txt" 0o777 (asciiBytes "New Content") .nil)),
   some (.dir 0o755 (.file "file.txt" 0o644 (asciiBytes "Old Content") .nil))⟩

/-- The files of the test `TestSyncFile`, case "Both files empty", with different modes. -/
def worldEmpty : World :=
  ⟨some (.dir 0o755 (.file "file.txt" 0o600 [] .nil)),
   some (.dir 0o755 (.file "file.txt" 0o644 [] .nil))⟩

/-- A source with a directory `a` and a file `b.txt`; the destination has a regular file
named `a`. -/
def worldFileForDir : World :=
  ⟨some (.dir 0o755 (.dir "a" 0o755 .nil (.file "b.txt" 0o644 (asciiBytes "hi") .nil))),
   some (.dir 0o755 (.file "a" 0o644 [] .nil))⟩

/-- A source with a regular file `x`; the destination has a directory `x` that holds a
file `c`. -/
def worldDirForFile : World :=
  ⟨some (.dir 0o755 (.file "x" 0o644 (asciiBytes "hi") .nil)),
   some (.dir 0o755 (.dir "x" 0o755 (.file "c" 0o644 (asciiBytes "old") .nil) .nil))⟩

/-- A source with a directory `a` (holding `f`) and a file `b.txt`; an empty destination. -/
def worldTwoEntries : World :=
  ⟨some (.dir 0o755 (.dir "a" 0o755 (.file "f" 0o644 (asciiBytes "f") .nil)
      (.file "b.txt" 0o644 (asciiBytes "hi") .nil))),
   some (.dir 0o755 .nil)⟩

/-- An environment where creating the directory `a` of the destination fails. -/
def envMkdirFails : Env :=
  { Env.calm with fails := fun c p => decide (c = .mkdirAll ∧ p = ⟨.dst, ["a"]⟩) }

/-- A source with a directory `a` (holding `f`), a file `b.txt`, a directory `c` (holding
`g`) and a file `d.txt`; an empty destination. -/
def worldFourEntries : World :=
  ⟨some (.dir 0o755 (.dir "a" 0o700 (.file "f" 0o644 (asciiBytes "f") .nil)
      (.file "b.txt" 0o644 (asciiBytes "hi")
        (.dir "c" 0o755 (.file "g" 0o644 (asciiBytes "g") .nil)
          (.file "d.txt" 0o644 (asciiBytes "d") .nil))))),
   some (.dir 0o755 .nil)⟩

/-- An environment where creating the directory `c` of the destination fails. -/
def envMkdirFailsLate : Env :=
  { Env.calm with fails := fun c p => decide (c = .mkdirAll ∧ p = ⟨.dst, ["c"]⟩) }

/-- A source with a file `a.txt`; the destination has a directory `old` that the source
does not have. -/
def worldOld : World :=
  ⟨some (.dir 0o755 (.file "a.txt" 0o644 (asciiBytes "hi") .nil)),
   some (.dir 0o755 (.dir "old" 0o000 .nil .nil))⟩

/-- An environment where the directory `old` of the destination cannot be read and the
goroutines have not run when the walks are over. -/
def envUnreadable : Env :=
  { Env.calm with
    fails := fun c p => decide (c = .readDir ∧ p = ⟨.dst, ["old"]⟩)
    runsAtSpawn := fun _ => false }

/-- What holds of the goroutines and of the keys of `toDelete` all along a cycle that
started in the world `w`: the source tree is the one of `w`; every goroutine was started
for a source path on which `os.Stat` succeeded, with the mirrored destination path; every
key of `toDelete` mirrors a source path on which `os.Stat` answered "does not exist". -/
def Planned (env : Env) (w : World) (s : Cycle) : Prop :=
  s.world.src = w.src ∧
  (∀ t ∈ s.spawned, ∃ rel i, t.srcPath = ⟨.src, rel⟩ ∧ t.dstPath = ⟨.dst, rel⟩ ∧
    Stat env w ⟨.src, rel⟩ = .ok i) ∧
  (∀ d ∈ s.toDelete, ∃ rel, d = ⟨.dst, rel⟩ ∧ IsNotExist (Stat env w ⟨.src, rel⟩) = true)

/-- The entries below a directory in the order in which `filepath.WalkDir` reaches them:
each entry, then for a directory its own entries, then the entries that follow it. -/
def entries (b : Base) : List String → Listing → List (Path × DirEntry)
  | _, .nil => []
  | a, .file n _ _ rest => (⟨b, a ++ [n]⟩, ⟨n, false⟩) :: entries b a rest
  | a, .dir n _ ch rest =>
    (⟨b, a ++ [n]⟩, ⟨n, true⟩) :: (entries b (a ++ [n]) ch ++ entries b a rest)

/-- The callback on a list of entries, one after the other, up to its first error. -/
def visits {σ : Type} (fn : WalkDirFunc σ) : List (Path × DirEntry) → σ → σ × Option Errno
  | [], s => (s, none)
  | (p, d) :: es, s =>
    match fn s p (some d) none with
    | (s1, some e) => (s1, some e)
    | (s1, none) => visits fn es s1

/-- Whether a node is a directory. -/
def Node.isDir : Node → Bool
  | .file _ _ => false
  | .dir _ _ => true

/-- No path is a directory in one tree and a regular file in the other. -/
def Compat (S D : Option Node) : Prop :=
  ∀ q ns nd, lookup q S = .ok ns → lookup q D = .ok nd → ns.isDir = nd.isDir

/-- Where both trees have a regular file at a path, equal digests mean equal bytes. -/
def NoCollision (S D : Option Node) : Prop :=
  ∀ q m c m' c', lookup q S = .ok (.file m c) → lookup q D = .ok (.file m' c') →
    digest c = digest c' → c = c'

/-- The source directory at `a` exists in the tree `t` with the mode of the source. -/
def DirDone (S t : Option Node) (a : List String) : Prop :=
  ∃ m l, lookup a S = .ok (.dir m l) ∧ infoAt a t = .ok (.dir m)

/-- What `syncFile` leaves at `q` for a source file with mode `m` and bytes `c`, where
`D0` is the destination before the cycle: the copy of the source (with the mode that the
write leaves of `m`), or the file that `D0` had there when its digest is that of the
source. -/
def FilePost (env : Env) (D0 t : Option Node) (q : List String) (m : Mode) (c : Bytes) :
    Prop :=
  infoAt q t = .ok (.file (env.writeMode ⟨.dst, q⟩ m c) c) ∨
  ∃ m' c', infoAt q D0 = .ok (.file m' c') ∧ digest c = digest c' ∧
    infoAt q t = .ok (.file m' c')

/-- What holds of the destination tree `t` all along a cycle on compatible trees: it is
well formed; a source directory is there as a directory or not at all; a source file is
as the destination had it before the cycle, or is the copy of the source. -/
structure Inv (env : Env) (S D0 t : Option Node) : Prop where
  wf : treeWf t = true
  dirs : ∀ q m l, lookup q S = .ok (.dir m l) →
    infoAt q t = .error .ENOENT ∨ ∃ m', infoAt q t = .ok (.dir m')
  files : ∀ q m c, lookup q S = .ok (.file m c) →
    infoAt q t = infoAt q D0 ∨ infoAt q t = .ok (.file (env.writeMode ⟨.dst, q⟩ m c) c)

/-- The progress made in `t` is kept in `t'`. -/
def Ext (env : Env) (S D0 t t' : Option Node) : Prop :=
  (∀ a, DirDone S t a → DirDone S t' a) ∧
  (∀ q m c, lookup q S = .ok (.file m c) → FilePost env D0 t q m c → FilePost env D0 t' q m c)

/-- What holds of the state of a cycle on compatible trees, from the start of the walk
over the source on: the source tree is unchanged, the destination satisfies `Inv`, every
goroutine that has not run was started for a source file whose parent directory is
mirrored, and no goroutine has returned an error. -/
structure Good (env : Env) (S D0 : Option Node) (s : Cycle) : Prop where
  src : s.world.src = S
  inv : Inv env S D0 s.world.dst
  pend : ∀ t ∈ s.pending, ∃ a x m c, t = ⟨⟨.src, a ++ [x]⟩, ⟨.dst, a ++ [x]⟩⟩ ∧
    lookup (a ++ [x]) S = .ok (.file m c) ∧ DirDone S s.world.dst a
  fin : ∀ tr ∈ s.finished, ∃ b, tr.2 = .ok b

/-- The source path `q` has been dealt with: a directory is mirrored; a file has been
synchronised or its goroutine is started. -/
def Done (env : Env) (S D0 : Option Node) (s : Cycle) (q : List String) : Prop :=
  (∀ m l, lookup q S = .ok (.dir m l) → infoAt q s.world.dst = .ok (.dir m)) ∧
  (∀ m c, lookup q S = .ok (.file m c) →
    FilePost env D0 s.world.dst q m c ∨ (⟨⟨.src, q⟩, ⟨.dst, q⟩⟩ : Task) ∈ s.pending)

/-- The state `s'` comes later than `s` in the walk over the source. -/
def Later (env : Env) (S D0 : Option Node) (s s' : Cycle) : Prop :=
  Ext env S D0 s.world.dst s'.world.dst ∧ (∀ t ∈ s.pending, t ∈ s'.pending)

/-- A source with one file that has the set-uid bit; the destination is an empty
directory. -/
def worldSetuid : World :=
  ⟨some (.dir 0o755 (.file "tool" 0o4755 (asciiBytes "hi") .nil)), some (.dir 0o755 .nil)⟩

/-- An environment where no call fails and every write clears the set-uid and set-gid
bits of the file, as for a process without privilege. -/
def envUnprivileged : Env :=
  { Env.calm with writeMode := fun _ m _ => m % 0o2000 }

/-- A source with a directory `a` (holding `f`) and a file `b.txt`; the destination has an
older `b.txt` with another mode and a file `old.txt` that the source does not have. -/
def worldUpdate : World :=
  ⟨some (.dir 0o755 (.dir "a" 0o700 (.file "f" 0o600 (asciiBytes "f") .nil)
      (.file "b.txt" 0o644 (asciiBytes "hi") .nil))),
   some (.dir 0o777 (.file "b.txt" 0o600 (asciiBytes "old") (.file "old.txt" 0o600 [] .nil)))⟩

/-- The destination `T` is in step with the source `S`: it is well formed, every source
directory is there with its mode, every source file is there as a regular file with the
same digest, and it has no path that the source does not have. -/
structure Synced (S T : Option Node) : Prop where
  wf : treeWf T = true
  dirs : ∀ q m l, lookup q S = .ok (.dir m l) → infoAt q T = .ok (.dir m)
  files : ∀ q m c, lookup q S = .ok (.file m c) →
    ∃ m' c', lookup q T = .ok (.file m' c') ∧ digest c = digest c'
  only : ∀ q n, lookup q T = .ok n → ∃ n', lookup q S = .ok n'

/-- The state of a cycle that has changed nothing: the file system is the one it started
with, every goroutine that has returned took a skip branch, those that have not run were
started for source files, nothing is marked for deletion or removed. -/
structure Idle (S T : Option Node) (s : Cycle) : Prop where
  world : s.world = ⟨S, T⟩
  fin : ∀ tr ∈ s.finished, tr.2 = .ok .skippedEmpty ∨ tr.2 = .ok .skippedSameHash
  pend : ∀ t ∈ s.pending, ∃ q m c, t = ⟨⟨.src, q⟩, ⟨.dst, q⟩⟩ ∧ lookup q S = .ok (.file m c)
  del : s.toDelete = []
  rem : s.removed = []
  count : s.spawned.length = s.finished.length + s.pending.length

/-! ## Theorems: the fingerprint -/

theorem sha256_word_lt (w v : Nat) (h : v ∈ sha256.word w) : v < 256 := by
  simp only [sha256.word, List.mem_cons, List.mem_singleton, List.not_mem_nil, or_false] at h
  rcases h with h | h | h | h <;> subst h <;> exact Nat.mod_lt _ (by decide)

theorem sha256_Sum_lt (b : List Nat) (v : Nat) (h : v ∈ sha256.Sum b) : v < 256 := by
  simp only [sha256.Sum, sha256.bytes, List.mem_append] at h
  rcases h with ((((((h | h) | h) | h) | h) | h) | h) | h <;> exact sha256_word_lt _ v h

theorem sha256_Sum_length (b : List Nat) : (sha256.Sum b).length = 32 := by
  simp [sha256.Sum, sha256.bytes, sha256.word]

theorem hex_encode_length (src : List Nat) : (hex.encode src).length = 2 * src.length := by
  induction src with
  | nil => rfl
  | cons v t ih =>
    simp only [hex.encode, List.flatMap_cons, List.length_append, List.length_cons,
      List.length_nil] at ih ⊢
    omega

theorem hextable_getD_mem (i : Nat) (h : i < 16) : hex.hextable.getD i '0' ∈ hex.hextable := by
  have : ∀ j, j < 16 → hex.hextable.getD j '0' ∈ hex.hextable := by decide
  exact this i h

theorem hex_encode_mem (src : List Nat) (hs : ∀ v ∈ src, v < 256) (c : Char)
    (h : c ∈ hex.encode src) : c ∈ hex.hextable := by
  simp only [hex.encode, List.mem_flatMap, List.mem_cons, List.mem_singleton,
    List.not_mem_nil, or_false] at h
  obtain ⟨v, hv, h | h⟩ := h
  · subst h
    exact hextable_getD_mem _ (by have := hs v hv; omega)
  · subst h
    exact hextable_getD_mem _ (Nat.mod_lt _ (by decide))

/-- The digest that `CalculateSHA256` returns is never the empty string. -/
theorem digest_ne_empty (b : List Nat) : hex.EncodeToString (sha256.Sum b) ≠ "" := by
  intro h
  have h1 : (hex.EncodeToString (sha256.Sum b)).length = 64 := by
    simp [hex.EncodeToString, String.length, hex_encode_length, sha256_Sum_length]
  rw [h] at h1
  exact absurd h1 (by decide)

set_option maxRecDepth 100000 in
/-- C6: on a readable file with bytes `b`, `CalculateSHA256` returns no error and the
hexadecimal encoding of the SHA-256 checksum of `b`; that string has 64 characters, all of
them among `0-9a-f`; for the content "hello world" and for the empty content it is the
value the tests expect. -/
theorem calculateSHA256_spec (env : Env) (w : World) (filePath : Path) (m : Mode) (b : Bytes)
    (hfile : w.node filePath = .ok (.file m b))
    (hopen : env.fails .open filePath = false) (hread : env.fails .read filePath = false) :
    CalculateSHA256 env w filePath = .ok (hex.EncodeToString (sha256.Sum b)) ∧
    (hex.EncodeToString (sha256.Sum b)).length = 64 ∧
    (∀ c ∈ (hex.EncodeToString (sha256.Sum b)).data, c ∈ "0123456789abcdef".data) ∧
    hex.EncodeToString (sha256.Sum (asciiBytes "hello world")) =
      "b94d27b9934d3e08a52e52d7da7dabfac484efe37a5380ee9088f7ace2efcde9" ∧
    hex.EncodeToString (sha256.Sum []) =
      "e3b0c44298fc1c149afbf4c8996fb92427ae41e4649b934ca495991b7852b855" := by
  refine ⟨?_, ?_, ?_, by decide, by decide⟩
  · simp [CalculateSHA256, Open, hopen, hfile, readAll, hread]
  · simp [hex.EncodeToString, String.length, hex_encode_length, sha256_Sum_length]
  · intro c hc
    exact hex_encode_mem _ (sha256_Sum_lt b) c hc

/-- C6 at a file that holds "hello world". -/
theorem calculateSHA256_spec_witness :
    CalculateSHA256 Env.calm
        ⟨some (.dir 0o755 (.file "a.txt" 0o644 (asciiBytes "hello world") .nil)), none⟩
        ⟨.src, ["a.txt"]⟩ =
      .ok "b94d27b9934d3e08a52e52d7da7dabfac484efe37a5380ee9088f7ace2efcde9" := by
  have h := calculateSHA256_spec Env.calm
    ⟨some (.dir 0o755 (.file "a.txt" 0o644 (asciiBytes "hello world") .nil)), none⟩
    ⟨.src, ["a.txt"]⟩ 0o644 (asciiBytes "hello world") (by decide) (by decide) (by decide)
  rw [h.1, h.2.2.2.1]

/-! ## Lemmas on listings -/

namespace Listing

theorem find_entry (x y : String) (nd : Node) (rest : Listing) :
    (entry x nd rest).find y = if y = x then some nd else rest.find y := by
  cases nd <;> simp [entry, find]

theorem find_insert (x y : String) (nd : Node) (l : Listing) (h : y = x → l.find x = none) :
    (insert x nd l).find y = if y = x then some nd else l.find y := by
  induction l with
  | nil => simp [insert, find_entry, find]
  | file n m c rest ih =>
    simp only [insert]
    split
    · simp [find_entry]
    · by_cases hy : y = n
      · subst hy
        by_cases hx : y = x
        · have := h hx
          subst hx
          simp [find] at this
        · simp [find, hx]
      · have ih' := ih (fun e => by
          have := h e
          subst e
          simpa [find, hy] using this)
        simp [find, hy, ih']
  | dir n m ch rest _ ih =>
    simp only [insert]
    split
    · simp [find_entry]
    · by_cases hy : y = n
      · subst hy
        by_cases hx : y = x
        · have := h hx
          subst hx
          simp [find] at this
        · simp [find, hx]
      · have ih' := ih (fun e => by
          have := h e
          subst e
          simpa [find, hy] using this)
        simp [find, hy, ih']

theorem find_replace (x y : String) (nd : Node) (l : Listing) :
    (replace x nd l).find y =
      if y = x then (if (l.find x).isSome then some nd else none) else l.find y := by
  induction l with
  | nil => simp [replace, find]
  | file n m c rest ih =>
    by_cases hx : x = n
    · subst hx
      by_cases hy : y = x <;> simp [replace, find, find_entry, hy]
    · by_cases hy : y = n
      · subst hy
        have : ¬ y = x := fun e => hx e.symm
        simp [replace, find, hx, this]
      · simp [replace, find, hx, hy, ih]
  | dir n m ch rest _ ih =>
    by_cases hx : x = n
    · subst hx
      by_cases hy : y = x <;> simp [replace, find, find_entry, hy]
    · by_cases hy : y = n
      · subst hy
        have : ¬ y = x := fun e => hx e.symm
        simp [replace, find, hx, this]
      · simp [replace, find, hx, hy, ih]

theorem find_set (l : Listing) (x y : String) (nd : Node) :
    (l.set x nd).find y = if y = x then some nd else l.find y := by
  unfold set
  split
  · rename_i h
    simp [find_replace, h]
  · rename_i h
    have h' : l.find x = none := by simpa using h
    exact find_insert x y nd l (fun _ => h')

theorem find_erase (x y : String) (l : Listing) :
    (erase x l).find y = if y = x then none else l.find y := by
  induction l with
  | nil => simp [erase, find]
  | file n m c rest ih =>
    by_cases hx : x = n
    · subst hx
      by_cases hy : y = x
      · subst hy
        simpa [erase, find] using ih
      · simp [erase, find, ih, hy]
    · by_cases hy : y = n
      · subst hy
        have : ¬ y = x := fun e => hx e.symm
        simp [erase, find, hx, this]
      · simp [erase, find, hx, hy, ih]
  | dir n m ch rest _ ih =>
    by_cases hx : x = n
    · subst hx
      by_cases hy : y = x
      · subst hy
        simpa [erase, find] using ih
      · simp [erase, find, ih, hy]
    · by_cases hy : y = n
      · subst hy
        have : ¬ y = x := fun e => hx e.symm
        simp [erase, find, hx, this]
      · simp [erase, find, hx, hy, ih]

theorem find_put (l : Listing) (x y : String) (r : Option Node) :
    (l.put x r).find y = if y = x then r else l.find y := by
  cases r with
  | none => simp [put, find_erase]
  | some nd => simp [put, find_set]

theorem erase_of_find_none (x : String) (l : Listing) (h : l.find x = none) : erase x l = l := by
  induction l with
  | nil => rfl
  | file n m c rest ih =>
    by_cases hx : x = n
    · simp [find, hx] at h
    · simp [find, hx] at h
      simp [erase, hx, ih h]
  | dir n m ch rest _ ih =>
    by_cases hx : x = n
    · simp [find, hx] at h
    · simp [find, hx] at h
      simp [erase, hx, ih h]

theorem replace_of_find (x : String) (nd : Node) (l : Listing) (h : l.find x = some nd) :
    replace x nd l = l := by
  induction l with
  | nil => rfl
  | file n m c rest ih =>
    by_cases hx : x = n
    · simp [find, hx] at h
      subst h
      simp [replace, hx, entry]
    · simp [find, hx] at h
      simp [replace, hx, ih h]
  | dir n m ch rest _ ih =>
    by_cases hx : x = n
    · simp [find, hx] at h
      subst h
      simp [replace, hx, entry]
    · simp [find, hx] at h
      simp [replace, hx, ih h]

/-- Writing back what a name denotes changes nothing. -/
theorem put_find_self (l : Listing) (x : String) : l.put x (l.find x) = l := by
  cases h : l.find x with
  | none => simp [put, erase_of_find_none x l h]
  | some nd => simp [put, set, h, replace_of_find x nd l h]

theorem wf_file_iff (n : String) (m : Mode) (c : Bytes) (rest : Listing) :
    (Listing.file n m c rest).wf = true ↔ rest.find n = none ∧ rest.wf = true := by
  cases h : rest.find n <;> simp [wf, h]

theorem wf_dir_iff (n : String) (m : Mode) (ch rest : Listing) :
    (Listing.dir n m ch rest).wf = true ↔
      rest.find n = none ∧ ch.wf = true ∧ rest.wf = true := by
  cases h : rest.find n <;> simp [wf, h, and_assoc]

theorem wf_entry_iff (x : String) (nd : Node) (rest : Listing) :
    (entry x nd rest).wf = true ↔ rest.find x = none ∧ nd.wf = true ∧ rest.wf = true := by
  cases nd with
  | file m c => simp [entry, wf_file_iff, Node.wf]
  | dir m ch => simp [entry, wf_dir_iff, Node.wf]

theorem wf_insert (x : String) (nd : Node) (l : Listing) (hx : l.find x = none)
    (hn : nd.wf = true) (hl : l.wf = true) : (insert x nd l).wf = true := by
  induction l with
  | nil => simp [insert, wf_entry_iff, find, hn, wf]
  | file n m c rest ih =>
    simp only [insert]
    split
    · exact (wf_entry_iff _ _ _).2 ⟨hx, hn, hl⟩
    · have hne : ¬ x = n := by
        intro e
        simp [find, e] at hx
      have hx' : rest.find x = none := by simpa [find, hne] using hx
      rw [wf_file_iff] at hl ⊢
      refine ⟨?_, ih hx' hl.2⟩
      rw [find_insert x n nd rest (fun _ => hx')]
      have hne' : ¬ n = x := fun e => hne e.symm
      simp [hne', hl.1]
  | dir n m ch rest _ ih =>
    simp only [insert]
    split
    · exact (wf_entry_iff _ _ _).2 ⟨hx, hn, hl⟩
    · have hne : ¬ x = n := by
        intro e
        simp [find, e] at hx
      have hx' : rest.find x = none := by simpa [find, hne] using hx
      rw [wf_dir_iff] at hl ⊢
      refine ⟨?_, hl.2.1, ih hx' hl.2.2⟩
      rw [find_insert x n nd rest (fun _ => hx')]
      have hne' : ¬ n = x := fun e => hne e.symm
      simp [hne', hl.1]

theorem wf_replace (x : String) (nd : Node) (l : Listing)
    (hn : nd.wf = true) (hl : l.wf = true) : (replace x nd l).wf = true := by
  induction l with
  | nil => simp [replace, wf]
  | file n m c rest ih =>
    rw [wf_file_iff] at hl
    by_cases hx : x = n
    · subst hx
      simp only [replace, if_true]
      exact (wf_entry_iff _ _ _).2 ⟨hl.1, hn, hl.2⟩
    · have hne' : ¬ n = x := fun e => hx e.symm
      simp only [replace, hx, if_false]
      rw [wf_file_iff]
      exact ⟨by simp [find_replace, hne', hl.1], ih hl.2⟩
  | dir n m ch rest _ ih =>
    rw [wf_dir_iff] at hl
    by_cases hx : x = n
    · subst hx
      simp only [replace, if_true]
      exact (wf_entry_iff _ _ _).2 ⟨hl.1, hn, hl.2.2⟩
    · have hne' : ¬ n = x := fun e => hx e.symm
      simp only [replace, hx, if_false]
      rw [wf_dir_iff]
      exact ⟨by simp [find_replace, hne', hl.1], hl.2.1, ih hl.2.2⟩

theorem wf_erase (x : String) (l : Listing) (hl : l.wf = true) : (erase x l).wf = true := by
  induction l with
  | nil => simp [erase, wf]
  | file n m c rest ih =>
    rw [wf_file_iff] at hl
    by_cases hx : x = n
    · simp only [erase, hx, if_true]
      exact hx ▸ ih hl.2
    · have hne' : ¬ n = x := fun e => hx e.symm
      simp only [erase, hx, if_false]
      rw [wf_file_iff]
      exact ⟨by simp [find_erase, hne', hl.1], ih hl.2⟩
  | dir n m ch rest _ ih =>
    rw [wf_dir_iff] at hl
    by_cases hx : x = n
    · simp only [erase, hx, if_true]
      exact hx ▸ ih hl.2.2
    · have hne' : ¬ n = x := fun e => hx e.symm
      simp only [erase, hx, if_false]
      rw [wf_dir_iff]
      exact ⟨by simp [find_erase, hne', hl.1], hl.2.1, ih hl.2.2⟩

theorem wf_put (l : Listing) (x : String) (r : Option Node) (hr : treeWf r = true)
    (hl : l.wf = true) : (l.put x r).wf = true := by
  cases r with
  | none => exact wf_erase x l hl
  | some nd =>
    simp only [put, set]
    split
    · exact wf_replace x nd l hr hl
    · rename_i h
      exact wf_insert x nd l (by simpa using h) hr hl

theorem wf_find (l : Listing) (x : String) (nd : Node) (hl : l.wf = true)
    (h : l.find x = some nd) : nd.wf = true := by
  induction l with
  | nil => simp [find] at h
  | file n m c rest ih =>
    rw [wf_file_iff] at hl
    by_cases hx : x = n
    · simp [find, hx] at h
      subst h
      rfl
    · simp [find, hx] at h
      exact ih hl.2 h
  | dir n m ch rest _ ih =>
    rw [wf_dir_iff] at hl
    by_cases hx : x = n
    · simp [find, hx] at h
      subst h
      exact hl.2.1
    · simp [find, hx] at h
      exact ih hl.2.2 h

end Listing
/-! ## Lemmas on trees -/

theorem lookup_nil (t : Option Node) :
    lookup [] t = match t with | none => .error .ENOENT | some n => .ok n := by
  cases t <;> rfl

theorem lookup_eq_peek (q : List String) (t : Option Node) :
    lookup q t = match peek q t with
      | .error e => .error e
      | .ok none => .error .ENOENT
      | .ok (some n) => .ok n := by
  induction q generalizing t with
  | nil => cases t <;> simp [lookup, peek]
  | cons x xs ih =>
    cases t with
    | none => simp [lookup, peek]
    | some n =>
      cases n with
      | file m c => simp [lookup, peek]
      | dir m l => simp only [lookup, peek]; exact ih _

theorem lookup_append (a s : List String) (t : Option Node) :
    lookup (a ++ s) t = match peek a t with
      | .error e => .error e
      | .ok r => lookup s r := by
  induction a generalizing t with
  | nil => simp [peek]
  | cons x xs ih =>
    cases t with
    | none => simp [lookup, peek]
    | some n =>
      cases n with
      | file m c => simp [lookup, peek]
      | dir m l => simp only [List.cons_append, lookup, peek]; exact ih _

theorem peek_append (a s : List String) (t : Option Node) :
    peek (a ++ s) t = match peek a t with
      | .error e => .error e
      | .ok r => peek s r := by
  induction a generalizing t with
  | nil => simp [peek]
  | cons x xs ih =>
    cases t with
    | none =>
      cases s <;> simp [peek]
    | some n =>
      cases n with
      | file m c => cases s <;> simp [peek]
      | dir m l => simp only [List.cons_append, peek]; exact ih _

/-- What `alter` does where it succeeds: it reaches the place, applies `f`, and the result
of `f` is what the place holds afterwards. -/
theorem alter_ok (f : Option Node → Except Errno (Option Node)) (a : List String)
    (t t' : Option Node) (h : alter f a t = .ok t') :
    ∃ r r', peek a t = .ok r ∧ f r = .ok r' ∧ peek a t' = .ok r' := by
  induction a generalizing t t' with
  | nil => exact ⟨t, t', rfl, h, rfl⟩
  | cons x xs ih =>
    cases t with
    | none => simp [alter] at h
    | some n =>
      cases n with
      | file m c => simp [alter] at h
      | dir m l =>
        simp only [alter] at h
        cases hr : alter f xs (l.find x) with
        | error e => simp [hr] at h
        | ok r0 =>
          simp only [hr, Except.ok.injEq] at h
          obtain ⟨r, r', h1, h2, h3⟩ := ih _ _ hr
          subst h
          exact ⟨r, r', by simpa [peek] using h1, h2, by simpa [peek, Listing.find_put] using h3⟩

/-- Where the place can be reached and `f` succeeds, `alter` succeeds. -/
theorem alter_exists (f : Option Node → Except Errno (Option Node)) (a : List String)
    (t r r' : Option Node) (hp : peek a t = .ok r) (hf : f r = .ok r') :
    ∃ t', alter f a t = .ok t' := by
  induction a generalizing t with
  | nil =>
    simp only [peek, Except.ok.injEq] at hp
    subst hp
    exact ⟨r', hf⟩
  | cons x xs ih =>
    cases t with
    | none => simp [peek] at hp
    | some n =>
      cases n with
      | file m c => simp [peek] at hp
      | dir m l =>
        simp only [peek] at hp
        obtain ⟨t1, h1⟩ := ih _ hp
        exact ⟨some (.dir m (l.put x t1)), by simp [alter, h1]⟩

/-- The error of `alter` is the error of reaching the place or the error of `f`. -/
theorem alter_error (f : Option Node → Except Errno (Option Node)) (a : List String)
    (t : Option Node) (e : Errno) (h : alter f a t = .error e) :
    peek a t = .error e ∨ ∃ r, peek a t = .ok r ∧ f r = .error e := by
  induction a generalizing t with
  | nil => exact Or.inr ⟨t, rfl, h⟩
  | cons x xs ih =>
    cases t with
    | none =>
      simp only [alter, Except.error.injEq] at h
      subst h
      exact Or.inl rfl
    | some n =>
      cases n with
      | file m c =>
        simp only [alter, Except.error.injEq] at h
        subst h
        exact Or.inl rfl
      | dir m l =>
        simp only [alter] at h
        cases hr : alter f xs (l.find x) with
        | error e1 =>
          simp only [hr, Except.error.injEq] at h
          subst h
          simpa [peek] using ih _ hr
        | ok r0 => simp [hr] at h

/-- A change at `a` is not seen at a path that is neither `a` nor below `a`. -/
theorem alter_frame (f : Option Node → Except Errno (Option Node)) (a q : List String)
    (t t' : Option Node) (h : alter f a t = .ok t') (hq : ¬ under a q) :
    infoAt q t' = infoAt q t := by
  induction a generalizing t t' q with
  | nil => exact absurd ⟨q, rfl⟩ hq
  | cons x xs ih =>
    cases t with
    | none => simp [alter] at h
    | some n =>
      cases n with
      | file m c => simp [alter] at h
      | dir m l =>
        simp only [alter] at h
        cases hr : alter f xs (l.find x) with
        | error e => simp [hr] at h
        | ok r0 =>
          simp only [hr, Except.ok.injEq] at h
          subst h
          cases q with
          | nil => simp [infoAt, lookup, Node.info]
          | cons y ys =>
            by_cases hy : y = x
            · subst hy
              have hys : ¬ under xs ys := by
                rintro ⟨s, rfl⟩
                exact hq ⟨s, rfl⟩
              have := ih ys _ _ hr hys
              simpa [infoAt, lookup, Listing.find_put] using this
            · simp [infoAt, lookup, Listing.find_put, hy]

/-- A change at `a` that keeps what lies below is seen at `a` only. -/
theorem alter_frame_keeps (f : Option Node → Except Errno (Option Node)) (a q : List String)
    (t t' : Option Node) (h : alter f a t = .ok t') (hf : keepsChildren f) (hq : q ≠ a) :
    infoAt q t' = infoAt q t := by
  by_cases hu : under a q
  · obtain ⟨s, rfl⟩ := hu
    obtain ⟨r, r', h1, h2, h3⟩ := alter_ok f a t t' h
    cases s with
    | nil => simp at hq
    | cons x xs =>
      simp only [infoAt, lookup_append, h1, h3]
      rw [hf r r' h2 x xs]
  · exact alter_frame f a q t t' h hu

/-- A change that changes nothing at the place changes nothing at all. -/
theorem alter_id (f : Option Node → Except Errno (Option Node)) (a : List String)
    (t r : Option Node) (hp : peek a t = .ok r) (hf : f r = .ok r) : alter f a t = .ok t := by
  induction a generalizing t with
  | nil =>
    simp only [peek, Except.ok.injEq] at hp
    subst hp
    exact hf
  | cons x xs ih =>
    cases t with
    | none => simp [peek] at hp
    | some n =>
      cases n with
      | file m c => simp [peek] at hp
      | dir m l =>
        simp only [peek] at hp
        simp [alter, ih _ hp, Listing.put_find_self]

theorem treeWf_find (l : Listing) (x : String) (hl : l.wf = true) :
    treeWf (l.find x) = true := by
  cases h : l.find x with
  | none => rfl
  | some nd => exact Listing.wf_find l x nd hl h

/-- A change keeps the tree well formed when `f` does. -/
theorem alter_wf (f : Option Node → Except Errno (Option Node)) (a : List String)
    (t t' : Option Node) (h : alter f a t = .ok t') (ht : treeWf t = true)
    (hf : ∀ r r', f r = .ok r' → treeWf r = true → treeWf r' = true) : treeWf t' = true := by
  induction a generalizing t t' with
  | nil => exact hf t t' h ht
  | cons x xs ih =>
    cases t with
    | none => simp [alter] at h
    | some n =>
      cases n with
      | file m c => simp [alter] at h
      | dir m l =>
        simp only [alter] at h
        cases hr : alter f xs (l.find x) with
        | error e => simp [hr] at h
        | ok r0 =>
          simp only [hr, Except.ok.injEq] at h
          subst h
          have hl : l.wf = true := ht
          exact Listing.wf_put l x r0 (ih _ _ hr (treeWf_find l x hl)) hl

/-- Where the parent exists, `MkdirAll` is a `mkdir` at the path. -/
theorem mkdirAllTree_eq_alter (perm : Mode) (a : List String) (t r : Option Node)
    (hp : peek a t = .ok r) :
    alter (mkdirNode perm) a t =
      match mkdirAllTree perm a t with
      | .error e => .error e
      | .ok n => .ok (some n) := by
  induction a generalizing t with
  | nil =>
    cases t with
    | none => rfl
    | some n => cases n <;> rfl
  | cons x xs ih =>
    cases t with
    | none => simp [peek] at hp
    | some n =>
      cases n with
      | file m c => simp [peek] at hp
      | dir m l =>
        simp only [peek] at hp
        simp only [alter, mkdirAllTree, ih _ hp]
        cases mkdirAllTree perm xs (l.find x) <;> simp [Listing.put]

theorem keepsChildren_mkdirNode (perm : Mode) : keepsChildren (mkdirNode perm) := by
  intro r r' h x xs
  cases r with
  | none =>
    simp only [mkdirNode, Except.ok.injEq] at h
    subst h
    simp [lookup, Listing.find]
  | some n =>
    cases n with
    | file m c => simp [mkdirNode] at h
    | dir m l =>
      simp only [mkdirNode, Except.ok.injEq] at h
      subst h
      rfl

theorem keepsChildren_chmodNode (m : Mode) : keepsChildren (chmodNode m) := by
  intro r r' h x xs
  cases r with
  | none => simp [chmodNode] at h
  | some n =>
    cases n with
    | file m0 c =>
      simp only [chmodNode, Except.ok.injEq] at h
      subst h
      simp [lookup]
    | dir m0 l =>
      simp only [chmodNode, Except.ok.injEq] at h
      subst h
      simp [lookup]

/-! ## Lemmas on the calls and on `syncFile` -/

theorem Env.calm_benign : Env.calm.Benign := ⟨fun _ _ => rfl, fun _ => List.Perm.refl _⟩

theorem envUnprivileged_benign : envUnprivileged.Benign :=
  ⟨fun _ _ => rfl, fun _ => List.Perm.refl _⟩

@[simp] theorem World.node_src (w : World) (q : List String) :
    w.node ⟨.src, q⟩ = lookup q w.src := rfl

@[simp] theorem World.node_dst (w : World) (q : List String) :
    w.node ⟨.dst, q⟩ = lookup q w.dst := rfl

theorem World.change_dst (w : World) (q : List String)
    (f : Option Node → Except Errno (Option Node)) :
    w.change ⟨.dst, q⟩ f = match alter f q w.dst with
      | .error e => .error e
      | .ok t => .ok ⟨w.src, t⟩ := rfl

theorem alter_ok_at (f : Option Node → Except Errno (Option Node)) (a : List String)
    (t t' r : Option Node) (h : alter f a t = .ok t') (hp : peek a t = .ok r) :
    ∃ r', f r = .ok r' ∧ peek a t' = .ok r' := by
  obtain ⟨r0, r', h1, h2, h3⟩ := alter_ok f a t t' h
  rw [hp] at h1
  cases h1
  exact ⟨r', h2, h3⟩

theorem peek_of_lookup (q : List String) (t : Option Node) (n : Node)
    (h : lookup q t = .ok n) : peek q t = .ok (some n) := by
  rw [lookup_eq_peek] at h
  cases hp : peek q t with
  | error e => simp [hp] at h
  | ok r =>
    cases r with
    | none => simp [hp] at h
    | some n' =>
      simp only [hp, Except.ok.injEq] at h
      rw [h]

theorem lookup_of_peek (q : List String) (t : Option Node) (n : Node)
    (h : peek q t = .ok (some n)) : lookup q t = .ok n := by
  rw [lookup_eq_peek, h]

theorem lookup_of_absent (q : List String) (t : Option Node)
    (h : peek q t = .ok none) : lookup q t = .error .ENOENT := by
  rw [lookup_eq_peek, h]

theorem calculateSHA256_file (env : Env) (hb : env.Benign) (w : World) (p : Path)
    (m : Mode) (c : Bytes) (h : w.node p = .ok (.file m c)) :
    CalculateSHA256 env w p = .ok (digest c) := by
  simp [CalculateSHA256, Open, hb.noFail, h, readAll, digest]

theorem collect_pair (a b : String) (ha : a ≠ "") : collect [a, b] = (a, b) := by
  simp [collect, ha]

/-- The comparison of two digests that were both computed. -/
theorem compareHashes_ok (env : Env) (w : World) (sp dp : Path) (hs hd : String)
    (h1 : CalculateSHA256 env w sp = .ok hs) (h2 : CalculateSHA256 env w dp = .ok hd)
    (n1 : hs ≠ "") (n2 : hd ≠ "") :
    compareHashes env w sp dp = .ok (decide (hs = hd)) := by
  unfold compareHashes arrivals
  rw [h1, h2]
  by_cases ho : env.dstHashFirst dp = true
  · have e1 : errChan [Except.ok hd, Except.ok hs] = [] := rfl
    have e2 : hashChan [Except.ok hd, Except.ok hs] = [hd, hs] := rfl
    rw [if_pos ho]
    simp only [e1, e2, collect_pair hd hs n2]
    simp [eq_comm]
  · have e1 : errChan [Except.ok hs, Except.ok hd] = [] := rfl
    have e2 : hashChan [Except.ok hs, Except.ok hd] = [hs, hd] := rfl
    rw [if_neg ho]
    simp only [e1, e2, collect_pair hs hd n1]

theorem treeWf_truncNode (m : Mode) (keep : Mode → Mode) (r r' : Option Node)
    (h : truncNode m keep r = .ok r')
    (_ : treeWf r = true) : treeWf r' = true := by
  cases r with
  | none => simp only [truncNode, Except.ok.injEq] at h; subst h; rfl
  | some n =>
    cases n with
    | file m0 c => simp only [truncNode, Except.ok.injEq] at h; subst h; rfl
    | dir m0 l => simp [truncNode] at h

theorem treeWf_chmodNode (m : Mode) (r r' : Option Node) (h : chmodNode m r = .ok r')
    (hr : treeWf r = true) : treeWf r' = true := by
  cases r with
  | none => simp [chmodNode] at h
  | some n =>
    cases n with
    | file m0 c => simp only [chmodNode, Except.ok.injEq] at h; subst h; rfl
    | dir m0 l => simp only [chmodNode, Except.ok.injEq] at h; subst h; exact hr

theorem treeWf_writeNode (c : Bytes) (keep : Mode → Mode) (r r' : Option Node)
    (h : writeNode c keep r = .ok r')
    (_ : treeWf r = true) : treeWf r' = true := by
  cases r with
  | none => simp [writeNode] at h
  | some n =>
    cases n with
    | file m0 c0 => simp only [writeNode, Except.ok.injEq] at h; subst h; rfl
    | dir m0 l => simp [writeNode] at h

theorem treeWf_mkdirNode (perm : Mode) (r r' : Option Node) (h : mkdirNode perm r = .ok r')
    (hr : treeWf r = true) : treeWf r' = true := by
  cases r with
  | none => simp only [mkdirNode, Except.ok.injEq] at h; subst h; rfl
  | some n =>
    cases n with
    | file m0 c => simp [mkdirNode] at h
    | dir m0 l => simp only [mkdirNode, Except.ok.injEq] at h; subst h; exact hr

theorem treeWf_removeNode (r r' : Option Node) (h : removeNode r = .ok r')
    (_ : treeWf r = true) : treeWf r' = true := by
  simp only [removeNode, Except.ok.injEq] at h
  subst h
  rfl

/-- The copy of `syncFile` where the destination is absent or a regular file: it succeeds,
the destination then holds the bytes of the source and the mode that the write leaves of
the mode of the source, and nothing changes outside the destination path. -/
theorem copyFile_spec (env : Env) (hb : env.Benign) (w : World) (q1 q2 : List String)
    (ms : Mode) (s : Bytes) (i : FileInfo) (calls : List (Call × Path)) (r : Option Node)
    (hsrc : lookup q1 w.src = .ok (.file ms s)) (hi : i.mode = ms)
    (hp : peek q2 w.dst = .ok r) (hr : r = none ∨ ∃ md d, r = some (.file md d)) :
    ∃ t', (copyFile env w ⟨.src, q1⟩ ⟨.dst, q2⟩ i calls).world = ⟨w.src, t'⟩ ∧
      (copyFile env w ⟨.src, q1⟩ ⟨.dst, q2⟩ i calls).result = .ok (.synced s.length) ∧
      peek q2 t' = .ok (some (.file (env.writeMode ⟨.dst, q2⟩ ms s) s)) ∧
      (∀ q, ¬ under q2 q → infoAt q t' = infoAt q w.dst) ∧
      (treeWf w.dst = true → treeWf t' = true) := by
  have hf1 : ∃ m1, truncNode (env.createMode i.mode) (env.truncMode ⟨.dst, q2⟩) r =
      .ok (some (.file m1 [])) := by
    rcases hr with rfl | ⟨md, d, rfl⟩
    · exact ⟨_, rfl⟩
    · exact ⟨_, rfl⟩
  obtain ⟨m1, hf1⟩ := hf1
  obtain ⟨t1, ht1⟩ := alter_exists _ q2 w.dst r _ hp hf1
  obtain ⟨r1, hr1, hp1⟩ := alter_ok_at _ q2 _ _ r ht1 hp
  rw [hf1] at hr1
  cases hr1
  have hf2 : chmodNode i.mode (some (.file m1 [])) = .ok (some (.file i.mode [])) := rfl
  obtain ⟨t2, ht2⟩ := alter_exists _ q2 t1 _ _ hp1 hf2
  obtain ⟨r2, hr2, hp2⟩ := alter_ok_at _ q2 _ _ _ ht2 hp1
  rw [hf2] at hr2
  cases hr2
  have hf3 : writeNode s (fun m => env.writeMode ⟨.dst, q2⟩ m s) (some (.file i.mode [])) =
      .ok (some (.file (env.writeMode ⟨.dst, q2⟩ i.mode s) s)) := rfl
  obtain ⟨t3, ht3⟩ := alter_exists _ q2 t2 _ _ hp2 hf3
  obtain ⟨r3, hr3, hp3⟩ := alter_ok_at _ q2 _ _ _ ht3 hp2
  rw [hf3] at hr3
  cases hr3
  refine ⟨t3, ?_, ?_, ?_, ?_, ?_⟩
  · simp [copyFile, Open, OpenFile, Chmod, hb.noFail, hsrc, World.change_dst, ht1, ht2, ht3,
      readAll]
  · simp [copyFile, Open, OpenFile, Chmod, hb.noFail, hsrc, World.change_dst, ht1, ht2, ht3,
      readAll]
  · rw [hp3, hi]
  · intro q hq
    rw [alter_frame _ q2 q t2 t3 ht3 hq, alter_frame _ q2 q t1 t2 ht2 hq,
      alter_frame _ q2 q w.dst t1 ht1 hq]
  · intro hw
    exact alter_wf _ q2 t2 t3 ht3
      (alter_wf _ q2 t1 t2 ht2 (alter_wf _ q2 w.dst t1 ht1 hw (treeWf_truncNode _ _))
        (treeWf_chmodNode _)) (treeWf_writeNode _ _)

theorem stat_src_file (env : Env) (hb : env.Benign) (w : World) (q : List String) (m : Mode)
    (c : Bytes) (h : lookup q w.src = .ok (.file m c)) :
    Stat env w ⟨.src, q⟩ = .ok ⟨false, c.length, m⟩ := by
  simp [Stat, hb.noFail, h]

theorem stat_dst_file (env : Env) (hb : env.Benign) (w : World) (q : List String) (m : Mode)
    (c : Bytes) (h : lookup q w.dst = .ok (.file m c)) :
    Stat env w ⟨.dst, q⟩ = .ok ⟨false, c.length, m⟩ := by
  simp [Stat, hb.noFail, h]

theorem stat_dst_error (env : Env) (hb : env.Benign) (w : World) (q : List String) (e : Errno)
    (h : lookup q w.dst = .error e) : Stat env w ⟨.dst, q⟩ = .error e := by
  simp [Stat, hb.noFail, h]

/-- The skip of `syncFile`: source and destination are regular files with the same digest. -/
theorem syncFile_same (env : Env) (hb : env.Benign) (w : World) (q1 q2 : List String)
    (ms md : Mode) (s d : Bytes)
    (hsrc : lookup q1 w.src = .ok (.file ms s)) (hdst : lookup q2 w.dst = .ok (.file md d))
    (hd : digest s = digest d) :
    (syncFile env w ⟨.src, q1⟩ ⟨.dst, q2⟩).world = w ∧
    (syncFile env w ⟨.src, q1⟩ ⟨.dst, q2⟩).result =
      .ok (if s.length = 0 ∧ d.length = 0 then .skippedEmpty else .skippedSameHash) := by
  have h1 := calculateSHA256_file env hb w ⟨.src, q1⟩ ms s hsrc
  have h2 := calculateSHA256_file env hb w ⟨.dst, q2⟩ md d hdst
  have hc := compareHashes_ok env w _ _ _ _ h1 h2 (digest_ne_empty s) (digest_ne_empty d)
  simp only [syncFile, stat_src_file env hb w q1 ms s hsrc, stat_dst_file env hb w q2 md d hdst]
  by_cases hz : s.length = 0 ∧ d.length = 0
  · rw [if_pos hz, if_pos hz]
    exact ⟨rfl, rfl⟩
  · rw [if_neg hz, if_neg hz]
    simp [hc, hd]

/-- The copy of `syncFile` over a regular file with another digest. -/
theorem syncFile_differ (env : Env) (hb : env.Benign) (w : World) (q1 q2 : List String)
    (ms md : Mode) (s d : Bytes)
    (hsrc : lookup q1 w.src = .ok (.file ms s)) (hdst : lookup q2 w.dst = .ok (.file md d))
    (hd : digest s ≠ digest d) :
    syncFile env w ⟨.src, q1⟩ ⟨.dst, q2⟩ =
      copyFile env w ⟨.src, q1⟩ ⟨.dst, q2⟩ ⟨false, s.length, ms⟩
        [(.stat, ⟨.src, q1⟩), (.stat, ⟨.dst, q2⟩),
          (.calculateSHA256, ⟨.src, q1⟩), (.calculateSHA256, ⟨.dst, q2⟩)] := by
  have h1 := calculateSHA256_file env hb w ⟨.src, q1⟩ ms s hsrc
  have h2 := calculateSHA256_file env hb w ⟨.dst, q2⟩ md d hdst
  have hc := compareHashes_ok env w _ _ _ _ h1 h2 (digest_ne_empty s) (digest_ne_empty d)
  have hz : ¬ (s.length = 0 ∧ d.length = 0) := by
    rintro ⟨a, b⟩
    rw [List.length_eq_zero] at a b
    exact hd (by rw [a, b])
  simp only [syncFile, stat_src_file env hb w q1 ms s hsrc, stat_dst_file env hb w q2 md d hdst]
  rw [if_neg hz]
  simp only [hc, hd, decide_False]

/-- The copy of `syncFile` where the destination does not exist. -/
theorem syncFile_absent (env : Env) (hb : env.Benign) (w : World) (q1 q2 : List String)
    (ms : Mode) (s : Bytes) (e : Errno)
    (hsrc : lookup q1 w.src = .ok (.file ms s)) (hdst : lookup q2 w.dst = .error e) :
    syncFile env w ⟨.src, q1⟩ ⟨.dst, q2⟩ =
      copyFile env w ⟨.src, q1⟩ ⟨.dst, q2⟩ ⟨false, s.length, ms⟩
        [(.stat, ⟨.src, q1⟩), (.stat, ⟨.dst, q2⟩)] := by
  simp only [syncFile, stat_src_file env hb w q1 ms s hsrc, stat_dst_error env hb w q2 e hdst]

set_option maxRecDepth 100000 in
theorem digest_new_ne_old :
    digest (asciiBytes "New Content") ≠ digest (asciiBytes "Old Content") := by decide

/-- C4: with no failing call, a source file with bytes `s`, and a destination that is absent
(in an existing directory) or a regular file with bytes `d` (where equal digests mean equal
bytes), `syncFile` returns no error and the destination then holds `s`: an absent
destination is copied, a destination with the same digest is skipped and the file system
is untouched, a destination with another digest is overwritten (a copy has the mode that
the write leaves of the mode of the source). -/
theorem syncFile_contents (env : Env) (hb : env.Benign) (w : World) (q1 q2 : List String)
    (ms : Mode) (s : Bytes)
    (hsrc : w.node ⟨.src, q1⟩ = .ok (.file ms s))
    (hdst : absentAt q2 w.dst ∨
      ∃ md d, w.node ⟨.dst, q2⟩ = .ok (.file md d) ∧ (digest s = digest d → s = d)) :
    (∃ b, (syncFile env w ⟨.src, q1⟩ ⟨.dst, q2⟩).result = .ok b) ∧
    (∃ m, (syncFile env w ⟨.src, q1⟩ ⟨.dst, q2⟩).world.node ⟨.dst, q2⟩ = .ok (.file m s)) ∧
    (absentAt q2 w.dst →
      (syncFile env w ⟨.src, q1⟩ ⟨.dst, q2⟩).result = .ok (.synced s.length) ∧
      (syncFile env w ⟨.src, q1⟩ ⟨.dst, q2⟩).world.node ⟨.dst, q2⟩ =
        .ok (.file (env.writeMode ⟨.dst, q2⟩ ms s) s)) ∧
    (∀ md d, w.node ⟨.dst, q2⟩ = .ok (.file md d) → digest s = digest d →
      (syncFile env w ⟨.src, q1⟩ ⟨.dst, q2⟩).world = w ∧
      ((syncFile env w ⟨.src, q1⟩ ⟨.dst, q2⟩).result = .ok .skippedEmpty ∨
        (syncFile env w ⟨.src, q1⟩ ⟨.dst, q2⟩).result = .ok .skippedSameHash)) ∧
    (∀ md d, w.node ⟨.dst, q2⟩ = .ok (.file md d) → digest s ≠ digest d →
      (syncFile env w ⟨.src, q1⟩ ⟨.dst, q2⟩).result = .ok (.synced s.length) ∧
      (syncFile env w ⟨.src, q1⟩ ⟨.dst, q2⟩).world.node ⟨.dst, q2⟩ =
        .ok (.file (env.writeMode ⟨.dst, q2⟩ ms s) s)) := by
  simp only [World.node_src, World.node_dst] at hsrc hdst ⊢
  have hA : absentAt q2 w.dst →
      (syncFile env w ⟨.src, q1⟩ ⟨.dst, q2⟩).result = .ok (.synced s.length) ∧
      lookup q2 (syncFile env w ⟨.src, q1⟩ ⟨.dst, q2⟩).world.dst =
        .ok (.file (env.writeMode ⟨.dst, q2⟩ ms s) s) := by
    intro ha
    rw [syncFile_absent env hb w q1 q2 ms s _ hsrc (lookup_of_absent q2 w.dst ha)]
    obtain ⟨t', h1, h2, h3, -, -⟩ :=
      copyFile_spec env hb w q1 q2 ms s ⟨false, s.length, ms⟩
        [(.stat, ⟨.src, q1⟩), (.stat, ⟨.dst, q2⟩)] none hsrc rfl ha (Or.inl rfl)
    rw [h1, h2]
    exact ⟨rfl, lookup_of_peek q2 t' _ h3⟩
  have hB : ∀ md d, lookup q2 w.dst = .ok (.file md d) → digest s = digest d →
      (syncFile env w ⟨.src, q1⟩ ⟨.dst, q2⟩).world = w ∧
      ((syncFile env w ⟨.src, q1⟩ ⟨.dst, q2⟩).result = .ok .skippedEmpty ∨
        (syncFile env w ⟨.src, q1⟩ ⟨.dst, q2⟩).result = .ok .skippedSameHash) := by
    intro md d hd he
    obtain ⟨h1, h2⟩ := syncFile_same env hb w q1 q2 ms md s d hsrc hd he
    refine ⟨h1, ?_⟩
    rw [h2]
    by_cases hz : s.length = 0 ∧ d.length = 0
    · exact Or.inl (by rw [if_pos hz])
    · exact Or.inr (by rw [if_neg hz])
  have hC : ∀ md d, lookup q2 w.dst = .ok (.file md d) → digest s ≠ digest d →
      (syncFile env w ⟨.src, q1⟩ ⟨.dst, q2⟩).result = .ok (.synced s.length) ∧
      lookup q2 (syncFile env w ⟨.src, q1⟩ ⟨.dst, q2⟩).world.dst =
        .ok (.file (env.writeMode ⟨.dst, q2⟩ ms s) s) := by
    intro md d hd hne
    rw [syncFile_differ env hb w q1 q2 ms md s d hsrc hd hne]
    obtain ⟨t', h1, h2, h3, -, -⟩ :=
      copyFile_spec env hb w q1 q2 ms s ⟨false, s.length, ms⟩
        [(.stat, ⟨.src, q1⟩), (.stat, ⟨.dst, q2⟩),
          (.calculateSHA256, ⟨.src, q1⟩), (.calculateSHA256, ⟨.dst, q2⟩)]
        (some (.file md d)) hsrc rfl (peek_of_lookup q2 w.dst _ hd) (Or.inr ⟨md, d, rfl⟩)
    rw [h1, h2]
    exact ⟨rfl, lookup_of_peek q2 t' _ h3⟩
  refine ⟨?_, ?_, hA, hB, hC⟩
  · rcases hdst with ha | ⟨md, d, hd, hcol⟩
    · exact ⟨_, (hA ha).1⟩
    · by_cases he : digest s = digest d
      · rcases (hB md d hd he).2 with h | h
        · exact ⟨_, h⟩
        · exact ⟨_, h⟩
      · exact ⟨_, (hC md d hd he).1⟩
  · rcases hdst with ha | ⟨md, d, hd, hcol⟩
    · exact ⟨_, (hA ha).2⟩
    · by_cases he : digest s = digest d
      · refine ⟨md, ?_⟩
        rw [(hB md d hd he).1, hd, hcol he]
      · exact ⟨_, (hC md d hd he).2⟩

/-- C4 on the files of the test "File already exists with different content". -/
theorem syncFile_contents_witness :
    (syncFile Env.calm worldDifferent ⟨.src, ["file.txt"]⟩ ⟨.dst, ["file.txt"]⟩).world.node
        ⟨.dst, ["file.txt"]⟩ = .ok (.file 0o777 (asciiBytes "New Content")) :=
  ((syncFile_contents Env.calm Env.calm_benign worldDifferent ["file.txt"] ["file.txt"] 0o777
    (asciiBytes "New Content") (by decide)
    (Or.inr ⟨0o644, asciiBytes "Old Content", by decide,
      fun h => absurd h digest_new_ne_old⟩)).2.2.2.2
    0o644 (asciiBytes "Old Content") (by decide) digest_new_ne_old).2

/-- C5: when `os.Stat` reports size zero for both paths, `syncFile` returns nil through
the branch "both files are empty"; the file system is untouched and the only calls made
are the two `os.Stat`: no `CalculateSHA256`, no open, no truncation, no chmod, no write.
This holds whatever the environment would make of a fingerprint computation. -/
theorem syncFile_both_empty (env : Env) (w : World) (srcPath dstPath : Path)
    (srcInfo dstInfo : FileInfo)
    (hs : Stat env w srcPath = .ok srcInfo) (hd : Stat env w dstPath = .ok dstInfo)
    (zs : srcInfo.size = 0) (zd : dstInfo.size = 0) :
    (syncFile env w srcPath dstPath).result = .ok .skippedEmpty ∧
    (syncFile env w srcPath dstPath).world = w ∧
    (syncFile env w srcPath dstPath).calls = [(.stat, srcPath), (.stat, dstPath)] ∧
    (∀ c ∈ (syncFile env w srcPath dstPath).calls,
      c.1 ≠ .calculateSHA256 ∧ c.1 ≠ .open ∧ c.1 ≠ .openFile ∧ c.1 ≠ .chmod ∧ c.1 ≠ .write) := by
  have h : syncFile env w srcPath dstPath =
      ⟨w, .ok .skippedEmpty, [(.stat, srcPath), (.stat, dstPath)]⟩ := by
    simp only [syncFile, hs, hd]
    rw [if_pos ⟨zs, zd⟩]
  rw [h]
  refine ⟨rfl, rfl, rfl, ?_⟩
  intro c hc
  simp only [List.mem_cons, List.mem_singleton, List.not_mem_nil, or_false] at hc
  rcases hc with rfl | rfl <;> simp

/-- C5 on the files of the test "Both files empty". -/
theorem syncFile_both_empty_witness :
    (syncFile Env.calm worldEmpty ⟨.src, ["file.txt"]⟩ ⟨.dst, ["file.txt"]⟩).calls =
      [(.stat, ⟨.src, ["file.txt"]⟩), (.stat, ⟨.dst, ["file.txt"]⟩)] :=
  (syncFile_both_empty Env.calm worldEmpty ⟨.src, ["file.txt"]⟩ ⟨.dst, ["file.txt"]⟩
    ⟨false, 0, 0o600⟩ ⟨false, 0, 0o644⟩ (by decide) (by decide) rfl rfl).2.2.1

set_option maxRecDepth 100000 in
/-- C1 as stated fails: no call fails for lack of resources, the source file `b.txt` is
absent from the destination, and it is still absent after `syncDirectories`: the walk
over the source ended at the directory `a`, whose place the destination fills with a
regular file. -/
theorem syncDirectories_misses_file :
    Env.calm.Benign ∧
    worldFileForDir.node ⟨.src, ["b.txt"]⟩ = .ok (.file 0o644 (asciiBytes "hi")) ∧
    worldFileForDir.node ⟨.dst, ["b.txt"]⟩ = .error .ENOENT ∧
    (syncDirectories Env.calm worldFileForDir).srcWalkErr = some .ENOTDIR ∧
    (syncDirectories Env.calm worldFileForDir).world.node ⟨.dst, ["b.txt"]⟩ = .error .ENOENT ∧
    (syncDirectories Env.calm worldFileForDir).world.node ⟨.dst, ["a"]⟩ = .ok (.file 0o644 []) :=
  ⟨Env.calm_benign, by decide, by decide, by decide, by decide, by decide⟩

set_option maxRecDepth 100000 in
/-- C2 on a destination directory that stands where the source has a regular file: the
path `x/c` exists in the destination and not in the source, it is not put in `toDelete`
(`os.Stat` on the source answers ENOTDIR, which `os.IsNotExist` does not accept) and it
still exists when `syncDirectories` returns. -/
theorem syncDirectories_keeps_orphan :
    worldDirForFile.node ⟨.dst, ["x", "c"]⟩ = .ok (.file 0o644 (asciiBytes "old")) ∧
    worldDirForFile.node ⟨.src, ["x", "c"]⟩ = .error .ENOTDIR ∧
    (syncDirectories Env.calm worldDirForFile).toDelete = [] ∧
    (syncDirectories Env.calm worldDirForFile).dstWalkErr = none ∧
    (syncDirectories Env.calm worldDirForFile).world.node ⟨.dst, ["x", "c"]⟩ =
      .ok (.file 0o644 (asciiBytes "old")) :=
  ⟨by decide, by decide, by decide, by decide, by decide⟩

set_option maxRecDepth 100000 in
/-- C3 as stated fails: in the second of two runs over an unchanged source, the `syncFile`
call for `x` takes no skip branch, it returns the error EISDIR (the destination `x` is a
directory); nothing is copied or deleted and the destination is unchanged. -/
theorem syncDirectories_second_run_error :
    (syncDirectories Env.calm (syncDirectories Env.calm worldDirForFile).world).finished =
      [(⟨⟨.src, ["x"]⟩, ⟨.dst, ["x"]⟩⟩, .error .EISDIR)] ∧
    (syncDirectories Env.calm (syncDirectories Env.calm worldDirForFile).world).removed = [] ∧
    (syncDirectories Env.calm (syncDirectories Env.calm worldDirForFile).world).world =
      (syncDirectories Env.calm worldDirForFile).world :=
  ⟨by decide, by decide, by decide⟩

set_option maxRecDepth 100000 in
/-- C7 as stated fails: creating the destination directory for the source directory `a`
fails, and the file `b.txt`, which is not inside `a`, is not scheduled for `syncFile` and
not copied: the walk over the source has ended. -/
theorem syncDirectories_mkdir_error_ends_walk :
    worldTwoEntries.node ⟨.src, ["b.txt"]⟩ = .ok (.file 0o644 (asciiBytes "hi")) ∧
    MkdirAll envMkdirFails worldTwoEntries ⟨.dst, ["a"]⟩ ModePerm = .error .EACCES ∧
    (syncDirectories envMkdirFails worldTwoEntries).srcWalkErr = some .EACCES ∧
    (syncDirectories envMkdirFails worldTwoEntries).spawned = [] ∧
    (syncDirectories envMkdirFails worldTwoEntries).world.node ⟨.dst, ["b.txt"]⟩ =
      .error .ENOENT :=
  ⟨by decide, by decide, by decide, by decide, by decide⟩

set_option maxRecDepth 100000 in
/-- C8 where the walk over the destination reports an error (the directory `old` cannot be
read): `syncDirectories` returns although the goroutine for `a.txt` has not finished,
`wg.Wait()` is not reached, and no path of `toDelete` is removed. -/
theorem syncDirectories_returns_early :
    (syncDirectories envUnreadable worldOld).dstWalkErr = some .EACCES ∧
    (syncDirectories envUnreadable worldOld).spawned = [⟨⟨.src, ["a.txt"]⟩, ⟨.dst, ["a.txt"]⟩⟩] ∧
    (syncDirectories envUnreadable worldOld).pending = [⟨⟨.src, ["a.txt"]⟩, ⟨.dst, ["a.txt"]⟩⟩] ∧
    (syncDirectories envUnreadable worldOld).finished = [] ∧
    (syncDirectories envUnreadable worldOld).waited = false ∧
    (syncDirectories envUnreadable worldOld).toDelete = [⟨.dst, ["old"]⟩] ∧
    (syncDirectories envUnreadable worldOld).removed = [] ∧
    (syncDirectories envUnreadable worldOld).world.node ⟨.dst, ["old"]⟩ = .ok (.dir 0o000 .nil) :=
  ⟨by decide, by decide, by decide, by decide, by decide, by decide, by decide, by decide⟩

/-! ## Lemmas on the walks -/

/-- What every call of the callback keeps, the walk over a listing keeps. -/
theorem walkDir_inv {σ : Type} (env : Env) (fn : WalkDirFunc σ) (b : Base) (P : σ → Prop)
    (hfn : ∀ s p d e, P s → P (fn s p d e).1) (l : Listing) :
    ∀ (a : List String) (s : σ), P s → P (walkDir env fn b a l s).1 := by
  induction l with
  | nil => intro a s hs; exact hs
  | file n m c rest ih =>
    intro a s hs
    simp only [walkDir]
    have h1 := hfn s ⟨b, a ++ [n]⟩ (some ⟨n, false⟩) none hs
    rcases hr : fn s ⟨b, a ++ [n]⟩ (some ⟨n, false⟩) none with ⟨s1, _ | e⟩
    · rw [hr] at h1
      exact ih a s1 h1
    · rw [hr] at h1
      exact h1
  | dir n m ch rest ihc ih =>
    intro a s hs
    simp only [walkDir]
    have h1 := hfn s ⟨b, a ++ [n]⟩ (some ⟨n, true⟩) none hs
    rcases hr : fn s ⟨b, a ++ [n]⟩ (some ⟨n, true⟩) none with ⟨s1, _ | e⟩
    · rw [hr] at h1
      simp only
      split
      · have h2 := hfn s1 ⟨b, a ++ [n]⟩ (some ⟨n, true⟩) (some .EACCES) h1
        rcases hr2 : fn s1 ⟨b, a ++ [n]⟩ (some ⟨n, true⟩) (some .EACCES) with ⟨s2, _ | e⟩
        · rw [hr2] at h2
          exact ih a s2 h2
        · rw [hr2] at h2
          exact h2
      · have h2 := ihc (a ++ [n]) s1 h1
        rcases hr2 : walkDir env fn b (a ++ [n]) ch s1 with ⟨s2, _ | e⟩
        · rw [hr2] at h2
          exact ih a s2 h2
        · rw [hr2] at h2
          exact h2
    · rw [hr] at h1
      exact h1

/-- What every call of the callback keeps, `WalkDir` keeps. -/
theorem WalkDir_inv {σ : Type} (env : Env) (w : World) (root : Path) (fn : WalkDirFunc σ)
    (P : σ → Prop) (hfn : ∀ s p d e, P s → P (fn s p d e).1) (s : σ) (hs : P s) :
    P (WalkDir env w root fn s).1 := by
  unfold WalkDir
  split
  · exact hfn _ _ _ _ hs
  · split
    · exact hfn _ _ _ _ hs
    · exact hfn _ _ _ _ hs
    · have h1 := hfn s root (some ⟨"", true⟩) none hs
      rcases hr : fn s root (some ⟨"", true⟩) none with ⟨s1, _ | e⟩
      · rw [hr] at h1
        simp only
        split
        · exact hfn _ _ _ _ h1
        · exact walkDir_inv env fn root.base P hfn _ _ _ h1
      · rw [hr] at h1
        exact h1

theorem change_dst_src (w w' : World) (q : List String)
    (f : Option Node → Except Errno (Option Node)) (h : w.change ⟨.dst, q⟩ f = .ok w') :
    w'.src = w.src := by
  rw [World.change_dst] at h
  cases ha : alter f q w.dst with
  | error e => simp [ha] at h
  | ok t =>
    simp only [ha, Except.ok.injEq] at h
    subst h
    rfl

theorem MkdirAll_src (env : Env) (w w' : World) (q : List String) (perm : Mode)
    (h : MkdirAll env w ⟨.dst, q⟩ perm = .ok w') : w'.src = w.src := by
  unfold MkdirAll at h
  split at h
  · simp at h
  · split at h
    · simp at h
    · simp only [Except.ok.injEq] at h
      subst h
      rfl

theorem Chmod_src (env : Env) (w w' : World) (q : List String) (m : Mode)
    (h : Chmod env w ⟨.dst, q⟩ m = .ok w') : w'.src = w.src := by
  unfold Chmod at h
  split at h
  · simp at h
  · exact change_dst_src w w' q _ h

theorem OpenFile_src (env : Env) (w w' : World) (q : List String) (m : Mode)
    (h : OpenFile env w ⟨.dst, q⟩ m = .ok w') : w'.src = w.src := by
  unfold OpenFile at h
  split at h
  · simp at h
  · exact change_dst_src w w' q _ h

theorem RemoveAll_src (env : Env) (w w' : World) (q : List String)
    (h : RemoveAll env w ⟨.dst, q⟩ = .ok w') : w'.src = w.src := by
  unfold RemoveAll at h
  split at h
  · simp at h
  · split at h
    · simp only [Except.ok.injEq] at h
      subst h
      rfl
    · exact change_dst_src w w' q _ h

theorem copyFile_src (env : Env) (w : World) (sp : Path) (q : List String) (i : FileInfo)
    (calls : List (Call × Path)) : (copyFile env w sp ⟨.dst, q⟩ i calls).world.src = w.src := by
  unfold copyFile
  split
  · rfl
  · split
    · rfl
    · rename_i w1 h1
      have e1 := OpenFile_src env w w1 q _ h1
      split
      · exact e1
      · rename_i w2 h2
        have e2 := Chmod_src env w1 w2 q _ h2
        simp only
        split
        · exact e2.trans e1
        · split
          · exact e2.trans e1
          · split
            · exact e2.trans e1
            · split
              · exact e2.trans e1
              · rename_i w3 h3
                exact (change_dst_src w2 w3 q _ h3).trans (e2.trans e1)

/-- The method `syncFile` does not change the source tree. -/
theorem syncFile_src (env : Env) (w : World) (sp : Path) (q : List String) :
    (syncFile env w sp ⟨.dst, q⟩).world.src = w.src := by
  unfold syncFile
  split
  · rfl
  · split
    · split
      · rfl
      · simp only
        split
        · rfl
        · rfl
        · exact copyFile_src env w sp q _ _
    · exact copyFile_src env w sp q _ _

theorem stat_src_congr (env : Env) (w1 w2 : World) (q : List String) (h : w1.src = w2.src) :
    Stat env w1 ⟨.src, q⟩ = Stat env w2 ⟨.src, q⟩ := by
  simp [Stat, h]

/-! ## Theorems: what is scheduled and what is deleted -/

theorem planned_spawn (env : Env) (w : World) (s : Cycle) (rel : List String) (i : FileInfo)
    (hs : Planned env w s) (hi : Stat env w ⟨.src, rel⟩ = .ok i) :
    Planned env w (spawn env s ⟨⟨.src, rel⟩, ⟨.dst, rel⟩⟩) := by
  obtain ⟨h1, h2, h3⟩ := hs
  unfold spawn
  split
  · refine ⟨?_, ?_, h3⟩
    · simp only
      rw [syncFile_src]
      exact h1
    · intro t ht
      simp only [List.mem_append, List.mem_singleton] at ht
      rcases ht with ht | rfl
      · exact h2 t ht
      · exact ⟨rel, i, rfl, rfl, hi⟩
  · refine ⟨h1, ?_, h3⟩
    intro t ht
    simp only [List.mem_append, List.mem_singleton] at ht
    rcases ht with ht | rfl
    · exact h2 t ht
    · exact ⟨rel, i, rfl, rfl, hi⟩

theorem planned_srcVisit (env : Env) (w : World) (s : Cycle) (p : Path) (d : Option DirEntry)
    (e : Option Errno) (hs : Planned env w s) : Planned env w (srcVisit env s p d e).1 := by
  unfold srcVisit
  split
  · exact hs
  · split
    · exact hs
    · rename_i relPath hrel
      have hp : p = ⟨.src, relPath⟩ := by
        unfold Rel srcDir at hrel
        split at hrel
        · rename_i hb
          simp only [Except.ok.injEq] at hrel
          cases p
          simp only at hb hrel
          subst hb hrel
          rfl
        · simp at hrel
      subst hp
      simp only
      split
      · exact hs
      · rename_i perms hst
        split
        · split
          · exact hs
          · rename_i w1 hw1
            have e1 : w1.src = s.world.src := MkdirAll_src env s.world w1 relPath _ hw1
            split
            · exact ⟨e1.trans hs.1, hs.2.1, hs.2.2⟩
            · rename_i w2 hw2
              have e2 : w2.src = w1.src := Chmod_src env w1 w2 relPath _ hw2
              exact ⟨e2.trans (e1.trans hs.1), hs.2.1, hs.2.2⟩
        · rw [stat_src_congr env s.world w relPath hs.1] at hst
          exact planned_spawn env w s relPath perms hs hst

theorem planned_dstVisit (env : Env) (w : World) (s : Cycle) (p : Path) (d : Option DirEntry)
    (e : Option Errno) (hs : Planned env w s) : Planned env w (dstVisit env s p d e).1 := by
  unfold dstVisit
  split
  · exact hs
  · split
    · exact hs
    · rename_i relPath hrel
      have hp : p = ⟨.dst, relPath⟩ := by
        unfold Rel dstDir at hrel
        split at hrel
        · rename_i hb
          simp only [Except.ok.injEq] at hrel
          cases p
          simp only at hb hrel
          subst hb hrel
          rfl
        · simp at hrel
      subst hp
      simp only
      split
      · rename_i hne
        refine ⟨hs.1, hs.2.1, ?_⟩
        intro d hd
        simp only [mark] at hd
        split at hd
        · exact hs.2.2 d hd
        · simp only [List.mem_append, List.mem_singleton] at hd
          rcases hd with hd | rfl
          · exact hs.2.2 d hd
          · refine ⟨relPath, rfl, ?_⟩
            rw [← stat_src_congr env s.world w relPath hs.1]
            exact hne
      · exact hs

theorem foldl_removeStep_spawned (env : Env) (l : List Path) :
    ∀ s : Cycle, (l.foldl (removeStep env) s).spawned = s.spawned := by
  induction l with
  | nil => intro s; rfl
  | cons p l ih =>
    intro s
    simp only [List.foldl_cons]
    rw [ih]
    unfold removeStep
    split <;> rfl

theorem foldl_removeStep_toDelete (env : Env) (l : List Path) :
    ∀ s : Cycle, (l.foldl (removeStep env) s).toDelete = s.toDelete := by
  induction l with
  | nil => intro s; rfl
  | cons p l ih =>
    intro s
    simp only [List.foldl_cons]
    rw [ih]
    unfold removeStep
    split <;> rfl

theorem runTasks_fields (env : Env) (l : List Task) :
    ∀ s : Cycle, (l.foldl (runTask env) s).spawned = s.spawned ∧
      (l.foldl (runTask env) s).toDelete = s.toDelete := by
  induction l with
  | nil => intro s; exact ⟨rfl, rfl⟩
  | cons t l ih =>
    intro s
    simp only [List.foldl_cons]
    exact ⟨(ih _).1, (ih _).2⟩

theorem planned_start (env : Env) (w : World) : Planned env w (Cycle.start w) :=
  ⟨rfl, fun _ h => by simp [Cycle.start] at h, fun _ h => by simp [Cycle.start] at h⟩

theorem planned_sourceWalk (env : Env) (w : World) : Planned env w (sourceWalk env w) := by
  have h := WalkDir_inv env w ⟨srcDir, []⟩ (srcVisit env) (Planned env w)
    (fun s p d e hs => planned_srcVisit env w s p d e hs) (Cycle.start w) (planned_start env w)
  unfold sourceWalk
  exact h

theorem planned_destWalk (env : Env) (w : World) (s : Cycle) (hs : Planned env w s) :
    Planned env w (destWalk env s) := by
  have h := WalkDir_inv env s.world ⟨dstDir, []⟩ (dstVisit env) (Planned env w)
    (fun s p d e hs => planned_dstVisit env w s p d e hs) s hs
  unfold destWalk
  exact h

/-- The goroutines and the keys of `toDelete` when `syncDirectories` returns are those
found by the two walks. -/
theorem syncDirectories_plan (env : Env) (w : World) :
    (syncDirectories env w).spawned = (destWalk env (sourceWalk env w)).spawned ∧
    (syncDirectories env w).toDelete = (destWalk env (sourceWalk env w)).toDelete := by
  unfold syncDirectories
  simp only
  split
  · exact ⟨rfl, rfl⟩
  · have hp := planned_destWalk env w _ (planned_sourceWalk env w)
    have hl : ∀ p ∈ env.rangeOrder (destWalk env (sourceWalk env w)).toDelete,
        p ∈ env.rangeOrder (destWalk env (sourceWalk env w)).toDelete := fun _ h => h
    constructor
    · unfold wgWait
      simp only
      rw [(runTasks_fields env _ _).1]
      exact foldl_removeStep_spawned env _ _
    · unfold wgWait
      simp only
      rw [(runTasks_fields env _ _).2]
      exact foldl_removeStep_toDelete env _ _


/-- C9: in one call of `syncDirectories`, every `syncFile` goroutine was started for the
destination path `Join(dstDir, Rel(srcDir, p))` of a source path `p` on which `os.Stat`
succeeded, every key of `toDelete` is a destination path whose mirrored source path
`Join(srcDir, Rel(dstDir, d))` made `os.Stat` answer "does not exist", and no destination
path is both: the two sets are disjoint. -/
theorem scheduled_disjoint_toDelete (env : Env) (w : World) :
    (∀ t ∈ (syncDirectories env w).spawned, ∃ rel i, Rel srcDir t.srcPath = .ok rel ∧
      t.dstPath = Join dstDir rel ∧ Stat env w t.srcPath = .ok i) ∧
    (∀ d ∈ (syncDirectories env w).toDelete, ∃ rel, Rel dstDir d = .ok rel ∧
      IsNotExist (Stat env w (Join srcDir rel)) = true) ∧
    (∀ t ∈ (syncDirectories env w).spawned, t.dstPath ∉ (syncDirectories env w).toDelete) := by
  obtain ⟨e1, e2⟩ := syncDirectories_plan env w
  obtain ⟨-, h2, h3⟩ := planned_destWalk env w _ (planned_sourceWalk env w)
  rw [e1, e2]
  refine ⟨?_, ?_, ?_⟩
  · intro t ht
    obtain ⟨rel, i, a, b, c⟩ := h2 t ht
    exact ⟨rel, i, by rw [a]; rfl, by rw [b]; rfl, by rw [a]; exact c⟩
  · intro d hd
    obtain ⟨rel, a, b⟩ := h3 d hd
    exact ⟨rel, by rw [a]; rfl, b⟩
  · intro t ht hd
    obtain ⟨rel, i, -, b, c⟩ := h2 t ht
    obtain ⟨rel', a', b'⟩ := h3 _ hd
    rw [b] at a'
    cases a'
    rw [c] at b'
    simp [IsNotExist] at b'

/-! ## Theorems: an error in the walk over the source -/

theorem visits_append {σ : Type} (fn : WalkDirFunc σ) (xs ys : List (Path × DirEntry)) :
    ∀ s : σ, visits fn (xs ++ ys) s =
      match visits fn xs s with
      | (s1, some e) => (s1, some e)
      | (s1, none) => visits fn ys s1 := by
  induction xs with
  | nil => intro s; rfl
  | cons x xs ih =>
    intro s
    obtain ⟨p, d⟩ := x
    simp only [List.cons_append, visits]
    rcases hr : fn s p (some d) none with ⟨s1, _ | e⟩
    · simp only
      exact ih s1
    · rfl

/-- Where every directory can be read, the walk over a listing is the callback on its
entries in order, up to the first error. -/
theorem walkDir_eq_visits {σ : Type} (env : Env) (fn : WalkDirFunc σ) (b : Base)
    (hread : ∀ p, env.fails .readDir p = false) (l : Listing) :
    ∀ (a : List String) (s : σ), walkDir env fn b a l s = visits fn (entries b a l) s := by
  induction l with
  | nil => intro a s; rfl
  | file n m c rest ih =>
    intro a s
    simp only [walkDir, entries, visits]
    rcases hr : fn s ⟨b, a ++ [n]⟩ (some ⟨n, false⟩) none with ⟨s1, _ | e⟩
    · simp only
      exact ih a s1
    · rfl
  | dir n m ch rest ihc ih =>
    intro a s
    simp only [walkDir, entries, visits]
    rcases hr : fn s ⟨b, a ++ [n]⟩ (some ⟨n, true⟩) none with ⟨s1, _ | e⟩
    · simp only [hread, Bool.false_eq_true, if_false]
      rw [visits_append, ihc (a ++ [n]) s1]
      rcases hr2 : visits fn (entries b (a ++ [n]) ch) s1 with ⟨s2, _ | e⟩
      · simp only
        exact ih a s2
      · rfl
    · rfl

/-- The walk over a source whose root is a directory that can be read: the callback on the
root, then on the entries below it in order, up to the first error. -/
theorem WalkDir_src_eq_visits {σ : Type} (env : Env) (w : World) (fn : WalkDirFunc σ) (s : σ)
    (m : Mode) (l : Listing) (hsrc : w.src = some (.dir m l))
    (hread : ∀ p, env.fails .readDir p = false)
    (hlstat : env.fails .lstat ⟨srcDir, []⟩ = false) :
    WalkDir env w ⟨srcDir, []⟩ fn s =
      visits fn ((⟨srcDir, []⟩, ⟨"", true⟩) :: entries srcDir [] l) s := by
  have hn : w.node ⟨srcDir, []⟩ = .ok (.dir m l) := by
    simp [srcDir, hsrc, lookup]
  simp only [WalkDir, hlstat, hn, visits, hread, Bool.false_eq_true, if_false]
  rcases hr : fn s ⟨srcDir, []⟩ (some ⟨"", true⟩) none with ⟨s1, _ | e⟩
  · simp only
    exact walkDir_eq_visits env fn srcDir hread l [] s1
  · rfl

theorem spawn_spawned (env : Env) (s : Cycle) (t : Task) :
    (spawn env s t).spawned = s.spawned ++ [t] := by
  unfold spawn
  split <;> rfl

theorem dstVisit_fields (env : Env) (s : Cycle) (p : Path) (d : Option DirEntry)
    (e : Option Errno) :
    (dstVisit env s p d e).1.spawned = s.spawned ∧
    (dstVisit env s p d e).1.srcWalkErr = s.srcWalkErr := by
  unfold dstVisit
  split
  · exact ⟨rfl, rfl⟩
  · split
    · exact ⟨rfl, rfl⟩
    · simp only
      split <;> exact ⟨rfl, rfl⟩

theorem destWalk_fields (env : Env) (s : Cycle) :
    (destWalk env s).spawned = s.spawned ∧ (destWalk env s).srcWalkErr = s.srcWalkErr := by
  have h := WalkDir_inv env s.world ⟨dstDir, []⟩ (dstVisit env)
    (fun s' => s'.spawned = s.spawned ∧ s'.srcWalkErr = s.srcWalkErr)
    (fun s' p d e hs =>
      ⟨(dstVisit_fields env s' p d e).1.trans hs.1, (dstVisit_fields env s' p d e).2.trans hs.2⟩)
    s ⟨rfl, rfl⟩
  unfold destWalk
  exact h

theorem foldl_removeStep_srcWalkErr (env : Env) (l : List Path) :
    ∀ s : Cycle, (l.foldl (removeStep env) s).srcWalkErr = s.srcWalkErr := by
  induction l with
  | nil => intro s; rfl
  | cons p l ih =>
    intro s
    simp only [List.foldl_cons]
    rw [ih]
    unfold removeStep
    split <;> rfl

theorem foldl_runTask_srcWalkErr (env : Env) (l : List Task) :
    ∀ s : Cycle, (l.foldl (runTask env) s).srcWalkErr = s.srcWalkErr := by
  induction l with
  | nil => intro s; rfl
  | cons t l ih =>
    intro s
    simp only [List.foldl_cons]
    rw [ih]
    rfl

theorem syncDirectories_srcWalkErr (env : Env) (w : World) :
    (syncDirectories env w).srcWalkErr = (sourceWalk env w).srcWalkErr := by
  unfold syncDirectories
  simp only
  split
  · exact (destWalk_fields env _).2
  · unfold wgWait
    simp only
    rw [foldl_runTask_srcWalkErr, foldl_removeStep_srcWalkErr]
    exact (destWalk_fields env _).2

/-! ## Lemmas on paths and on compatible trees -/

theorem lookup_error_cases (q : List String) (t : Option Node) (e : Errno)
    (h : lookup q t = .error e) : e = .ENOENT ∨ e = .ENOTDIR := by
  induction q generalizing t with
  | nil =>
    cases t with
    | none => simp only [lookup, Except.error.injEq] at h; exact Or.inl h.symm
    | some n => simp [lookup] at h
  | cons x xs ih =>
    cases t with
    | none => simp only [lookup, Except.error.injEq] at h; exact Or.inl h.symm
    | some n =>
      cases n with
      | file m c => simp only [lookup, Except.error.injEq] at h; exact Or.inr h.symm
      | dir m l => exact ih _ h

theorem peek_snoc_of_dir (a : List String) (x : String) (t : Option Node) (m : Mode)
    (l : Listing) (h : lookup a t = .ok (.dir m l)) : peek (a ++ [x]) t = .ok (l.find x) := by
  rw [peek_append, peek_of_lookup a t _ h]
  rfl

theorem lookup_snoc_of_dir (a : List String) (x : String) (t : Option Node) (m : Mode)
    (l : Listing) (h : lookup a t = .ok (.dir m l)) :
    lookup (a ++ [x]) t = lookup [] (l.find x) := by
  rw [lookup_append, peek_of_lookup a t _ h]
  rfl

theorem lookup_parent_dir (a : List String) (x : String) (p : List String) (t : Option Node)
    (n : Node) (h : lookup (a ++ x :: p) t = .ok n) : ∃ m l, lookup a t = .ok (.dir m l) := by
  rw [lookup_append] at h
  cases hp : peek a t with
  | error e => simp [hp] at h
  | ok r =>
    simp only [hp] at h
    cases r with
    | none => simp [lookup] at h
    | some nd =>
      cases nd with
      | file m c => simp [lookup] at h
      | dir m l => exact ⟨m, l, lookup_of_peek a t _ hp⟩

theorem lookup_under_enoent (d s : List String) (t : Option Node)
    (h : lookup d t = .error .ENOENT) : lookup (d ++ s) t = .error .ENOENT := by
  rw [lookup_append]
  rw [lookup_eq_peek] at h
  cases hp : peek d t with
  | error e =>
    simp only [hp, Except.error.injEq] at h
    simp [h]
  | ok r =>
    cases r with
    | none => simp [lookup]
    | some nd => simp [hp] at h

theorem lookup_under_file (q s : List String) (t : Option Node) (m : Mode) (c : Bytes)
    (h : lookup q t = .ok (.file m c)) (hs : s ≠ []) :
    lookup (q ++ s) t = .error .ENOTDIR := by
  rw [lookup_append, peek_of_lookup q t _ h]
  cases s with
  | nil => exact absurd rfl hs
  | cons x xs => rfl

theorem lookup_enotdir (q : List String) (t : Option Node)
    (h : lookup q t = .error .ENOTDIR) :
    ∃ a x p m c, q = a ++ x :: p ∧ lookup a t = .ok (.file m c) := by
  induction q generalizing t with
  | nil =>
    cases t with
    | none => simp [lookup] at h
    | some n => simp [lookup] at h
  | cons y ys ih =>
    cases t with
    | none => simp [lookup] at h
    | some n =>
      cases n with
      | file m c => exact ⟨[], y, ys, m, c, rfl, rfl⟩
      | dir m l =>
        obtain ⟨a, x, p, m', c, e1, e2⟩ := ih (l.find y) h
        exact ⟨y :: a, x, p, m', c, by rw [e1]; rfl, e2⟩

theorem infoAt_ok_iff (q : List String) (t : Option Node) (i : Info) :
    infoAt q t = .ok i ↔ ∃ n, lookup q t = .ok n ∧ n.info = i := by
  unfold infoAt
  cases h : lookup q t with
  | error e => simp
  | ok n => simp

theorem infoAt_error_iff (q : List String) (t : Option Node) (e : Errno) :
    infoAt q t = .error e ↔ lookup q t = .error e := by
  unfold infoAt
  cases h : lookup q t with
  | error e => simp
  | ok n => simp

theorem infoAt_file (q : List String) (t : Option Node) (m : Mode) (c : Bytes) :
    infoAt q t = .ok (.file m c) ↔ lookup q t = .ok (.file m c) := by
  rw [infoAt_ok_iff]
  constructor
  · rintro ⟨n, h1, h2⟩
    cases n with
    | file m' c' =>
      simp only [Node.info, Info.file.injEq] at h2
      rw [h1, h2.1, h2.2]
    | dir m' l => simp [Node.info] at h2
  · intro h
    exact ⟨_, h, rfl⟩

theorem infoAt_dir (q : List String) (t : Option Node) (m : Mode) :
    infoAt q t = .ok (.dir m) ↔ ∃ l, lookup q t = .ok (.dir m l) := by
  rw [infoAt_ok_iff]
  constructor
  · rintro ⟨n, h1, h2⟩
    cases n with
    | file m' c' => simp [Node.info] at h2
    | dir m' l =>
      simp only [Node.info, Info.dir.injEq] at h2
      exact ⟨l, by rw [h1, h2]⟩
  · rintro ⟨l, h⟩
    exact ⟨_, h, rfl⟩

/-- On compatible trees, a path of the source is never below a regular file of the
destination. -/
theorem compat_not_enotdir (S D : Option Node) (hc : Compat S D) (q : List String) (n : Node)
    (hq : lookup q S = .ok n) : lookup q D ≠ .error .ENOTDIR := by
  intro h
  obtain ⟨a, x, p, m, c, e1, e2⟩ := lookup_enotdir q D h
  subst e1
  obtain ⟨m', l', e3⟩ := lookup_parent_dir a x p S n hq
  have := hc a _ _ e3 e2
  simp [Node.isDir] at this

theorem compat_dir (S D : Option Node) (hc : Compat S D) (q : List String) (m : Mode)
    (l : Listing) (hq : lookup q S = .ok (.dir m l)) :
    infoAt q D = .error .ENOENT ∨ ∃ m', infoAt q D = .ok (.dir m') := by
  cases h : lookup q D with
  | error e =>
    rcases lookup_error_cases q D e h with rfl | rfl
    · exact Or.inl ((infoAt_error_iff _ _ _).2 h)
    · exact absurd h (compat_not_enotdir S D hc q _ hq)
  | ok n =>
    cases n with
    | file m' c =>
      have := hc q _ _ hq h
      simp [Node.isDir] at this
    | dir m' l' => exact Or.inr ⟨m', (infoAt_dir _ _ _).2 ⟨l', h⟩⟩

theorem compat_file (S D : Option Node) (hc : Compat S D) (q : List String) (m : Mode)
    (c : Bytes) (hq : lookup q S = .ok (.file m c)) :
    infoAt q D = .error .ENOENT ∨ ∃ m' c', infoAt q D = .ok (.file m' c') := by
  cases h : lookup q D with
  | error e =>
    rcases lookup_error_cases q D e h with rfl | rfl
    · exact Or.inl ((infoAt_error_iff _ _ _).2 h)
    · exact absurd h (compat_not_enotdir S D hc q _ hq)
  | ok n =>
    cases n with
    | file m' c' => exact Or.inr ⟨m', c', (infoAt_file _ _ _ _).2 h⟩
    | dir m' l' =>
      have := hc q _ _ hq h
      simp [Node.isDir] at this

theorem inv_start {env : Env} (S D0 : Option Node) (hc : Compat S D0) (hwf : treeWf D0 = true) :
    Inv env S D0 D0 :=
  ⟨hwf, fun q m l h => compat_dir S D0 hc q m l h, fun _ _ _ _ => Or.inl rfl⟩

theorem ext_refl {env : Env} (S D0 t : Option Node) : Ext env S D0 t t := ⟨fun _ h => h, fun _ _ _ _ h => h⟩

theorem ext_trans {env : Env} (S D0 t1 t2 t3 : Option Node) (h1 : Ext env S D0 t1 t2) (h2 : Ext env S D0 t2 t3) :
    Ext env S D0 t1 t3 :=
  ⟨fun a h => h2.1 a (h1.1 a h), fun q m c hq h => h2.2 q m c hq (h1.2 q m c hq h)⟩

/-- A change of the destination that is not seen at the paths of the source other than
`a` keeps the invariant and the progress, provided what it leaves at `a` is right. -/
theorem inv_of_frame {env : Env} (S D0 t t' : Option Node) (a : List String) (hi : Inv env S D0 t)
    (hwf : treeWf t' = true)
    (hframe : ∀ q n, lookup q S = .ok n → q ≠ a → infoAt q t' = infoAt q t)
    (hdir : ∀ m l, lookup a S = .ok (.dir m l) → infoAt a t' = .ok (.dir m))
    (hfile : ∀ m c, lookup a S = .ok (.file m c) →
      FilePost env D0 t' a m c ∧ (infoAt a t' = infoAt a D0 ∨
        infoAt a t' = .ok (.file (env.writeMode ⟨.dst, a⟩ m c) c))) :
    Inv env S D0 t' ∧ Ext env S D0 t t' := by
  refine ⟨⟨hwf, ?_, ?_⟩, ?_, ?_⟩
  · intro q m l hq
    by_cases e : q = a
    · subst e
      exact Or.inr ⟨m, hdir m l hq⟩
    · rw [hframe q _ hq e]
      exact hi.dirs q m l hq
  · intro q m c hq
    by_cases e : q = a
    · subst e
      exact (hfile m c hq).2
    · rw [hframe q _ hq e]
      exact hi.files q m c hq
  · rintro b ⟨m, l, h1, h2⟩
    by_cases e : b = a
    · subst e
      exact ⟨m, l, h1, hdir m l h1⟩
    · exact ⟨m, l, h1, by rw [hframe b _ h1 e]; exact h2⟩
  · intro q m c hq hp
    by_cases e : q = a
    · subst e
      exact (hfile m c hq).1
    · unfold FilePost at hp ⊢
      rw [hframe q _ hq e]
      exact hp

/-! ## The three steps of a cycle on compatible trees -/

theorem peek_none_or_dir {env : Env} (S D0 t : Option Node) (a : List String) (m : Mode) (l : Listing)
    (r : Option Node) (hi : Inv env S D0 t) (ha : lookup a S = .ok (.dir m l))
    (hp : peek a t = .ok r) : r = none ∨ ∃ m' l', r = some (.dir m' l') := by
  have hl := lookup_eq_peek a t
  rw [hp] at hl
  rcases hi.dirs a m l ha with h | ⟨m', h⟩
  · rw [infoAt_error_iff] at h
    cases r with
    | none => exact Or.inl rfl
    | some n => simp [hl] at h
  · obtain ⟨l', h⟩ := (infoAt_dir _ _ _).1 h
    cases r with
    | none => simp [hl] at h
    | some n =>
      simp only [hl, Except.ok.injEq] at h
      exact Or.inr ⟨m', l', by rw [h]⟩

theorem peek_of_parent (S t : Option Node) (a : List String)
    (hpar : a = [] ∨ ∃ a' x, a = a' ++ [x] ∧ DirDone S t a') : ∃ r, peek a t = .ok r := by
  rcases hpar with rfl | ⟨a', x, rfl, m, l, -, h⟩
  · exact ⟨t, rfl⟩
  · obtain ⟨l', h⟩ := (infoAt_dir _ _ _).1 h
    exact ⟨_, peek_snoc_of_dir a' x t m l' h⟩

/-- The visit of a source directory whose parent is already mirrored: `MkdirAll` and
`Chmod` succeed, and the directory is then mirrored with its mode. -/
theorem dirStep_spec (env : Env) (hb : env.Benign) (S D0 t : Option Node) (a : List String)
    (m : Mode) (l : Listing) (hi : Inv env S D0 t) (ha : lookup a S = .ok (.dir m l))
    (hpar : a = [] ∨ ∃ a' x, a = a' ++ [x] ∧ DirDone S t a') :
    ∃ t1 t', MkdirAll env ⟨S, t⟩ ⟨.dst, a⟩ ModePerm = .ok ⟨S, t1⟩ ∧
      Chmod env ⟨S, t1⟩ ⟨.dst, a⟩ m = .ok ⟨S, t'⟩ ∧
      Inv env S D0 t' ∧ Ext env S D0 t t' ∧ DirDone S t' a := by
  obtain ⟨r, hp⟩ := peek_of_parent S t a hpar
  have hr := peek_none_or_dir S D0 t a m l r hi ha hp
  have hf1 : ∃ m1 l1, mkdirNode (env.createMode ModePerm) r = .ok (some (.dir m1 l1)) := by
    rcases hr with rfl | ⟨m', l', rfl⟩
    · exact ⟨_, _, rfl⟩
    · exact ⟨_, _, rfl⟩
  obtain ⟨m1, l1, hf1⟩ := hf1
  obtain ⟨t1, ht1⟩ := alter_exists _ a t r _ hp hf1
  obtain ⟨r1, hr1, hp1⟩ := alter_ok_at _ a _ _ r ht1 hp
  rw [hf1] at hr1
  cases hr1
  have hf2 : chmodNode m (some (.dir m1 l1)) = .ok (some (.dir m l1)) := rfl
  obtain ⟨t', ht'⟩ := alter_exists _ a t1 _ _ hp1 hf2
  obtain ⟨r2, hr2, hp2⟩ := alter_ok_at _ a _ _ _ ht' hp1
  rw [hf2] at hr2
  cases hr2
  have hmk : MkdirAll env ⟨S, t⟩ ⟨.dst, a⟩ ModePerm = .ok ⟨S, t1⟩ := by
    have := mkdirAllTree_eq_alter (env.createMode ModePerm) a t r hp
    rw [ht1] at this
    unfold MkdirAll
    simp only [hb.noFail, Bool.false_eq_true, if_false, World.tree]
    cases hm : mkdirAllTree (env.createMode ModePerm) a t with
    | error e => simp [hm] at this
    | ok n =>
      simp only [hm, Except.ok.injEq] at this
      simp only [World.setTree]
      rw [this]
  have hch : Chmod env ⟨S, t1⟩ ⟨.dst, a⟩ m = .ok ⟨S, t'⟩ := by
    unfold Chmod
    simp only [hb.noFail, Bool.false_eq_true, if_false, World.change_dst, ht']
  have hdone : infoAt a t' = .ok (.dir m) :=
    (infoAt_dir _ _ _).2 ⟨l1, lookup_of_peek a t' _ hp2⟩
  have hframe : ∀ q n, lookup q S = .ok n → q ≠ a → infoAt q t' = infoAt q t := by
    intro q n _ hq
    rw [alter_frame_keeps _ a q t1 t' ht' (keepsChildren_chmodNode m) hq,
      alter_frame_keeps _ a q t t1 ht1 (keepsChildren_mkdirNode _) hq]
  have hwf : treeWf t' = true :=
    alter_wf _ a t1 t' ht' (alter_wf _ a t t1 ht1 hi.wf (treeWf_mkdirNode _))
      (treeWf_chmodNode m)
  obtain ⟨h1, h2⟩ := inv_of_frame S D0 t t' a hi hwf hframe
    (fun m' l' h => by
      rw [ha] at h
      cases h
      exact hdone)
    (fun m' c' h => by
      rw [ha] at h
      cases h)
  exact ⟨t1, t', hmk, hch, h1, h2, m, l, ha, hdone⟩

theorem lookup_ok_of_infoAt_eq (q : List String) (t t' : Option Node) (n : Node)
    (h : infoAt q t' = infoAt q t) (hn : lookup q t' = .ok n) : ∃ n', lookup q t = .ok n' := by
  have h1 : infoAt q t' = .ok n.info := (infoAt_ok_iff _ _ _).2 ⟨n, hn, rfl⟩
  rw [h] at h1
  obtain ⟨n', h2, -⟩ := (infoAt_ok_iff _ _ _).1 h1
  exact ⟨n', h2⟩

theorem not_under_file (S : Option Node) (q q' : List String) (m : Mode) (c : Bytes)
    (n : Node) (hq : lookup q S = .ok (.file m c)) (hq' : lookup q' S = .ok n)
    (hne : q' ≠ q) : ¬ under q q' := by
  rintro ⟨s, rfl⟩
  have hs : s ≠ [] := by
    rintro rfl
    simp at hne
  rw [lookup_under_file q s S m c hq hs] at hq'
  cases hq'

/-- A `syncFile` goroutine for a source file whose parent directory is mirrored: it
returns no error, and the destination path then holds the copy of the source or the
file it already had with the same digest. -/
theorem fileStep_spec (env : Env) (hb : env.Benign) (S D0 t : Option Node)
    (a : List String) (x : String) (m : Mode) (c : Bytes) (hi : Inv env S D0 t)
    (hq : lookup (a ++ [x]) S = .ok (.file m c)) (hpar : DirDone S t a)
    (hD0 : infoAt (a ++ [x]) D0 = .error .ENOENT ∨
      ∃ m' c', infoAt (a ++ [x]) D0 = .ok (.file m' c')) :
    ∃ t' b, (syncFile env ⟨S, t⟩ ⟨.src, a ++ [x]⟩ ⟨.dst, a ++ [x]⟩).world = ⟨S, t'⟩ ∧
      (syncFile env ⟨S, t⟩ ⟨.src, a ++ [x]⟩ ⟨.dst, a ++ [x]⟩).result = .ok b ∧
      Inv env S D0 t' ∧ Ext env S D0 t t' ∧ FilePost env D0 t' (a ++ [x]) m c ∧
      (∀ q' n, lookup q' t' = .ok n → q' = a ++ [x] ∨ ∃ n', lookup q' t = .ok n') := by
  have hcase : lookup (a ++ [x]) t = .error .ENOENT ∨
      ∃ md d, lookup (a ++ [x]) t = .ok (.file md d) := by
    rcases hi.files _ m c hq with h | h
    · rcases hD0 with h0 | ⟨m', c', h0⟩
      · rw [h0] at h
        exact Or.inl ((infoAt_error_iff _ _ _).1 h)
      · rw [h0] at h
        exact Or.inr ⟨m', c', (infoAt_file _ _ _ _).1 h⟩
    · exact Or.inr ⟨_, c, (infoAt_file _ _ _ _).1 h⟩
  have hcopy : ∀ (r : Option Node) (calls : List (Call × Path)),
      peek (a ++ [x]) t = .ok r → (r = none ∨ ∃ md d, r = some (.file md d)) →
      ∃ t' b, (copyFile env ⟨S, t⟩ ⟨.src, a ++ [x]⟩ ⟨.dst, a ++ [x]⟩
          ⟨false, c.length, m⟩ calls).world = ⟨S, t'⟩ ∧
        (copyFile env ⟨S, t⟩ ⟨.src, a ++ [x]⟩ ⟨.dst, a ++ [x]⟩
          ⟨false, c.length, m⟩ calls).result = .ok b ∧
        Inv env S D0 t' ∧ Ext env S D0 t t' ∧ FilePost env D0 t' (a ++ [x]) m c ∧
        (∀ q' n, lookup q' t' = .ok n → q' = a ++ [x] ∨ ∃ n', lookup q' t = .ok n') := by
    intro r calls hp hr
    obtain ⟨t', h1, h2, h3, h4, h5⟩ :=
      copyFile_spec env hb ⟨S, t⟩ (a ++ [x]) (a ++ [x]) m c ⟨false, c.length, m⟩ calls r
        hq rfl hp hr
    have hdone : infoAt (a ++ [x]) t' =
        .ok (.file (env.writeMode ⟨.dst, a ++ [x]⟩ m c) c) :=
      (infoAt_file _ _ _ _).2 (lookup_of_peek _ t' _ h3)
    obtain ⟨i1, i2⟩ := inv_of_frame S D0 t t' (a ++ [x]) hi (h5 hi.wf)
      (fun q n hn hne => h4 q (not_under_file S _ q m c n hq hn hne))
      (fun m' l' h => by
        rw [hq] at h
        cases h)
      (fun m' c' h => by
        rw [hq] at h
        cases h
        exact ⟨Or.inl hdone, Or.inr hdone⟩)
    refine ⟨t', _, h1, h2, i1, i2, Or.inl hdone, ?_⟩
    intro q' n hn
    by_cases hu : under (a ++ [x]) q'
    · obtain ⟨r', rfl⟩ := hu
      cases r' with
      | nil => exact Or.inl (by simp)
      | cons y ys =>
        rw [lookup_append, h3] at hn
        simp [lookup] at hn
    · exact Or.inr (lookup_ok_of_infoAt_eq q' t t' n (h4 q' hu) hn)
  rcases hcase with he | ⟨md, d, hf⟩
  · rw [syncFile_absent env hb ⟨S, t⟩ _ _ m c _ hq he]
    obtain ⟨m', l', -, hpa⟩ := hpar
    obtain ⟨l'', hpa⟩ := (infoAt_dir _ _ _).1 hpa
    have hp := peek_snoc_of_dir a x t m' l'' hpa
    have hl := lookup_snoc_of_dir a x t m' l'' hpa
    rw [he] at hl
    cases hfind : l''.find x with
    | none =>
      rw [hfind] at hp
      exact hcopy none _ hp (Or.inl rfl)
    | some n => simp [hfind, lookup] at hl
  · by_cases hdig : digest c = digest d
    · obtain ⟨h1, h2⟩ := syncFile_same env hb ⟨S, t⟩ _ _ m md c d hq hf hdig
      refine ⟨t, _, h1, h2, hi, ext_refl S D0 t, ?_, fun q' n hn => Or.inr ⟨n, hn⟩⟩
      rcases hi.files _ m c hq with h | h
      · exact Or.inr ⟨md, d, by rw [← h]; exact (infoAt_file _ _ _ _).2 hf, hdig,
          (infoAt_file _ _ _ _).2 hf⟩
      · exact Or.inl h
    · rw [syncFile_differ env hb ⟨S, t⟩ _ _ m md c d hq hf hdig]
      exact hcopy (some (.file md d)) _ (peek_of_lookup _ t _ hf) (Or.inr ⟨md, d, rfl⟩)

theorem not_under_absent (S : Option Node) (d q : List String) (n : Node)
    (hd : lookup d S = .error .ENOENT) (hq : lookup q S = .ok n) : ¬ under d q := by
  rintro ⟨s, rfl⟩
  rw [lookup_under_enoent d s S hd] at hq
  cases hq

/-- The removal of a destination path whose mirrored source path does not exist: the
progress is kept, and what exists afterwards existed before and is not below the path. -/
theorem removeStep_spec (env : Env) (hb : env.Benign) (S D0 : Option Node) (s : Cycle)
    (d : List String) (hs : s.world.src = S) (hi : Inv env S D0 s.world.dst)
    (hd : lookup d S = .error .ENOENT) :
    (removeStep env s ⟨.dst, d⟩).world.src = S ∧
    Inv env S D0 (removeStep env s ⟨.dst, d⟩).world.dst ∧
    Ext env S D0 s.world.dst (removeStep env s ⟨.dst, d⟩).world.dst ∧
    (∀ q n, lookup q (removeStep env s ⟨.dst, d⟩).world.dst = .ok n →
      (∃ n', lookup q s.world.dst = .ok n') ∧ ¬ under d q) := by
  have hnone : ∀ e, alter removeNode d s.world.dst = .error e →
      ∀ q n, lookup q s.world.dst = .ok n → ¬ under d q := by
    intro e he q n hq
    rintro ⟨r, rfl⟩
    rcases alter_error _ d _ e he with h | ⟨r0, -, h⟩
    · rw [lookup_append, h] at hq
      cases hq
    · simp [removeNode] at h
  cases ha : alter removeNode d s.world.dst with
  | error e =>
    have hw : (removeStep env s ⟨.dst, d⟩).world = s.world := by
      unfold removeStep RemoveAll
      simp only [hb.noFail, Bool.false_eq_true, if_false, World.change_dst, ha]
      cases e <;> rfl
    rw [hw]
    exact ⟨hs, hi, ext_refl _ _ _, fun q n hq => ⟨⟨n, hq⟩, hnone e ha q n hq⟩⟩
  | ok t1 =>
    have hw : (removeStep env s ⟨.dst, d⟩).world = ⟨s.world.src, t1⟩ := by
      unfold removeStep RemoveAll
      simp only [hb.noFail, Bool.false_eq_true, if_false, World.change_dst, ha]
    rw [hw]
    obtain ⟨r, r0, -, hp0, hp1⟩ := alter_ok _ d _ _ ha
    simp only [removeNode, Except.ok.injEq] at hp0
    subst hp0
    obtain ⟨i1, i2⟩ := inv_of_frame S D0 s.world.dst t1 d hi
      (alter_wf _ d _ _ ha hi.wf treeWf_removeNode)
      (fun q n hn _ => alter_frame _ d q _ _ ha (not_under_absent S d q n hd hn))
      (fun m l h => by
        rw [hd] at h
        cases h)
      (fun m c h => by
        rw [hd] at h
        cases h)
    refine ⟨hs, i1, i2, ?_⟩
    intro q n hq
    by_cases hu : under d q
    · obtain ⟨r, rfl⟩ := hu
      rw [lookup_append, hp1] at hq
      simp [lookup] at hq
    · exact ⟨lookup_ok_of_infoAt_eq q _ _ n (alter_frame _ d q _ _ ha hu) hq, hu⟩

/-! ## The walk over the source on compatible trees -/

theorem later_refl {env : Env} (S D0 : Option Node) (s : Cycle) : Later env S D0 s s :=
  ⟨ext_refl _ _ _, fun _ h => h⟩

theorem later_trans {env : Env} (S D0 : Option Node) (s1 s2 s3 : Cycle) (h1 : Later env S D0 s1 s2)
    (h2 : Later env S D0 s2 s3) : Later env S D0 s1 s3 :=
  ⟨ext_trans _ _ _ _ _ h1.1 h2.1, fun t h => h2.2 t (h1.2 t h)⟩

theorem done_later {env : Env} (S D0 : Option Node) (s s' : Cycle) (q : List String)
    (hl : Later env S D0 s s') (hd : Done env S D0 s q) : Done env S D0 s' q := by
  refine ⟨?_, ?_⟩
  · intro m l hq
    obtain ⟨m', l', h1, h2⟩ := hl.1.1 q ⟨m, l, hq, hd.1 m l hq⟩
    rw [hq] at h1
    cases h1
    exact h2
  · intro m c hq
    rcases hd.2 m c hq with h | h
    · exact Or.inl (hl.1.2 q m c hq h)
    · exact Or.inr (hl.2 _ h)

theorem dirDone_later {env : Env} (S D0 : Option Node) (s s' : Cycle) (a : List String)
    (hl : Later env S D0 s s') (hd : DirDone S s.world.dst a) : DirDone S s'.world.dst a :=
  hl.1.1 a hd

theorem world_eta (w : World) (S : Option Node) (h : w.src = S) : w = ⟨S, w.dst⟩ := by
  cases w
  simp only at h
  subst h
  rfl

theorem stat_src_dir (env : Env) (hb : env.Benign) (w : World) (q : List String) (m : Mode)
    (l : Listing) (h : lookup q w.src = .ok (.dir m l)) :
    Stat env w ⟨.src, q⟩ = .ok ⟨true, env.dirSize ⟨.src, q⟩, m⟩ := by
  simp [Stat, hb.noFail, h]

/-- The callback of the source walk on a directory whose parent is mirrored. -/
theorem srcVisit_dir (env : Env) (hb : env.Benign) (S D0 : Option Node) (s : Cycle)
    (a : List String) (n : String) (m : Mode) (l : Listing) (hg : Good env S D0 s)
    (ha : lookup a S = .ok (.dir m l))
    (hpar : a = [] ∨ ∃ a' x, a = a' ++ [x] ∧ DirDone S s.world.dst a') :
    ∃ s', srcVisit env s ⟨.src, a⟩ (some ⟨n, true⟩) none = (s', none) ∧
      Good env S D0 s' ∧ Later env S D0 s s' ∧ DirDone S s'.world.dst a := by
  obtain ⟨t1, t', h1, h2, h3, h4, h5⟩ :=
    dirStep_spec env hb S D0 s.world.dst a m l hg.inv ha hpar
  have hw := world_eta s.world S hg.src
  have hst : Stat env s.world ⟨.src, a⟩ = .ok ⟨true, env.dirSize ⟨.src, a⟩, m⟩ :=
    stat_src_dir env hb s.world a m l (by rw [hg.src]; exact ha)
  refine ⟨{ s with world := ⟨S, t'⟩ }, ?_, ?_, ?_, h5⟩
  · have hrel : Rel srcDir ⟨.src, a⟩ = .ok a := rfl
    rw [← hw] at h1
    simp only [srcVisit, hrel, hst, Join, dstDir, h1, h2, if_true]
  · exact ⟨rfl, h3, fun t ht => by
      obtain ⟨a', x, m', c, e1, e2, e3⟩ := hg.pend t ht
      exact ⟨a', x, m', c, e1, e2, h4.1 a' e3⟩, hg.fin⟩
  · exact ⟨h4, fun _ h => h⟩

/-- The callback of the source walk on a regular file whose parent is mirrored. -/
theorem srcVisit_file (env : Env) (hb : env.Benign) (S D0 : Option Node) (s : Cycle)
    (a : List String) (x : String) (m : Mode) (c : Bytes) (hg : Good env S D0 s)
    (hq : lookup (a ++ [x]) S = .ok (.file m c)) (hpar : DirDone S s.world.dst a)
    (hD0 : infoAt (a ++ [x]) D0 = .error .ENOENT ∨
      ∃ m' c', infoAt (a ++ [x]) D0 = .ok (.file m' c')) :
    ∃ s', srcVisit env s ⟨.src, a ++ [x]⟩ (some ⟨x, false⟩) none = (s', none) ∧
      Good env S D0 s' ∧ Later env S D0 s s' ∧ Done env S D0 s' (a ++ [x]) := by
  have hw := world_eta s.world S hg.src
  have hst : Stat env s.world ⟨.src, a ++ [x]⟩ = .ok ⟨false, c.length, m⟩ :=
    stat_src_file env hb s.world _ m c (by rw [hg.src]; exact hq)
  have hrel : Rel srcDir ⟨.src, a ++ [x]⟩ = .ok (a ++ [x]) := rfl
  have hv : srcVisit env s ⟨.src, a ++ [x]⟩ (some ⟨x, false⟩) none =
      (spawn env s ⟨⟨.src, a ++ [x]⟩, ⟨.dst, a ++ [x]⟩⟩, none) := by
    simp only [srcVisit, hrel, hst, Join, dstDir]
    rfl
  refine ⟨_, hv, ?_⟩
  by_cases hr : env.runsAtSpawn ⟨.dst, a ++ [x]⟩ = true
  · obtain ⟨t', b, h1, h2, h3, h4, h5, -⟩ :=
      fileStep_spec env hb S D0 s.world.dst a x m c hg.inv hq hpar hD0
    rw [← hw] at h1 h2
    have hsp : spawn env s ⟨⟨.src, a ++ [x]⟩, ⟨.dst, a ++ [x]⟩⟩ =
        { s with
          world := ⟨S, t'⟩
          spawned := s.spawned ++ [⟨⟨.src, a ++ [x]⟩, ⟨.dst, a ++ [x]⟩⟩]
          finished := s.finished ++ [(⟨⟨.src, a ++ [x]⟩, ⟨.dst, a ++ [x]⟩⟩, .ok b)] } := by
      unfold spawn
      simp only [hr, if_true, h1, h2]
    rw [hsp]
    refine ⟨⟨rfl, h3, ?_, ?_⟩, ⟨h4, fun _ h => h⟩, ?_, ?_⟩
    · intro t ht
      obtain ⟨a', x', m', c', e1, e2, e3⟩ := hg.pend t ht
      exact ⟨a', x', m', c', e1, e2, h4.1 a' e3⟩
    · intro tr htr
      simp only [List.mem_append, List.mem_singleton] at htr
      rcases htr with h | rfl
      · exact hg.fin tr h
      · exact ⟨b, rfl⟩
    · intro m' l' h
      rw [hq] at h
      cases h
    · intro m' c' h
      rw [hq] at h
      cases h
      exact Or.inl h5
  · have hsp : spawn env s ⟨⟨.src, a ++ [x]⟩, ⟨.dst, a ++ [x]⟩⟩ =
        { s with
          spawned := s.spawned ++ [⟨⟨.src, a ++ [x]⟩, ⟨.dst, a ++ [x]⟩⟩]
          pending := s.pending ++ [⟨⟨.src, a ++ [x]⟩, ⟨.dst, a ++ [x]⟩⟩] } := by
      unfold spawn
      simp only [hr, Bool.false_eq_true, if_false]
    rw [hsp]
    refine ⟨⟨hg.src, hg.inv, ?_, hg.fin⟩, ⟨ext_refl _ _ _, fun t h => ?_⟩, ?_, ?_⟩
    · intro t ht
      simp only [List.mem_append, List.mem_singleton] at ht
      rcases ht with h | rfl
      · exact hg.pend t h
      · exact ⟨a, x, m, c, rfl, hq, hpar⟩
    · exact List.mem_append_left _ h
    · intro m' l' h
      rw [hq] at h
      cases h
    · intro m' c' h
      exact Or.inr (List.mem_append_right _ (List.mem_singleton.2 rfl))

theorem done_of_dirDone {env : Env} (S D0 : Option Node) (s : Cycle) (q : List String)
    (h : DirDone S s.world.dst q) : Done env S D0 s q := by
  obtain ⟨m, l, h1, h2⟩ := h
  refine ⟨?_, ?_⟩
  · intro m' l' hq
    rw [h1] at hq
    cases hq
    exact h2
  · intro m' c' hq
    rw [h1] at hq
    cases hq

/-- The walk over the entries of a source directory that is already mirrored, on
compatible trees and with no failing call: it ends without an error, and every source path
below the directory has been dealt with. -/
theorem walkDir_src (env : Env) (hb : env.Benign) (S D0 : Option Node)
    (hK : ∀ q m c, lookup q S = .ok (.file m c) →
      infoAt q D0 = .error .ENOENT ∨ ∃ m' c', infoAt q D0 = .ok (.file m' c'))
    (l : Listing) :
    ∀ (a : List String) (s : Cycle), Good env S D0 s → DirDone S s.world.dst a → l.wf = true →
      (∀ x nd, l.find x = some nd → lookup (a ++ [x]) S = .ok nd) →
      ∃ s', walkDir env (srcVisit env) .src a l s = (s', none) ∧ Good env S D0 s' ∧
        Later env S D0 s s' ∧
        ∀ x p n, lookup (x :: p) (some (.dir 0 l)) = .ok n → Done env S D0 s' (a ++ x :: p) := by
  induction l with
  | nil =>
    intro a s hg _ _ _
    exact ⟨s, rfl, hg, later_refl _ _ _, fun x p n h => by simp [lookup, Listing.find] at h⟩
  | file n m c rest ih =>
    intro a s hg hpar hwf hsub
    rw [Listing.wf_file_iff] at hwf
    have hq : lookup (a ++ [n]) S = .ok (.file m c) := hsub n _ (by simp [Listing.find])
    obtain ⟨s1, hv, hg1, hl1, hd1⟩ :=
      srcVisit_file env hb S D0 s a n m c hg hq hpar (hK _ m c hq)
    have hsub' : ∀ x nd, rest.find x = some nd → lookup (a ++ [x]) S = .ok nd := by
      intro x nd hx
      have hne : ¬ x = n := by
        rintro rfl
        rw [hwf.1] at hx
        cases hx
      exact hsub x nd (by simp [Listing.find, hne, hx])
    obtain ⟨s', hw, hg', hl', hd'⟩ :=
      ih a s1 hg1 (dirDone_later S D0 s s1 a hl1 hpar) hwf.2 hsub'
    refine ⟨s', ?_, hg', later_trans _ _ _ _ _ hl1 hl', ?_⟩
    · simp only [walkDir, hv]
      exact hw
    · intro x p k hk
      by_cases hx : x = n
      · subst hx
        simp only [lookup, Listing.find, if_true] at hk
        cases p with
        | nil => exact done_later S D0 s1 s' _ hl' hd1
        | cons y ys => simp [lookup] at hk
      · simp only [lookup, Listing.find, hx, if_false] at hk
        exact hd' x p k (by simpa [lookup] using hk)
  | dir n m ch rest ihc ih =>
    intro a s hg hpar hwf hsub
    rw [Listing.wf_dir_iff] at hwf
    have hq : lookup (a ++ [n]) S = .ok (.dir m ch) := hsub n _ (by simp [Listing.find])
    obtain ⟨s1, hv, hg1, hl1, hd1⟩ :=
      srcVisit_dir env hb S D0 s (a ++ [n]) n m ch hg hq (Or.inr ⟨a, n, rfl, hpar⟩)
    have hsubc : ∀ x nd, ch.find x = some nd → lookup ((a ++ [n]) ++ [x]) S = .ok nd := by
      intro x nd hx
      rw [lookup_snoc_of_dir (a ++ [n]) x S m ch hq, hx]
      rfl
    obtain ⟨s2, hw2, hg2, hl2, hd2⟩ := ihc (a ++ [n]) s1 hg1 hd1 hwf.2.1 hsubc
    have hsub' : ∀ x nd, rest.find x = some nd → lookup (a ++ [x]) S = .ok nd := by
      intro x nd hx
      have hne : ¬ x = n := by
        rintro rfl
        rw [hwf.1] at hx
        cases hx
      exact hsub x nd (by simp [Listing.find, hne, hx])
    have hl12 := later_trans _ _ _ _ _ hl1 hl2
    obtain ⟨s', hw, hg', hl', hd'⟩ :=
      ih a s2 hg2 (dirDone_later S D0 s s2 a hl12 hpar) hwf.2.2 hsub'
    refine ⟨s', ?_, hg', later_trans _ _ _ _ _ hl12 hl', ?_⟩
    · simp only [walkDir, hv, hb.noFail, Bool.false_eq_true, if_false, hw2]
      exact hw
    · intro x p k hk
      by_cases hx : x = n
      · subst hx
        simp only [lookup, Listing.find, if_true] at hk
        cases p with
        | nil =>
          exact done_later S D0 s1 s' _ (later_trans _ _ _ _ _ hl2 hl')
            (done_of_dirDone S D0 s1 _ hd1)
        | cons y ys =>
          have := hd2 y ys k (by simpa [lookup] using hk)
          have e : a ++ x :: y :: ys = (a ++ [x]) ++ y :: ys := by simp
          rw [e]
          exact done_later S D0 s2 s' _ hl' this
      · simp only [lookup, Listing.find, hx, if_false] at hk
        exact hd' x p k (by simpa [lookup] using hk)

theorem good_start {env : Env} (S D0 : Option Node) (hc : Compat S D0) (hwf : treeWf D0 = true) :
    Good env S D0 (Cycle.start ⟨S, D0⟩) :=
  ⟨rfl, inv_start S D0 hc hwf, fun _ h => by simp [Cycle.start] at h,
    fun _ h => by simp [Cycle.start] at h⟩

/-- The walk over the source on compatible trees, with no failing call: it ends without an
error and every path of the source has been dealt with. -/
theorem sourceWalk_spec (env : Env) (hb : env.Benign) (S D0 : Option Node) (m0 : Mode)
    (l0 : Listing) (hS : S = some (.dir m0 l0)) (hwfS : l0.wf = true)
    (hwfD : treeWf D0 = true) (hc : Compat S D0) :
    Good env S D0 (sourceWalk env ⟨S, D0⟩) ∧ (sourceWalk env ⟨S, D0⟩).srcWalkErr = none ∧
    DirDone S (sourceWalk env ⟨S, D0⟩).world.dst [] ∧
    ∀ q n, lookup q S = .ok n → Done env S D0 (sourceWalk env ⟨S, D0⟩) q := by
  have hroot : lookup [] S = .ok (.dir m0 l0) := by rw [hS]; rfl
  obtain ⟨s1, hv, hg1, hl1, hd1⟩ :=
    srcVisit_dir env hb S D0 (Cycle.start ⟨S, D0⟩) [] "" m0 l0 (good_start S D0 hc hwfD)
      hroot (Or.inl rfl)
  have hsub : ∀ x nd, l0.find x = some nd → lookup ([] ++ [x]) S = .ok nd := by
    intro x nd hx
    rw [hS]
    simp [lookup, hx]
  obtain ⟨s', hw, hg', hl', hd'⟩ :=
    walkDir_src env hb S D0 (fun q m c h => compat_file S D0 hc q m c h) l0 [] s1 hg1 hd1
      hwfS hsub
  have hwalk : WalkDir env ⟨S, D0⟩ ⟨srcDir, []⟩ (srcVisit env) (Cycle.start ⟨S, D0⟩) =
      (s', none) := by
    have hn : (⟨S, D0⟩ : World).node ⟨srcDir, []⟩ = .ok (.dir m0 l0) := hroot
    simp only [WalkDir, hb.noFail, Bool.false_eq_true, if_false, hn]
    have hv' : srcVisit env (Cycle.start ⟨S, D0⟩) ⟨srcDir, []⟩ (some ⟨"", true⟩) none =
        (s1, none) := hv
    simp only [hv']
    exact hw
  have hsw : sourceWalk env ⟨S, D0⟩ = { s' with srcWalkErr := none } := by
    unfold sourceWalk
    rw [hwalk]
  rw [hsw]
  refine ⟨⟨hg'.src, hg'.inv, hg'.pend, hg'.fin⟩, rfl, dirDone_later S D0 s1 s' [] hl' hd1, ?_⟩
  intro q n hq
  cases q with
  | nil =>
    have := done_later S D0 s1 s' [] hl' (done_of_dirDone S D0 s1 [] hd1)
    exact ⟨this.1, this.2⟩
  | cons x p =>
    have hk : lookup (x :: p) (some (.dir 0 l0)) = .ok n := by
      rw [hS] at hq
      simpa [lookup] using hq
    have := hd' x p n hk
    exact ⟨this.1, this.2⟩

/-! ## The walk over the destination, the removals and the wait -/

/-- The walk from a root that is a directory, where every directory can be read: the
callback on the root, then on the entries below it in order, up to the first error. -/
theorem WalkDir_eq_visits {σ : Type} (env : Env) (w : World) (root : Path)
    (fn : WalkDirFunc σ) (s : σ) (m : Mode) (l : Listing)
    (hn : w.node root = .ok (.dir m l)) (hread : ∀ p, env.fails .readDir p = false)
    (hlstat : env.fails .lstat root = false) :
    WalkDir env w root fn s =
      visits fn ((root, ⟨"", true⟩) :: entries root.base root.rel l) s := by
  simp only [WalkDir, hlstat, hn, visits, hread, Bool.false_eq_true, if_false]
  rcases hr : fn s root (some ⟨"", true⟩) none with ⟨s1, _ | e⟩
  · simp only
    exact walkDir_eq_visits env fn root.base hread l root.rel s1
  · rfl

theorem entries_base (b : Base) (l : Listing) :
    ∀ (a : List String) (p : Path) (d : DirEntry), (p, d) ∈ entries b a l → p.base = b := by
  induction l with
  | nil => intro a p d h; simp [entries] at h
  | file n m c rest ih =>
    intro a p d h
    simp only [entries, List.mem_cons, Prod.mk.injEq] at h
    rcases h with ⟨rfl, -⟩ | h
    · rfl
    · exact ih a p d h
  | dir n m ch rest ihc ih =>
    intro a p d h
    simp only [entries, List.mem_cons, Prod.mk.injEq, List.mem_append] at h
    rcases h with ⟨rfl, -⟩ | h | h
    · rfl
    · exact ihc _ p d h
    · exact ih a p d h

/-- Every path that exists below a directory is among its entries. -/
theorem entries_complete (b : Base) (l : Listing) :
    ∀ (a : List String) (x : String) (p : List String) (n : Node),
      lookup (x :: p) (some (.dir 0 l)) = .ok n →
      ∃ d, ((⟨b, a ++ x :: p⟩ : Path), d) ∈ entries b a l := by
  induction l with
  | nil => intro a x p n h; simp [lookup, Listing.find] at h
  | file k m c rest ih =>
    intro a x p n h
    by_cases hx : x = k
    · subst hx
      simp only [lookup, Listing.find, if_true] at h
      cases p with
      | nil => exact ⟨⟨x, false⟩, by simp only [entries]; exact List.mem_cons_self _ _⟩
      | cons y ys => simp [lookup] at h
    · simp only [lookup, Listing.find, hx, if_false] at h
      obtain ⟨d, hd⟩ := ih a x p n (by simpa [lookup] using h)
      exact ⟨d, by simp only [entries]; exact List.mem_cons_of_mem _ hd⟩
  | dir k m ch rest ihc ih =>
    intro a x p n h
    by_cases hx : x = k
    · subst hx
      simp only [lookup, Listing.find, if_true] at h
      cases p with
      | nil => exact ⟨⟨x, true⟩, by simp only [entries]; exact List.mem_cons_self _ _⟩
      | cons y ys =>
        obtain ⟨d, hd⟩ := ihc (a ++ [x]) y ys n (by simpa [lookup] using h)
        refine ⟨d, ?_⟩
        simp only [entries]
        have e : a ++ x :: y :: ys = (a ++ [x]) ++ y :: ys := by simp
        rw [e]
        exact List.mem_cons_of_mem _ (List.mem_append_left _ hd)
    · simp only [lookup, Listing.find, hx, if_false] at h
      obtain ⟨d, hd⟩ := ih a x p n (by simpa [lookup] using h)
      exact ⟨d, by
        simp only [entries]
        exact List.mem_cons_of_mem _ (List.mem_append_right _ hd)⟩

/-- In a well-formed tree, every entry of a directory is a path that exists. -/
theorem entries_sound (b : Base) (T : Option Node) (l : Listing) :
    ∀ (a : List String), l.wf = true →
      (∀ x nd, l.find x = some nd → lookup (a ++ [x]) T = .ok nd) →
      ∀ p d, (p, d) ∈ entries b a l → ∃ n, lookup p.rel T = .ok n := by
  induction l with
  | nil => intro a _ _ p d h; simp [entries] at h
  | file k m c rest ih =>
    intro a hwf hsub p d h
    rw [Listing.wf_file_iff] at hwf
    simp only [entries, List.mem_cons, Prod.mk.injEq] at h
    rcases h with ⟨rfl, -⟩ | h
    · exact ⟨.file m c, hsub k _ (by simp [Listing.find])⟩
    · refine ih a hwf.2 ?_ p d h
      intro x nd hx
      have hne : ¬ x = k := by
        rintro rfl
        rw [hwf.1] at hx
        cases hx
      exact hsub x nd (by simp [Listing.find, hne, hx])
  | dir k m ch rest ihc ih =>
    intro a hwf hsub p d h
    rw [Listing.wf_dir_iff] at hwf
    have hq : lookup (a ++ [k]) T = .ok (.dir m ch) := hsub k _ (by simp [Listing.find])
    simp only [entries, List.mem_cons, Prod.mk.injEq, List.mem_append] at h
    rcases h with ⟨rfl, -⟩ | h | h
    · exact ⟨_, hq⟩
    · refine ihc (a ++ [k]) hwf.2.1 ?_ p d h
      intro x nd hx
      rw [lookup_snoc_of_dir (a ++ [k]) x T m ch hq, hx]
      rfl
    · refine ih a hwf.2.2 ?_ p d h
      intro x nd hx
      have hne : ¬ x = k := by
        rintro rfl
        rw [hwf.1] at hx
        cases hx
      exact hsub x nd (by simp [Listing.find, hne, hx])

theorem isNotExist_stat (env : Env) (hb : env.Benign) (w : World) (q : List String) :
    IsNotExist (Stat env w ⟨.src, q⟩) = true ↔ lookup q w.src = .error .ENOENT := by
  simp only [Stat, hb.noFail, Bool.false_eq_true, if_false, World.node_src]
  cases h : lookup q w.src with
  | error e => cases e <;> simp [IsNotExist]
  | ok n => cases n <;> simp [IsNotExist]

theorem dstVisit_step (env : Env) (s : Cycle) (q : List String) (d : DirEntry) :
    dstVisit env s ⟨.dst, q⟩ (some d) none =
      (if IsNotExist (Stat env s.world ⟨.src, q⟩) = true
        then { s with toDelete := mark s.toDelete ⟨.dst, q⟩ } else s, none) := by
  have hrel : Rel dstDir ⟨.dst, q⟩ = .ok q := rfl
  simp only [dstVisit, hrel, Join, srcDir]
  split <;> rfl

theorem mem_mark (l : List Path) (p d : Path) : d ∈ mark l p ↔ d ∈ l ∨ d = p := by
  unfold mark
  split
  · rename_i h
    constructor
    · exact Or.inl
    · rintro (h' | rfl)
      · exact h'
      · exact h
  · simp

/-- The callback of the destination walk on a list of destination entries: no error, and
only `toDelete` changes; it gains the entries whose mirrored path `os.Stat` does not find
in the source. -/
theorem visits_dstVisit (env : Env) (es : List (Path × DirEntry)) :
    ∀ s : Cycle, (∀ p d, (p, d) ∈ es → p.base = .dst) →
      (visits (dstVisit env) es s).2 = none ∧
      (visits (dstVisit env) es s).1 =
        { s with toDelete := (visits (dstVisit env) es s).1.toDelete } ∧
      (∀ d, d ∈ (visits (dstVisit env) es s).1.toDelete ↔
        d ∈ s.toDelete ∨ ((∃ e, (d, e) ∈ es) ∧
          IsNotExist (Stat env s.world ⟨.src, d.rel⟩) = true)) := by
  induction es with
  | nil => intro s _; exact ⟨rfl, rfl, fun d => by simp [visits]⟩
  | cons x es ih =>
    intro s hbase
    obtain ⟨p, e⟩ := x
    have hp : p.base = .dst := hbase p e (List.mem_cons_self _ _)
    obtain ⟨pb, q⟩ := p
    simp only at hp
    subst hp
    simp only [visits, dstVisit_step]
    have hrest := fun s' => ih s' (fun p d h => hbase p d (List.mem_cons_of_mem _ h))
    by_cases hne : IsNotExist (Stat env s.world ⟨.src, q⟩) = true
    · rw [if_pos hne]
      obtain ⟨h1, h2, h5⟩ := hrest { s with toDelete := mark s.toDelete ⟨.dst, q⟩ }
      refine ⟨h1, ?_, ?_⟩
      · rw [h2]
      · intro d
        rw [h5 d]
        simp only [mem_mark, List.mem_cons, Prod.mk.injEq]
        constructor
        · rintro ((h | rfl) | ⟨⟨e', h⟩, h'⟩)
          · exact Or.inl h
          · exact Or.inr ⟨⟨e, Or.inl ⟨rfl, rfl⟩⟩, hne⟩
          · exact Or.inr ⟨⟨e', Or.inr h⟩, h'⟩
        · rintro (h | ⟨⟨e', ⟨rfl, -⟩ | h⟩, h'⟩)
          · exact Or.inl (Or.inl h)
          · exact Or.inl (Or.inr rfl)
          · exact Or.inr ⟨⟨e', h⟩, h'⟩
    · rw [if_neg hne]
      obtain ⟨h1, h2, h5⟩ := hrest s
      refine ⟨h1, h2, ?_⟩
      intro d
      rw [h5 d]
      simp only [List.mem_cons, Prod.mk.injEq]
      constructor
      · rintro (h | ⟨⟨e', h⟩, h'⟩)
        · exact Or.inl h
        · exact Or.inr ⟨⟨e', Or.inr h⟩, h'⟩
      · rintro (h | ⟨⟨e', ⟨rfl, -⟩ | h⟩, h'⟩)
        · exact Or.inl h
        · exact absurd h' hne
        · exact Or.inr ⟨⟨e', h⟩, h'⟩

/-- The walk over a well-formed destination whose root is a directory, with no failing
call: no error, only `toDelete` changes, and its keys are the destination paths that exist
and whose mirrored path does not exist in the source. -/
theorem destWalk_spec (env : Env) (hb : env.Benign) (s : Cycle) (m : Mode) (l : Listing)
    (hroot : lookup [] s.world.dst = .ok (.dir m l)) (hwf : treeWf s.world.dst = true)
    (hdel : s.toDelete = []) :
    destWalk env s = { s with toDelete := (destWalk env s).toDelete, dstWalkErr := none } ∧
    (∀ d ∈ (destWalk env s).toDelete,
      ∃ q n, d = ⟨.dst, q⟩ ∧ lookup q s.world.src = .error .ENOENT ∧
        lookup q s.world.dst = .ok n) ∧
    (∀ q n, lookup q s.world.dst = .ok n → lookup q s.world.src = .error .ENOENT →
      (⟨.dst, q⟩ : Path) ∈ (destWalk env s).toDelete) := by
  have hr : s.world.dst = some (.dir m l) := by
    cases hdst : s.world.dst with
    | none => simp [hdst, lookup] at hroot
    | some nd =>
      simp only [hdst, lookup, Except.ok.injEq] at hroot
      rw [hroot]
  have hwalk := WalkDir_eq_visits env s.world ⟨dstDir, []⟩ (dstVisit env) s m l hroot
    (fun p => hb.noFail _ p) (hb.noFail _ _)
  have hbase : ∀ p d, (p, d) ∈ ((⟨dstDir, []⟩, ⟨"", true⟩) :: entries dstDir [] l :
      List (Path × DirEntry)) → p.base = .dst := by
    intro p d h
    simp only [List.mem_cons, Prod.mk.injEq] at h
    rcases h with ⟨rfl, -⟩ | h
    · rfl
    · exact entries_base dstDir l [] p d h
  have hsound : ∀ p d, (p, d) ∈ ((⟨dstDir, []⟩, ⟨"", true⟩) :: entries dstDir [] l :
      List (Path × DirEntry)) → ∃ n, lookup p.rel s.world.dst = .ok n := by
    intro p d h
    simp only [List.mem_cons, Prod.mk.injEq] at h
    rcases h with ⟨rfl, -⟩ | h
    · exact ⟨_, hroot⟩
    · refine entries_sound dstDir s.world.dst l [] ?_ ?_ p d h
      · rw [hr] at hwf
        exact hwf
      · intro x nd hx
        rw [hr]
        simp [lookup, hx]
  obtain ⟨h1, h2, h5⟩ := visits_dstVisit env _ s hbase
  have hd : destWalk env s =
      { (visits (dstVisit env) ((⟨dstDir, []⟩, ⟨"", true⟩) :: entries dstDir [] l) s).1 with
        dstWalkErr := none } := by
    unfold destWalk
    rw [hwalk]
    rw [← h1]
  refine ⟨?_, ?_, ?_⟩
  · rw [hd]
    simp only
    rw [h2]
  · rw [hd]
    intro d hd'
    have := (h5 d).1 hd'
    rw [hdel] at this
    rcases this with h | ⟨⟨e, he⟩, hne⟩
    · simp at h
    · have hb' := hbase d e he
      obtain ⟨n, hn⟩ := hsound d e he
      refine ⟨d.rel, n, ?_, (isNotExist_stat env hb s.world d.rel).1 hne, hn⟩
      cases d
      simp only at hb'
      subst hb'
      rfl
  · rw [hd]
    intro q n hq hs
    refine (h5 ⟨.dst, q⟩).2 (Or.inr ⟨?_, (isNotExist_stat env hb s.world q).2 hs⟩)
    cases q with
    | nil => exact ⟨_, List.mem_cons_self _ _⟩
    | cons x p =>
      have hk : lookup (x :: p) (some (.dir 0 l)) = .ok n := by
        rw [hr] at hq
        simpa [lookup] using hq
      obtain ⟨d, hd'⟩ := entries_complete dstDir l [] x p n hk
      exact ⟨d, List.mem_cons_of_mem _ (by simpa using hd')⟩

theorem removeStep_pending (env : Env) (s : Cycle) (p : Path) :
    (removeStep env s p).pending = s.pending ∧ (removeStep env s p).finished = s.finished := by
  unfold removeStep
  split <;> exact ⟨rfl, rfl⟩

/-- The loop over `toDelete` on compatible trees: the progress of the walk over the source
is kept, and what exists afterwards existed before and is not below a removed path. -/
theorem removeSteps_spec (env : Env) (hb : env.Benign) (S D0 : Option Node) (L : List Path) :
    ∀ s : Cycle, Good env S D0 s →
      (∀ d ∈ L, ∃ q, d = ⟨.dst, q⟩ ∧ lookup q S = .error .ENOENT) →
      Good env S D0 (L.foldl (removeStep env) s) ∧ Later env S D0 s (L.foldl (removeStep env) s) ∧
      (L.foldl (removeStep env) s).pending = s.pending ∧
      (∀ q n, lookup q (L.foldl (removeStep env) s).world.dst = .ok n →
        (∃ n', lookup q s.world.dst = .ok n') ∧ ∀ d ∈ L, ¬ under d.rel q) := by
  induction L with
  | nil =>
    intro s hg _
    exact ⟨hg, later_refl _ _ _, rfl, fun q n h => ⟨⟨n, h⟩, fun d hd => by simp at hd⟩⟩
  | cons p L ih =>
    intro s hg hL
    obtain ⟨q0, rfl, hq0⟩ := hL _ (List.mem_cons_self _ _)
    obtain ⟨h1, h2, h3, h4⟩ := removeStep_spec env hb S D0 s q0 hg.src hg.inv hq0
    have hp := removeStep_pending env s ⟨.dst, q0⟩
    have hg1 : Good env S D0 (removeStep env s ⟨.dst, q0⟩) := by
      refine ⟨h1, h2, ?_, ?_⟩
      · intro t ht
        rw [hp.1] at ht
        obtain ⟨a, x, m, c, e1, e2, e3⟩ := hg.pend t ht
        exact ⟨a, x, m, c, e1, e2, h3.1 a e3⟩
      · intro tr htr
        rw [hp.2] at htr
        exact hg.fin tr htr
    have hl1 : Later env S D0 s (removeStep env s ⟨.dst, q0⟩) :=
      ⟨h3, fun t ht => by rw [hp.1]; exact ht⟩
    obtain ⟨i1, i2, i3, i4⟩ := ih _ hg1 (fun d hd => hL d (List.mem_cons_of_mem _ hd))
    simp only [List.foldl_cons]
    refine ⟨i1, later_trans _ _ _ _ _ hl1 i2, i3.trans hp.1, ?_⟩
    intro q n hq
    obtain ⟨⟨n1, j1⟩, j2⟩ := i4 q n hq
    obtain ⟨k1, k2⟩ := h4 q n1 j1
    refine ⟨k1, ?_⟩
    intro d hd
    simp only [List.mem_cons] at hd
    rcases hd with rfl | hd
    · exact k2
    · exact j2 d hd

/-- The goroutines that had not run, run one after the other on compatible trees: none
returns an error, each leaves its file synchronised, and what exists afterwards existed
before or is a path of the source. -/
theorem runTasks_spec (env : Env) (hb : env.Benign) (S D0 : Option Node)
    (hK : ∀ q m c, lookup q S = .ok (.file m c) →
      infoAt q D0 = .error .ENOENT ∨ ∃ m' c', infoAt q D0 = .ok (.file m' c'))
    (P : List Task) :
    ∀ s : Cycle, s.world.src = S → Inv env S D0 s.world.dst →
      (∀ tr ∈ s.finished, ∃ b, tr.2 = .ok b) →
      (∀ t ∈ P, ∃ a x m c, t = ⟨⟨.src, a ++ [x]⟩, ⟨.dst, a ++ [x]⟩⟩ ∧
        lookup (a ++ [x]) S = .ok (.file m c) ∧ DirDone S s.world.dst a) →
      (P.foldl (runTask env) s).world.src = S ∧
      Inv env S D0 (P.foldl (runTask env) s).world.dst ∧
      Ext env S D0 s.world.dst (P.foldl (runTask env) s).world.dst ∧
      (∀ tr ∈ (P.foldl (runTask env) s).finished, ∃ b, tr.2 = .ok b) ∧
      (∀ t ∈ P, ∃ q m c, t = ⟨⟨.src, q⟩, ⟨.dst, q⟩⟩ ∧ lookup q S = .ok (.file m c) ∧
        FilePost env D0 (P.foldl (runTask env) s).world.dst q m c) ∧
      (∀ q n, lookup q (P.foldl (runTask env) s).world.dst = .ok n →
        (∃ n', lookup q s.world.dst = .ok n') ∨ ∃ n', lookup q S = .ok n') := by
  induction P with
  | nil =>
    intro s hs hi hf _
    exact ⟨hs, hi, ext_refl _ _ _, hf, fun t ht => by simp at ht,
      fun q n h => Or.inl ⟨n, h⟩⟩
  | cons t P ih =>
    intro s hs hi hf hP
    obtain ⟨a, x, m, c, rfl, hq, hpar⟩ := hP _ (List.mem_cons_self _ _)
    obtain ⟨t', b, h1, h2, h3, h4, h5, h6⟩ :=
      fileStep_spec env hb S D0 s.world.dst a x m c hi hq hpar (hK _ m c hq)
    rw [← world_eta s.world S hs] at h1 h2
    have hrun : runTask env s ⟨⟨.src, a ++ [x]⟩, ⟨.dst, a ++ [x]⟩⟩ =
        { s with
          world := ⟨S, t'⟩
          finished := s.finished ++ [(⟨⟨.src, a ++ [x]⟩, ⟨.dst, a ++ [x]⟩⟩, .ok b)] } := by
      unfold runTask
      simp only [h1, h2]
    obtain ⟨i1, i2, i3, i4, i5, i6⟩ :=
      ih (runTask env s ⟨⟨.src, a ++ [x]⟩, ⟨.dst, a ++ [x]⟩⟩)
        (by rw [hrun])
        (by rw [hrun]; exact h3)
        (by
          rw [hrun]
          intro tr htr
          simp only [List.mem_append, List.mem_singleton] at htr
          rcases htr with h | rfl
          · exact hf tr h
          · exact ⟨b, rfl⟩)
        (by
          rw [hrun]
          intro t ht
          obtain ⟨a', x', m', c', e1, e2, e3⟩ := hP t (List.mem_cons_of_mem _ ht)
          exact ⟨a', x', m', c', e1, e2, h4.1 a' e3⟩)
    simp only [List.foldl_cons]
    have hw : (runTask env s ⟨⟨.src, a ++ [x]⟩, ⟨.dst, a ++ [x]⟩⟩).world.dst = t' := by
      rw [hrun]
    rw [hw] at i3 i6
    refine ⟨i1, i2, ext_trans _ _ _ _ _ h4 i3, i4, ?_, ?_⟩
    · intro t ht
      simp only [List.mem_cons] at ht
      rcases ht with rfl | ht
      · exact ⟨a ++ [x], m, c, rfl, hq, i3.2 _ m c hq h5⟩
      · exact i5 t ht
    · intro q n hn
      rcases i6 q n hn with ⟨n1, j⟩ | j
      · rcases h6 q n1 j with rfl | k
        · exact Or.inr ⟨_, hq⟩
        · exact Or.inl k
      · exact Or.inr j

/-- One call of `syncDirectories` on compatible, well-formed trees whose source root is a
directory, with no failing call: both walks end without an error, every goroutine has
returned without an error, every source directory is mirrored with its mode, every source
file is synchronised, the destination is well formed and has no path that the source
does not have. -/
theorem syncDirectories_spec (env : Env) (hb : env.Benign) (S D0 : Option Node) (m0 : Mode)
    (l0 : Listing) (hS : S = some (.dir m0 l0)) (hwfS : l0.wf = true)
    (hwfD : treeWf D0 = true) (hc : Compat S D0) :
    (syncDirectories env ⟨S, D0⟩).world.src = S ∧
    treeWf (syncDirectories env ⟨S, D0⟩).world.dst = true ∧
    (syncDirectories env ⟨S, D0⟩).pending = [] ∧
    (∀ tr ∈ (syncDirectories env ⟨S, D0⟩).finished, ∃ b, tr.2 = .ok b) ∧
    (∀ q m l, lookup q S = .ok (.dir m l) →
      infoAt q (syncDirectories env ⟨S, D0⟩).world.dst = .ok (.dir m)) ∧
    (∀ q m c, lookup q S = .ok (.file m c) →
      FilePost env D0 (syncDirectories env ⟨S, D0⟩).world.dst q m c) ∧
    (∀ q n, lookup q (syncDirectories env ⟨S, D0⟩).world.dst = .ok n →
      ∃ n', lookup q S = .ok n') := by
  have hK := fun q m c h => compat_file S D0 hc q m c h
  obtain ⟨gA, -, hrootA, dA⟩ := sourceWalk_spec env hb S D0 m0 l0 hS hwfS hwfD hc
  have hdelA : (sourceWalk env ⟨S, D0⟩).toDelete = [] :=
    List.eq_nil_iff_forall_not_mem.2 (fun d hd => by
      obtain ⟨rel, -, hne⟩ := (planned_sourceWalk env ⟨S, D0⟩).2.2 d hd
      have hstart := WalkDir_inv env ⟨S, D0⟩ ⟨srcDir, []⟩ (srcVisit env)
        (fun s => s.toDelete = [])
        (fun s p d e hs => by
          rw [← hs]
          unfold srcVisit
          split
          · rfl
          · split
            · rfl
            · simp only
              split
              · rfl
              · split
                · split
                  · rfl
                  · split <;> rfl
                · unfold spawn
                  split <;> rfl)
        (Cycle.start ⟨S, D0⟩) rfl
      have : (sourceWalk env ⟨S, D0⟩).toDelete = [] := by
        unfold sourceWalk
        exact hstart
      rw [this] at hd
      simp at hd)
  obtain ⟨mr, lr, -, hr⟩ := hrootA
  obtain ⟨lr', hr⟩ := (infoAt_dir _ _ _).1 hr
  obtain ⟨eqB, soundB, complB⟩ :=
    destWalk_spec env hb (sourceWalk env ⟨S, D0⟩) mr lr' hr gA.inv.wf hdelA
  have eB : (destWalk env (sourceWalk env ⟨S, D0⟩)).dstWalkErr = none := by rw [eqB]
  have wB : (destWalk env (sourceWalk env ⟨S, D0⟩)).world = (sourceWalk env ⟨S, D0⟩).world := by
    rw [eqB]
  have pB : (destWalk env (sourceWalk env ⟨S, D0⟩)).pending =
      (sourceWalk env ⟨S, D0⟩).pending := by rw [eqB]
  have fB : (destWalk env (sourceWalk env ⟨S, D0⟩)).finished =
      (sourceWalk env ⟨S, D0⟩).finished := by rw [eqB]
  have gB : Good env S D0 (destWalk env (sourceWalk env ⟨S, D0⟩)) := by
    refine ⟨by rw [wB]; exact gA.src, by rw [wB]; exact gA.inv, ?_, ?_⟩
    · intro t ht
      rw [pB] at ht
      rw [wB]
      exact gA.pend t ht
    · intro tr htr
      rw [fB] at htr
      exact gA.fin tr htr
  have hL : ∀ d ∈ env.rangeOrder (destWalk env (sourceWalk env ⟨S, D0⟩)).toDelete,
      ∃ q, d = ⟨.dst, q⟩ ∧ lookup q S = .error .ENOENT := by
    intro d hd
    obtain ⟨q, n, e1, e2, -⟩ := soundB d ((hb.order _).mem_iff.1 hd)
    rw [gA.src] at e2
    exact ⟨q, e1, e2⟩
  obtain ⟨gC, lC, pC, rC⟩ := removeSteps_spec env hb S D0 _ _ gB hL
  obtain ⟨r1, r2, r3, r4, r5, r6⟩ := runTasks_spec env hb S D0 hK _ _ gC.src gC.inv gC.fin
    gC.pend
  have hsync : syncDirectories env ⟨S, D0⟩ =
      wgWait env ((env.rangeOrder (destWalk env (sourceWalk env ⟨S, D0⟩)).toDelete).foldl
        (removeStep env) (destWalk env (sourceWalk env ⟨S, D0⟩))) := by
    unfold syncDirectories
    simp only [eB]
  rw [hsync]
  unfold wgWait
  simp only
  have lBC : Later env S D0 (sourceWalk env ⟨S, D0⟩)
      ((env.rangeOrder (destWalk env (sourceWalk env ⟨S, D0⟩)).toDelete).foldl
        (removeStep env) (destWalk env (sourceWalk env ⟨S, D0⟩))) := by
    refine ⟨?_, ?_⟩
    · have := lC.1
      rw [wB] at this
      exact this
    · intro t ht
      exact lC.2 t (by rw [pB]; exact ht)
  refine ⟨r1, r2.wf, trivial, r4, ?_, ?_, ?_⟩
  · intro q m l hq
    have h1 : DirDone S (sourceWalk env ⟨S, D0⟩).world.dst q := ⟨m, l, hq, (dA q _ hq).1 m l hq⟩
    obtain ⟨m', l', e1, e2⟩ := r3.1 q (lBC.1.1 q h1)
    rw [hq] at e1
    cases e1
    exact e2
  · intro q m c hq
    rcases (dA q _ hq).2 m c hq with h | h
    · exact r3.2 q m c hq (lBC.1.2 q m c hq h)
    · obtain ⟨q', m', c', e1, e2, e3⟩ := r5 _ (lBC.2 _ h)
      cases e1
      rw [hq] at e2
      cases e2
      exact e3
  · intro q n hq
    rcases r6 q n hq with ⟨n1, h1⟩ | h1
    · obtain ⟨⟨n2, h2⟩, h3⟩ := rC q n1 h1
      rw [wB] at h2
      cases hs : lookup q S with
      | ok n' => exact ⟨n', rfl⟩
      | error e =>
        exfalso
        rcases lookup_error_cases q S e hs with rfl | rfl
        · have hmem := complB q n2 h2 (by rw [gA.src]; exact hs)
          exact h3 _ ((hb.order _).mem_iff.2 hmem) ⟨[], by simp⟩
        · obtain ⟨a, x, p, m, c, e1, e2⟩ := lookup_enotdir q S hs
          subst e1
          obtain ⟨m', l', e3⟩ := lookup_parent_dir a x p _ n2 h2
          have hinfo : infoAt a (sourceWalk env ⟨S, D0⟩).world.dst = .ok (.dir m') :=
            (infoAt_dir _ _ _).2 ⟨l', e3⟩
          rcases gA.inv.files a m c e2 with h | h
          · rw [hinfo] at h
            rcases hK a m c e2 with h0 | ⟨m1, c1, h0⟩
            · rw [h0] at h
              cases h
            · rw [h0] at h
              cases h
          · rw [hinfo] at h
            cases h
    · exact h1

/-! ## Theorems: one cycle -/

/-- C1, as the code has it: on well-formed trees where the source root is a directory and
no path is a directory on one side and a regular file on the other, with no failing call
(and equal digests meaning equal bytes), after one call of `syncDirectories` every source
file that was absent from the destination or had other bytes there is in the destination
at the mirrored path with the bytes of the source and with the mode that the write of
those bytes leaves of the mode of the source (`syncFile` sets the mode before it writes,
and a write may clear the set-uid and set-gid bits); where the write leaves the mode
alone, that is the mode of the source. Every source directory is in the destination with
the mode of the source directory. -/
theorem syncDirectories_mirrors (env : Env) (hb : env.Benign) (w : World) (m0 : Mode)
    (l0 : Listing) (hsrc : w.src = some (.dir m0 l0)) (hwfS : l0.wf = true)
    (hwfD : treeWf w.dst = true) (hc : Compat w.src w.dst) (hcol : NoCollision w.src w.dst) :
    (∀ q m c, w.node ⟨.src, q⟩ = .ok (.file m c) →
      ((∃ e, w.node ⟨.dst, q⟩ = .error e) ∨
        ∃ m' c', w.node ⟨.dst, q⟩ = .ok (.file m' c') ∧ c' ≠ c) →
      (syncDirectories env w).world.node ⟨.dst, q⟩ =
          .ok (.file (env.writeMode ⟨.dst, q⟩ m c) c) ∧
        (env.writeMode ⟨.dst, q⟩ m c = m →
          (syncDirectories env w).world.node ⟨.dst, q⟩ = .ok (.file m c))) ∧
    (∀ q m l, w.node ⟨.src, q⟩ = .ok (.dir m l) →
      ∃ l', (syncDirectories env w).world.node ⟨.dst, q⟩ = .ok (.dir m l')) := by
  obtain ⟨-, -, -, -, hd, hf, -⟩ :=
    syncDirectories_spec env hb w.src w.dst m0 l0 hsrc hwfS hwfD hc
  have hw : (⟨w.src, w.dst⟩ : World) = w := rfl
  rw [hw] at hd hf
  simp only [World.node_src, World.node_dst]
  refine ⟨?_, ?_⟩
  · intro q m c hq hdst
    rcases hf q m c hq with h | ⟨m', c', h1, h2, -⟩
    · refine ⟨(infoAt_file _ _ _ _).1 h, fun e => ?_⟩
      rw [e] at h
      exact (infoAt_file _ _ _ _).1 h
    · exfalso
      rw [infoAt_file] at h1
      rcases hdst with ⟨e, he⟩ | ⟨m1, c1, h3, hne⟩
      · rw [he] at h1
        cases h1
      · rw [h3] at h1
        cases h1
        exact hne (hcol q m c _ _ hq h3 h2).symm
  · intro q m l hq
    exact (infoAt_dir _ _ _).1 (hd q m l hq)

theorem worldUpdate_compat : Compat worldUpdate.src worldUpdate.dst := by
  intro q ns nd h1 h2
  cases q with
  | nil =>
    simp only [worldUpdate, lookup, Except.ok.injEq] at h1 h2
    subst h1 h2
    rfl
  | cons x xs =>
    simp only [worldUpdate, lookup, Listing.find] at h1 h2
    by_cases hx : x = "b.txt"
    · subst hx
      simp only [if_true] at h2
      cases xs with
      | nil =>
        simp only [lookup, Except.ok.injEq] at h2
        simp only [show ¬ ("b.txt" = "a") by decide, if_false, if_true, lookup,
          Except.ok.injEq] at h1
        subst h1 h2
        rfl
      | cons y ys => simp [lookup] at h2
    · by_cases hy : x = "old.txt"
      · subst hy
        simp [lookup] at h1
      · simp [hx, hy, lookup] at h2

set_option maxRecDepth 100000 in
theorem worldUpdate_noCollision : NoCollision worldUpdate.src worldUpdate.dst := by
  intro q m c m' c' h1 h2 hd
  cases q with
  | nil => simp [worldUpdate, lookup] at h1
  | cons x xs =>
    simp only [worldUpdate, lookup, Listing.find] at h1 h2
    by_cases hx : x = "b.txt"
    · subst hx
      simp only [if_true] at h2
      cases xs with
      | nil =>
        simp only [lookup, Except.ok.injEq, Node.file.injEq] at h2
        simp only [show ¬ ("b.txt" = "a") by decide, if_false, if_true, lookup,
          Except.ok.injEq, Node.file.injEq] at h1
        obtain ⟨-, rfl⟩ := h1
        obtain ⟨-, rfl⟩ := h2
        exact absurd hd (by decide)
      | cons y ys => simp [lookup] at h2
    · by_cases hy : x = "old.txt"
      · subst hy
        simp [lookup] at h1
      · simp [hx, hy, lookup] at h2

theorem worldSetuid_compat : Compat worldSetuid.src worldSetuid.dst := by
  intro q ns nd h1 h2
  cases q with
  | nil =>
    simp only [worldSetuid, lookup, Except.ok.injEq] at h1 h2
    subst h1 h2
    rfl
  | cons x xs => simp [worldSetuid, lookup, Listing.find] at h2

theorem worldSetuid_noCollision : NoCollision worldSetuid.src worldSetuid.dst := by
  intro q m c m' c' h1 h2 hd
  cases q with
  | nil => simp [worldSetuid, lookup] at h1
  | cons x xs => simp [worldSetuid, lookup, Listing.find] at h2

/-- C1 as the code has it, on a destination with an older `b.txt`: after the cycle the
destination file has the bytes and the mode of the source. On a source file with the
set-uid bit and a write that clears that bit, the destination file has the bytes of the
source and the mode without the bit. -/
theorem syncDirectories_mirrors_witness :
    (syncDirectories Env.calm worldUpdate).world.node ⟨.dst, ["b.txt"]⟩ =
      .ok (.file 0o644 (asciiBytes "hi")) ∧
    worldSetuid.node ⟨.src, ["tool"]⟩ = .ok (.file 0o4755 (asciiBytes "hi")) ∧
    (syncDirectories envUnprivileged worldSetuid).world.node ⟨.dst, ["tool"]⟩ =
      .ok (.file 0o755 (asciiBytes "hi")) :=
  ⟨((syncDirectories_mirrors Env.calm Env.calm_benign worldUpdate 0o755
    (.dir "a" 0o700 (.file "f" 0o600 (asciiBytes "f") .nil)
      (.file "b.txt" 0o644 (asciiBytes "hi") .nil))
    rfl (by decide) (by decide) worldUpdate_compat worldUpdate_noCollision).1
    ["b.txt"] 0o644 (asciiBytes "hi") (by decide)
    (Or.inr ⟨0o600, asciiBytes "old", by decide, by decide⟩)).1,
   by decide,
   ((syncDirectories_mirrors envUnprivileged envUnprivileged_benign worldSetuid 0o755
    (.file "tool" 0o4755 (asciiBytes "hi") .nil)
    rfl (by decide) (by decide) worldSetuid_compat worldSetuid_noCollision).1
    ["tool"] 0o4755 (asciiBytes "hi") (by decide)
    (Or.inl ⟨.ENOENT, by decide⟩)).1⟩

/-! ## Theorems: a second cycle -/

theorem MkdirAll_id (env : Env) (hb : env.Benign) (S T : Option Node) (a : List String)
    (m : Mode) (l : Listing) (perm : Mode) (h : lookup a T = .ok (.dir m l)) :
    MkdirAll env ⟨S, T⟩ ⟨.dst, a⟩ perm = .ok ⟨S, T⟩ := by
  have hp := peek_of_lookup a T _ h
  have h1 := mkdirAllTree_eq_alter (env.createMode perm) a T _ hp
  rw [alter_id _ a T _ hp (show mkdirNode _ (some (.dir m l)) = .ok (some (.dir m l)) from rfl)]
    at h1
  unfold MkdirAll
  simp only [hb.noFail, Bool.false_eq_true, if_false, World.tree]
  cases hm : mkdirAllTree (env.createMode perm) a T with
  | error e => simp [hm] at h1
  | ok n =>
    simp only [hm, Except.ok.injEq] at h1
    simp only [World.setTree]
    rw [← h1]

theorem Chmod_id (env : Env) (hb : env.Benign) (S T : Option Node) (a : List String)
    (m : Mode) (l : Listing) (h : lookup a T = .ok (.dir m l)) :
    Chmod env ⟨S, T⟩ ⟨.dst, a⟩ m = .ok ⟨S, T⟩ := by
  have hp := peek_of_lookup a T _ h
  unfold Chmod
  simp only [hb.noFail, Bool.false_eq_true, if_false, World.change_dst,
    alter_id _ a T _ hp (show chmodNode m (some (.dir m l)) = .ok (some (.dir m l)) from rfl)]

/-- In a second cycle, the visit of a source directory changes nothing. -/
theorem srcVisit_dir_idle (env : Env) (hb : env.Benign) (S T : Option Node)
    (hT : Synced S T) (s : Cycle) (a : List String) (n : String) (m : Mode) (l : Listing)
    (hi : Idle S T s) (ha : lookup a S = .ok (.dir m l)) :
    srcVisit env s ⟨.src, a⟩ (some ⟨n, true⟩) none = (s, none) := by
  obtain ⟨l', hl'⟩ := (infoAt_dir _ _ _).1 (hT.dirs a m l ha)
  have hst : Stat env s.world ⟨.src, a⟩ = .ok ⟨true, env.dirSize ⟨.src, a⟩, m⟩ :=
    stat_src_dir env hb s.world a m l (by rw [hi.world]; exact ha)
  have hrel : Rel srcDir ⟨.src, a⟩ = .ok a := rfl
  have h1 := MkdirAll_id env hb S T a m l' ModePerm hl'
  have h2 := Chmod_id env hb S T a m l' hl'
  rw [← hi.world] at h1 h2
  simp only [srcVisit, hrel, hst, Join, dstDir, h1, h2, if_true]

/-- In a second cycle, the goroutine of a source file takes a skip branch and changes
nothing. -/
theorem syncFile_idle (env : Env) (hb : env.Benign) (S T : Option Node) (hT : Synced S T)
    (q : List String) (m : Mode) (c : Bytes) (hq : lookup q S = .ok (.file m c)) :
    (syncFile env ⟨S, T⟩ ⟨.src, q⟩ ⟨.dst, q⟩).world = ⟨S, T⟩ ∧
    ((syncFile env ⟨S, T⟩ ⟨.src, q⟩ ⟨.dst, q⟩).result = .ok .skippedEmpty ∨
      (syncFile env ⟨S, T⟩ ⟨.src, q⟩ ⟨.dst, q⟩).result = .ok .skippedSameHash) := by
  obtain ⟨m', c', h1, h2⟩ := hT.files q m c hq
  obtain ⟨e1, e2⟩ := syncFile_same env hb ⟨S, T⟩ q q m m' c c' hq h1 h2
  refine ⟨e1, ?_⟩
  rw [e2]
  by_cases hz : c.length = 0 ∧ c'.length = 0
  · exact Or.inl (by rw [if_pos hz])
  · exact Or.inr (by rw [if_neg hz])

theorem srcVisit_file_idle (env : Env) (hb : env.Benign) (S T : Option Node)
    (hT : Synced S T) (s : Cycle) (q : List String) (n : String) (m : Mode) (c : Bytes)
    (hi : Idle S T s) (hq : lookup q S = .ok (.file m c)) :
    ∃ s', srcVisit env s ⟨.src, q⟩ (some ⟨n, false⟩) none = (s', none) ∧ Idle S T s' := by
  have hst : Stat env s.world ⟨.src, q⟩ = .ok ⟨false, c.length, m⟩ :=
    stat_src_file env hb s.world _ m c (by rw [hi.world]; exact hq)
  have hrel : Rel srcDir ⟨.src, q⟩ = .ok q := rfl
  have hv : srcVisit env s ⟨.src, q⟩ (some ⟨n, false⟩) none =
      (spawn env s ⟨⟨.src, q⟩, ⟨.dst, q⟩⟩, none) := by
    simp only [srcVisit, hrel, hst, Join, dstDir]
    rfl
  refine ⟨_, hv, ?_⟩
  obtain ⟨e1, e2⟩ := syncFile_idle env hb S T hT q m c hq
  rw [← hi.world] at e1 e2
  unfold spawn
  split
  · refine ⟨by simp only [e1]; exact hi.world, ?_, hi.pend, hi.del, hi.rem, ?_⟩
    · intro tr htr
      simp only [List.mem_append, List.mem_singleton] at htr
      rcases htr with h | rfl
      · exact hi.fin tr h
      · exact e2
    · simp only [List.length_append, List.length_singleton, hi.count]
      omega
  · refine ⟨hi.world, hi.fin, ?_, hi.del, hi.rem, ?_⟩
    · intro t ht
      simp only [List.mem_append, List.mem_singleton] at ht
      rcases ht with h | rfl
      · exact hi.pend t h
      · exact ⟨q, m, c, rfl, hq⟩
    · simp only [List.length_append, List.length_singleton, hi.count]
      omega

/-- In a second cycle, the walk over the entries of a source directory ends without an
error and changes nothing. -/
theorem walkDir_idle (env : Env) (hb : env.Benign) (S T : Option Node) (hT : Synced S T)
    (l : Listing) :
    ∀ (a : List String) (s : Cycle), Idle S T s → l.wf = true →
      (∀ x nd, l.find x = some nd → lookup (a ++ [x]) S = .ok nd) →
      ∃ s', walkDir env (srcVisit env) .src a l s = (s', none) ∧ Idle S T s' := by
  induction l with
  | nil => intro a s hi _ _; exact ⟨s, rfl, hi⟩
  | file n m c rest ih =>
    intro a s hi hwf hsub
    rw [Listing.wf_file_iff] at hwf
    have hq : lookup (a ++ [n]) S = .ok (.file m c) := hsub n _ (by simp [Listing.find])
    obtain ⟨s1, hv, hi1⟩ := srcVisit_file_idle env hb S T hT s _ n m c hi hq
    have hsub' : ∀ x nd, rest.find x = some nd → lookup (a ++ [x]) S = .ok nd := by
      intro x nd hx
      have hne : ¬ x = n := by
        rintro rfl
        rw [hwf.1] at hx
        cases hx
      exact hsub x nd (by simp [Listing.find, hne, hx])
    obtain ⟨s', hw, hi'⟩ := ih a s1 hi1 hwf.2 hsub'
    exact ⟨s', by simp only [walkDir, hv]; exact hw, hi'⟩
  | dir n m ch rest ihc ih =>
    intro a s hi hwf hsub
    rw [Listing.wf_dir_iff] at hwf
    have hq : lookup (a ++ [n]) S = .ok (.dir m ch) := hsub n _ (by simp [Listing.find])
    have hv := srcVisit_dir_idle env hb S T hT s (a ++ [n]) n m ch hi hq
    have hsubc : ∀ x nd, ch.find x = some nd → lookup ((a ++ [n]) ++ [x]) S = .ok nd := by
      intro x nd hx
      rw [lookup_snoc_of_dir (a ++ [n]) x S m ch hq, hx]
      rfl
    obtain ⟨s2, hw2, hi2⟩ := ihc (a ++ [n]) s hi hwf.2.1 hsubc
    have hsub' : ∀ x nd, rest.find x = some nd → lookup (a ++ [x]) S = .ok nd := by
      intro x nd hx
      have hne : ¬ x = n := by
        rintro rfl
        rw [hwf.1] at hx
        cases hx
      exact hsub x nd (by simp [Listing.find, hne, hx])
    obtain ⟨s', hw, hi'⟩ := ih a s2 hi2 hwf.2.2 hsub'
    exact ⟨s', by
      simp only [walkDir, hv, hb.noFail, Bool.false_eq_true, if_false, hw2]
      exact hw, hi'⟩

theorem runTasks_idle (env : Env) (hb : env.Benign) (S T : Option Node) (hT : Synced S T)
    (P : List Task) :
    ∀ s : Cycle, s.world = ⟨S, T⟩ →
      (∀ tr ∈ s.finished, tr.2 = .ok .skippedEmpty ∨ tr.2 = .ok .skippedSameHash) →
      (∀ t ∈ P, ∃ q m c, t = ⟨⟨.src, q⟩, ⟨.dst, q⟩⟩ ∧ lookup q S = .ok (.file m c)) →
      (P.foldl (runTask env) s).world = ⟨S, T⟩ ∧
      (∀ tr ∈ (P.foldl (runTask env) s).finished,
        tr.2 = .ok .skippedEmpty ∨ tr.2 = .ok .skippedSameHash) ∧
      (P.foldl (runTask env) s).finished.length = s.finished.length + P.length ∧
      (P.foldl (runTask env) s).spawned = s.spawned ∧
      (P.foldl (runTask env) s).toDelete = s.toDelete ∧
      (P.foldl (runTask env) s).removed = s.removed := by
  induction P with
  | nil => intro s hw hf _; exact ⟨hw, hf, rfl, rfl, rfl, rfl⟩
  | cons t P ih =>
    intro s hw hf hP
    obtain ⟨q, m, c, rfl, hq⟩ := hP _ (List.mem_cons_self _ _)
    obtain ⟨e1, e2⟩ := syncFile_idle env hb S T hT q m c hq
    rw [← hw] at e1 e2
    obtain ⟨i1, i2, i3, i4, i5, i6⟩ := ih (runTask env s ⟨⟨.src, q⟩, ⟨.dst, q⟩⟩)
      (by unfold runTask; simp only [e1]; exact hw)
      (by
        unfold runTask
        intro tr htr
        simp only [List.mem_append, List.mem_singleton] at htr
        rcases htr with h | rfl
        · exact hf tr h
        · exact e2)
      (fun t ht => hP t (List.mem_cons_of_mem _ ht))
    simp only [List.foldl_cons]
    refine ⟨i1, i2, ?_, i4, i5, i6⟩
    rw [i3]
    simp only [runTask, List.length_append, List.length_cons, List.length_nil]
    omega

/-- A cycle on a destination that is in step with the source, with no failing call: every
goroutine takes a skip branch, nothing is marked for deletion, nothing is removed, and
the file system is unchanged. -/
theorem syncDirectories_idle (env : Env) (hb : env.Benign) (S T : Option Node) (m0 : Mode)
    (l0 : Listing) (hS : S = some (.dir m0 l0)) (hwfS : l0.wf = true) (hT : Synced S T) :
    (syncDirectories env ⟨S, T⟩).world = ⟨S, T⟩ ∧
    (syncDirectories env ⟨S, T⟩).toDelete = [] ∧
    (syncDirectories env ⟨S, T⟩).removed = [] ∧
    (syncDirectories env ⟨S, T⟩).pending = [] ∧
    (∀ tr ∈ (syncDirectories env ⟨S, T⟩).finished,
      tr.2 = .ok .skippedEmpty ∨ tr.2 = .ok .skippedSameHash) ∧
    (syncDirectories env ⟨S, T⟩).finished.length = (syncDirectories env ⟨S, T⟩).spawned.length := by
  have hroot : lookup [] S = .ok (.dir m0 l0) := by rw [hS]; rfl
  have hstart : Idle S T (Cycle.start ⟨S, T⟩) :=
    ⟨rfl, fun _ h => by simp [Cycle.start] at h, fun _ h => by simp [Cycle.start] at h,
      rfl, rfl, rfl⟩
  have hv := srcVisit_dir_idle env hb S T hT (Cycle.start ⟨S, T⟩) [] "" m0 l0 hstart hroot
  have hsub : ∀ x nd, l0.find x = some nd → lookup ([] ++ [x]) S = .ok nd := by
    intro x nd hx
    rw [hS]
    simp [lookup, hx]
  obtain ⟨sA, hw, hiA⟩ := walkDir_idle env hb S T hT l0 [] _ hstart hwfS hsub
  have hwalk : WalkDir env ⟨S, T⟩ ⟨srcDir, []⟩ (srcVisit env) (Cycle.start ⟨S, T⟩) =
      (sA, none) := by
    have hn : (⟨S, T⟩ : World).node ⟨srcDir, []⟩ = .ok (.dir m0 l0) := hroot
    simp only [WalkDir, hb.noFail, Bool.false_eq_true, if_false, hn]
    have hv' : srcVisit env (Cycle.start ⟨S, T⟩) ⟨srcDir, []⟩ (some ⟨"", true⟩) none =
        (Cycle.start ⟨S, T⟩, none) := hv
    simp only [hv']
    exact hw
  have hsw : sourceWalk env ⟨S, T⟩ = { sA with srcWalkErr := none } := by
    unfold sourceWalk
    rw [hwalk]
  have hiA' : Idle S T (sourceWalk env ⟨S, T⟩) := by
    rw [hsw]
    exact ⟨hiA.world, hiA.fin, hiA.pend, hiA.del, hiA.rem, hiA.count⟩
  obtain ⟨lr, hr⟩ := (infoAt_dir _ _ _).1 (hT.dirs [] m0 l0 hroot)
  obtain ⟨eqB, soundB, -⟩ := destWalk_spec env hb (sourceWalk env ⟨S, T⟩) m0 lr
    (by rw [hiA'.world]; exact hr) (by rw [hiA'.world]; exact hT.wf) hiA'.del
  have hdelB : (destWalk env (sourceWalk env ⟨S, T⟩)).toDelete = [] := by
    refine List.eq_nil_iff_forall_not_mem.2 (fun d hd => ?_)
    obtain ⟨q, n, -, e2, e3⟩ := soundB d hd
    rw [hiA'.world] at e2 e3
    obtain ⟨n', hn'⟩ := hT.only q n e3
    simp only at e2 hn'
    rw [e2] at hn'
    cases hn'
  have hB : destWalk env (sourceWalk env ⟨S, T⟩) =
      { sourceWalk env ⟨S, T⟩ with toDelete := [], dstWalkErr := none } := by
    rw [eqB, hdelB]
  have hnil : env.rangeOrder [] = [] := List.Perm.eq_nil (hb.order [])
  have hsync : syncDirectories env ⟨S, T⟩ =
      wgWait env { sourceWalk env ⟨S, T⟩ with toDelete := [], dstWalkErr := none } := by
    unfold syncDirectories
    simp only [hB, hnil, List.foldl_nil]
  obtain ⟨r1, r2, r3, r4, r5, r6⟩ := runTasks_idle env hb S T hT
    (sourceWalk env ⟨S, T⟩).pending
    { sourceWalk env ⟨S, T⟩ with toDelete := [], dstWalkErr := none }
    hiA'.world hiA'.fin hiA'.pend
  rw [hsync]
  unfold wgWait
  simp only
  refine ⟨r1, r5, ?_, trivial, r2, ?_⟩
  · rw [r6]
    exact hiA'.rem
  · rw [r3, r4]
    simp only
    rw [hiA'.count]

/-- C3, as the code has it: on well-formed trees where the source root is a directory and
no path is a directory on one side and a regular file on the other, with no failing call
in either run, a second run of `syncDirectories` after a first one, with the source
unchanged in between, copies and deletes nothing: every goroutine it started has returned
through a skip branch, `toDelete` is empty, no path is removed, and the file system is
the same before and after the second run. -/
theorem syncDirectories_idempotent (env env' : Env) (hb : env.Benign) (hb' : env'.Benign)
    (w : World) (m0 : Mode) (l0 : Listing) (hsrc : w.src = some (.dir m0 l0))
    (hwfS : l0.wf = true) (hwfD : treeWf w.dst = true) (hc : Compat w.src w.dst) :
    (syncDirectories env w).world.src = w.src ∧
    (syncDirectories env' (syncDirectories env w).world).world = (syncDirectories env w).world ∧
    (syncDirectories env' (syncDirectories env w).world).toDelete = [] ∧
    (syncDirectories env' (syncDirectories env w).world).removed = [] ∧
    (syncDirectories env' (syncDirectories env w).world).pending = [] ∧
    (∀ tr ∈ (syncDirectories env' (syncDirectories env w).world).finished,
      tr.2 = .ok .skippedEmpty ∨ tr.2 = .ok .skippedSameHash) ∧
    (syncDirectories env' (syncDirectories env w).world).finished.length =
      (syncDirectories env' (syncDirectories env w).world).spawned.length := by
  obtain ⟨h1, h2, -, -, h5, h6, h7⟩ :=
    syncDirectories_spec env hb w.src w.dst m0 l0 hsrc hwfS hwfD hc
  have hw : (⟨w.src, w.dst⟩ : World) = w := rfl
  rw [hw] at h1 h2 h5 h6 h7
  have hT : Synced w.src (syncDirectories env w).world.dst := by
    refine ⟨h2, h5, ?_, h7⟩
    intro q m c hq
    rcases h6 q m c hq with h | ⟨m', c', -, e2, e3⟩
    · exact ⟨_, c, (infoAt_file _ _ _ _).1 h, rfl⟩
    · exact ⟨m', c', (infoAt_file _ _ _ _).1 e3, e2⟩
  have heta : (syncDirectories env w).world = ⟨w.src, (syncDirectories env w).world.dst⟩ :=
    world_eta _ _ h1
  have := syncDirectories_idle env' hb' w.src (syncDirectories env w).world.dst m0 l0 hsrc
    hwfS hT
  rw [← heta] at this
  exact ⟨h1, this⟩

set_option maxRecDepth 100000 in
/-- C3 as the code has it, on a destination with an older `b.txt`: the second run starts
two goroutines and both skip. -/
theorem syncDirectories_idempotent_witness :
    (syncDirectories Env.calm (syncDirectories Env.calm worldUpdate).world).world =
      (syncDirectories Env.calm worldUpdate).world ∧
    (syncDirectories Env.calm (syncDirectories Env.calm worldUpdate).world).spawned.length = 2 :=
  have h := syncDirectories_idempotent Env.calm Env.calm Env.calm_benign Env.calm_benign
    worldUpdate 0o755
    (.dir "a" 0o700 (.file "f" 0o600 (asciiBytes "f") .nil)
      (.file "b.txt" 0o644 (asciiBytes "hi") .nil))
    rfl (by decide) (by decide) worldUpdate_compat
  ⟨h.2.1, by decide⟩

/-! ## Theorems: what a walk over the source that ends early has done -/

/-- What exists before `os.MkdirAll` is the same after it. -/
theorem mkdirAllTree_keeps (perm : Mode) (a : List String) :
    ∀ (t : Option Node) (n : Node) (q : List String) (i : Info),
      mkdirAllTree perm a t = .ok n → infoAt q t = .ok i → infoAt q (some n) = .ok i := by
  induction a with
  | nil =>
    intro t n q i h hq
    cases t with
    | none => simp [infoAt, lookup] at hq
    | some nd =>
      cases nd with
      | file m c => simp [mkdirAllTree] at h
      | dir m l =>
        simp only [mkdirAllTree, Except.ok.injEq] at h
        subst h
        exact hq
  | cons x xs ih =>
    intro t n q i h hq
    cases t with
    | none => simp [infoAt, lookup] at hq
    | some nd =>
      cases nd with
      | file m c => simp [mkdirAllTree] at h
      | dir m l =>
        simp only [mkdirAllTree] at h
        cases hc : mkdirAllTree perm xs (l.find x) with
        | error e => simp [hc] at h
        | ok c =>
          simp only [hc, Except.ok.injEq] at h
          subst h
          cases q with
          | nil => exact hq
          | cons y ys =>
            have e1 : infoAt (y :: ys) (some (.dir m (l.set x c))) =
                infoAt ys ((l.set x c).find y) := rfl
            have e2 : infoAt (y :: ys) (some (.dir m l)) = infoAt ys (l.find y) := rfl
            rw [e1, Listing.find_set]
            rw [e2] at hq
            by_cases hy : y = x
            · subst hy
              rw [if_pos rfl]
              exact ih _ c ys i hc hq
            · rw [if_neg hy]
              exact hq

/-- After `os.MkdirAll` the path is a directory. -/
theorem mkdirAllTree_dir (perm : Mode) (a : List String) :
    ∀ (t : Option Node) (n : Node), mkdirAllTree perm a t = .ok n →
      ∃ m l, lookup a (some n) = .ok (.dir m l) := by
  induction a with
  | nil =>
    intro t n h
    cases t with
    | none =>
      simp only [mkdirAllTree, Except.ok.injEq] at h
      subst h
      exact ⟨_, _, rfl⟩
    | some nd =>
      cases nd with
      | file m c => simp [mkdirAllTree] at h
      | dir m l =>
        simp only [mkdirAllTree, Except.ok.injEq] at h
        subst h
        exact ⟨_, _, rfl⟩
  | cons x xs ih =>
    intro t n h
    cases t with
    | none =>
      simp only [mkdirAllTree] at h
      cases hc : mkdirAllTree perm xs none with
      | error e => simp [hc] at h
      | ok c =>
        simp only [hc, Except.ok.injEq] at h
        subst h
        obtain ⟨m, l, hl⟩ := ih none c hc
        refine ⟨m, l, ?_⟩
        have e1 : lookup (x :: xs) (some (.dir perm (Listing.nil.set x c))) =
            lookup xs ((Listing.nil.set x c).find x) := rfl
        rw [e1, Listing.find_set, if_pos rfl]
        exact hl
    | some nd =>
      cases nd with
      | file m c => simp [mkdirAllTree] at h
      | dir m0 l0 =>
        simp only [mkdirAllTree] at h
        cases hc : mkdirAllTree perm xs (l0.find x) with
        | error e => simp [hc] at h
        | ok c =>
          simp only [hc, Except.ok.injEq] at h
          subst h
          obtain ⟨m, l, hl⟩ := ih _ c hc
          refine ⟨m, l, ?_⟩
          have e1 : lookup (x :: xs) (some (.dir m0 (l0.set x c))) =
              lookup xs ((l0.set x c).find x) := rfl
          rw [e1, Listing.find_set, if_pos rfl]
          exact hl

/-- The call `os.MkdirAll` on a destination path: what exists is kept, and the path is a
directory afterwards. -/
theorem MkdirAll_spec (env : Env) (w w1 : World) (a : List String) (perm : Mode)
    (h : MkdirAll env w ⟨.dst, a⟩ perm = .ok w1) :
    (∀ q i, infoAt q w.dst = .ok i → infoAt q w1.dst = .ok i) ∧
    ∃ m l, lookup a w1.dst = .ok (.dir m l) := by
  unfold MkdirAll at h
  split at h
  · simp at h
  · split at h
    · simp at h
    · rename_i n hn
      simp only [Except.ok.injEq] at h
      subst h
      exact ⟨fun q i hq => mkdirAllTree_keeps _ a _ n q i hn hq, mkdirAllTree_dir _ a _ n hn⟩

theorem change_dst_frame (w w' : World) (a q : List String)
    (f : Option Node → Except Errno (Option Node)) (h : w.change ⟨.dst, a⟩ f = .ok w')
    (hq : ¬ under a q) : infoAt q w'.dst = infoAt q w.dst := by
  rw [World.change_dst] at h
  cases ha : alter f a w.dst with
  | error e => simp [ha] at h
  | ok t =>
    simp only [ha, Except.ok.injEq] at h
    subst h
    exact alter_frame f a q w.dst t ha hq

/-- The call `os.Chmod` on a destination directory: the directory has the new mode, and
nothing else is changed. -/
theorem Chmod_spec (env : Env) (w w' : World) (a : List String) (m m0 : Mode) (l0 : Listing)
    (h : Chmod env w ⟨.dst, a⟩ m = .ok w') (ha : lookup a w.dst = .ok (.dir m0 l0)) :
    infoAt a w'.dst = .ok (.dir m) ∧ ∀ q, q ≠ a → infoAt q w'.dst = infoAt q w.dst := by
  unfold Chmod at h
  split at h
  · simp at h
  · rw [World.change_dst] at h
    cases hal : alter (chmodNode m) a w.dst with
    | error e => simp [hal] at h
    | ok t =>
      simp only [hal, Except.ok.injEq] at h
      subst h
      refine ⟨?_, fun q hq =>
        alter_frame_keeps _ a q w.dst t hal (keepsChildren_chmodNode m) hq⟩
      obtain ⟨r', h1, h2⟩ := alter_ok_at _ a w.dst t _ hal (peek_of_lookup a w.dst _ ha)
      simp only [chmodNode, Except.ok.injEq] at h1
      subst h1
      exact (infoAt_dir _ _ _).2 ⟨l0, lookup_of_peek _ _ _ h2⟩

/-- A destination path that `os.OpenFile` could create or truncate is not a directory and
has no directory below it. -/
theorem not_under_of_truncNode (perm : Mode) (keep : Mode → Mode) (a q : List String)
    (t t' : Option Node) (m : Mode) (h : alter (truncNode perm keep) a t = .ok t')
    (hq : infoAt q t = .ok (.dir m)) : ¬ under a q := by
  rintro ⟨s, rfl⟩
  obtain ⟨r, r', h1, h2, -⟩ := alter_ok _ a t t' h
  obtain ⟨l, hl⟩ := (infoAt_dir _ _ _).1 hq
  rw [lookup_append, h1] at hl
  simp only at hl
  cases r with
  | none => simp [lookup] at hl
  | some nd =>
    cases nd with
    | dir m0 l0 => simp [truncNode] at h2
    | file m0 c0 =>
      cases s with
      | nil => simp [lookup] at hl
      | cons y ys => simp [lookup] at hl

/-- The copy at the end of `syncFile` leaves the directories of the destination as they
are, whatever fails. -/
theorem copyFile_dirs (env : Env) (w : World) (sp : Path) (a : List String) (i : FileInfo)
    (calls : List (Call × Path)) (q : List String) (m : Mode)
    (hq : infoAt q w.dst = .ok (.dir m)) :
    infoAt q (copyFile env w sp ⟨.dst, a⟩ i calls).world.dst = .ok (.dir m) := by
  unfold copyFile
  split
  · exact hq
  · split
    · exact hq
    · rename_i w1 h1
      have hu : ¬ under a q := by
        unfold OpenFile at h1
        split at h1
        · simp at h1
        · rw [World.change_dst] at h1
          cases hal : alter (truncNode (env.createMode i.mode) (env.truncMode ⟨.dst, a⟩)) a
              w.dst with
          | error e => simp [hal] at h1
          | ok t => exact not_under_of_truncNode _ _ a q w.dst t m hal hq
      have e1 : infoAt q w1.dst = .ok (.dir m) := by
        unfold OpenFile at h1
        split at h1
        · simp at h1
        · rw [change_dst_frame w w1 a q _ h1 hu]
          exact hq
      split
      · exact e1
      · rename_i w2 h2
        have e2 : infoAt q w2.dst = .ok (.dir m) := by
          unfold Chmod at h2
          split at h2
          · simp at h2
          · rw [change_dst_frame w1 w2 a q _ h2 hu]
            exact e1
        simp only
        split
        · exact e2
        · split
          · exact e2
          · split
            · exact e2
            · split
              · exact e2
              · rename_i w3 h3
                rw [change_dst_frame w2 w3 a q _ h3 hu]
                exact e2

/-- The method `syncFile` leaves the directories of the destination as they are, whatever
fails. -/
theorem syncFile_dirs (env : Env) (w : World) (sp : Path) (a : List String)
    (q : List String) (m : Mode) (hq : infoAt q w.dst = .ok (.dir m)) :
    infoAt q (syncFile env w sp ⟨.dst, a⟩).world.dst = .ok (.dir m) := by
  unfold syncFile
  split
  · exact hq
  · split
    · split
      · exact hq
      · simp only
        split
        · exact hq
        · exact hq
        · exact copyFile_dirs env w sp a _ _ q m hq
    · exact copyFile_dirs env w sp a _ _ q m hq

/-- The four ways in which the source callback ends on an entry of the source whose
`os.Stat` succeeds. -/
theorem srcVisit_eq (env : Env) (s : Cycle) (p : Path) (d : DirEntry) (i : FileInfo)
    (hb : p.base = srcDir) (hst : Stat env s.world p = .ok i) :
    (d.isDir = false →
      srcVisit env s p (some d) none = (spawn env s ⟨p, Join dstDir p.rel⟩, none)) ∧
    (d.isDir = true → ∀ e, MkdirAll env s.world (Join dstDir p.rel) ModePerm = .error e →
      srcVisit env s p (some d) none = (s, some e)) ∧
    (d.isDir = true → ∀ w1, MkdirAll env s.world (Join dstDir p.rel) ModePerm = .ok w1 →
      (∀ e, Chmod env w1 (Join dstDir p.rel) i.mode = .error e →
        srcVisit env s p (some d) none = ({ s with world := w1 }, some e)) ∧
      (∀ w2, Chmod env w1 (Join dstDir p.rel) i.mode = .ok w2 →
        srcVisit env s p (some d) none = ({ s with world := w2 }, none))) := by
  have hrel : Rel srcDir p = .ok p.rel := by simp [Rel, hb]
  refine ⟨fun hd => ?_, fun hd e hm => ?_, fun hd w1 hm => ⟨fun e hc => ?_, fun w2 hc => ?_⟩⟩
  · simp [srcVisit, hrel, hst, hd]
  · simp [srcVisit, hrel, hst, hd, hm]
  · simp [srcVisit, hrel, hst, hd, hm, hc]
  · simp [srcVisit, hrel, hst, hd, hm, hc]

/-- A property of the state that holds after each way in which the source callback can
end holds after the callback. -/
theorem srcVisit_step (env : Env) (s : Cycle) (p : Path) (d : DirEntry) (P : Cycle → Prop)
    (h0 : P s) (hspawn : d.isDir = false → P (spawn env s ⟨p, ⟨.dst, p.rel⟩⟩))
    (hdir : ∀ i w1, p.base = .src → d.isDir = true → Stat env s.world p = .ok i →
      MkdirAll env s.world ⟨.dst, p.rel⟩ ModePerm = .ok w1 →
      P { s with world := w1 } ∧
      ∀ w2, Chmod env w1 ⟨.dst, p.rel⟩ i.mode = .ok w2 → P { s with world := w2 }) :
    P (srcVisit env s p (some d) none).1 := by
  by_cases hb : p.base = srcDir
  · cases hst : Stat env s.world p with
    | error e =>
      rw [show srcVisit env s p (some d) none = (s, some e) by
        simp [srcVisit, Rel, hb, hst]]
      exact h0
    | ok i =>
      obtain ⟨c1, c2, c3⟩ := srcVisit_eq env s p d i hb hst
      cases hd : d.isDir with
      | false =>
        rw [c1 hd]
        exact hspawn hd
      | true =>
        cases hm : MkdirAll env s.world (Join dstDir p.rel) ModePerm with
        | error e =>
          rw [c2 hd e hm]
          exact h0
        | ok w1 =>
          obtain ⟨k1, k2⟩ := hdir i w1 hb hd hst hm
          cases hc : Chmod env w1 (Join dstDir p.rel) i.mode with
          | error e =>
            rw [(c3 hd w1 hm).1 e hc]
            exact k1
          | ok w2 =>
            rw [(c3 hd w1 hm).2 w2 hc]
            exact k2 w2 hc
  · rw [show srcVisit env s p (some d) none = (s, some .EINVAL) by
      simp [srcVisit, Rel, hb]]
    exact h0

/-- The source callback does not change the source tree, keeps the goroutines that were
started, and leaves a directory of the destination as it is, unless it is the directory
for the entry itself, which gets the mode of the entry. -/
theorem srcVisit_keeps (env : Env) (s : Cycle) (p : Path) (d : DirEntry) :
    (srcVisit env s p (some d) none).1.world.src = s.world.src ∧
    (∀ t ∈ s.spawned, t ∈ (srcVisit env s p (some d) none).1.spawned) ∧
    (∀ q m, infoAt q s.world.dst = .ok (.dir m) →
      (p = ⟨.src, q⟩ → ∀ i, Stat env s.world p = .ok i → i.mode = m) →
      infoAt q (srcVisit env s p (some d) none).1.world.dst = .ok (.dir m)) := by
  refine srcVisit_step env s p d
    (fun s' => s'.world.src = s.world.src ∧ (∀ t ∈ s.spawned, t ∈ s'.spawned) ∧
      (∀ q m, infoAt q s.world.dst = .ok (.dir m) →
        (p = ⟨.src, q⟩ → ∀ i, Stat env s.world p = .ok i → i.mode = m) →
        infoAt q s'.world.dst = .ok (.dir m)))
    ⟨rfl, fun _ h => h, fun _ _ h _ => h⟩ ?_ ?_
  · intro _
    refine ⟨?_, ?_, ?_⟩
    · unfold spawn
      split
      · exact syncFile_src env s.world p p.rel
      · rfl
    · intro t ht
      rw [spawn_spawned]
      exact List.mem_append_left _ ht
    · intro q m hq _
      unfold spawn
      split
      · exact syncFile_dirs env s.world p p.rel q m hq
      · exact hq
  · intro i w1 hb hd hst hm
    obtain ⟨f1, a1, l1, f2⟩ := MkdirAll_spec env s.world w1 p.rel ModePerm hm
    have e1 := MkdirAll_src env s.world w1 p.rel ModePerm hm
    refine ⟨⟨e1, fun _ h => h, fun q m hq _ => f1 q _ hq⟩, fun w2 hc => ?_⟩
    obtain ⟨g1, g2⟩ := Chmod_spec env w1 w2 p.rel i.mode a1 l1 hc f2
    refine ⟨(Chmod_src env w1 w2 p.rel i.mode hc).trans e1, fun _ h => h, ?_⟩
    intro q m hq hsame
    by_cases hqa : q = p.rel
    · subst hqa
      rw [g1, hsame (by cases p; cases hb; rfl) i hst]
    · rw [g2 q hqa]
      exact f1 q _ hq

/-- The source callback that returns no error has started the goroutine for a regular
file, and has mirrored a directory with the mode of the source. -/
theorem srcVisit_none (env : Env) (s s' : Cycle) (p : Path) (d : DirEntry)
    (h : srcVisit env s p (some d) none = (s', none)) :
    p.base = .src ∧ ∃ i, Stat env s.world p = .ok i ∧
      (d.isDir = false → (⟨p, ⟨.dst, p.rel⟩⟩ : Task) ∈ s'.spawned) ∧
      (d.isDir = true → infoAt p.rel s'.world.dst = .ok (.dir i.mode)) := by
  by_cases hb : p.base = srcDir
  · cases hst : Stat env s.world p with
    | error e => simp [srcVisit, Rel, hb, hst] at h
    | ok i =>
      obtain ⟨c1, c2, c3⟩ := srcVisit_eq env s p d i hb hst
      refine ⟨hb, i, rfl, fun hd => ?_, fun hd => ?_⟩
      · rw [c1 hd] at h
        simp only [Prod.mk.injEq, and_true] at h
        rw [← h, spawn_spawned]
        exact List.mem_append_right _ (List.mem_singleton.2 rfl)
      · cases hm : MkdirAll env s.world (Join dstDir p.rel) ModePerm with
        | error e =>
          rw [c2 hd e hm] at h
          simp at h
        | ok w1 =>
          cases hc : Chmod env w1 (Join dstDir p.rel) i.mode with
          | error e =>
            rw [(c3 hd w1 hm).1 e hc] at h
            simp at h
          | ok w2 =>
            rw [(c3 hd w1 hm).2 w2 hc] at h
            simp only [Prod.mk.injEq, and_true] at h
            rw [← h]
            obtain ⟨-, a1, l1, f2⟩ := MkdirAll_spec env s.world w1 p.rel ModePerm hm
            exact (Chmod_spec env w1 w2 p.rel i.mode a1 l1 hc f2).1
  · simp [srcVisit, Rel, hb] at h

/-- A run of the source callback over a list of entries that ends without an error: the
source tree is unchanged, the goroutine of every regular file of the list is started,
every directory of the list is mirrored with the mode of the source, and the directories
that the destination had are kept. -/
theorem visits_srcVisit_pre (env : Env) (w0 : World) (es : List (Path × DirEntry)) :
    ∀ s s1 : Cycle, visits (srcVisit env) es s = (s1, none) → s.world.src = w0.src →
      s1.world.src = w0.src ∧
      (∀ t ∈ s.spawned, t ∈ s1.spawned) ∧
      (∀ q m, infoAt q s.world.dst = .ok (.dir m) →
        (∀ x ∈ es, x.1 = ⟨.src, q⟩ → ∀ i, Stat env w0 ⟨.src, q⟩ = .ok i → i.mode = m) →
        infoAt q s1.world.dst = .ok (.dir m)) ∧
      (∀ x ∈ es, x.2.isDir = false → (⟨x.1, ⟨.dst, x.1.rel⟩⟩ : Task) ∈ s1.spawned) ∧
      (∀ x ∈ es, x.2.isDir = true →
        ∃ i, Stat env w0 x.1 = .ok i ∧ infoAt x.1.rel s1.world.dst = .ok (.dir i.mode)) := by
  induction es with
  | nil =>
    intro s s1 h hs
    simp only [visits, Prod.mk.injEq, and_true] at h
    subst h
    exact ⟨hs, fun _ h => h, fun _ _ h _ => h, fun _ hx => absurd hx (List.not_mem_nil _),
      fun _ hx => absurd hx (List.not_mem_nil _)⟩
  | cons x es ih =>
    intro s s1 h hs
    obtain ⟨p, d⟩ := x
    simp only [visits] at h
    rcases hr : srcVisit env s p (some d) none with ⟨s2, _ | e⟩
    · rw [hr] at h
      simp only at h
      have hk := srcVisit_keeps env s p d
      rw [hr] at hk
      obtain ⟨k1, k2, k3⟩ := hk
      obtain ⟨hb, i, hst, n1, n2⟩ := srcVisit_none env s s2 p d hr
      have hp : p = ⟨.src, p.rel⟩ := by
        cases p
        cases hb
        rfl
      have hst0 : Stat env w0 ⟨.src, p.rel⟩ = .ok i := by
        rw [← stat_src_congr env s.world w0 p.rel hs, ← hp]
        exact hst
      obtain ⟨j1, j2, j3, j4, j5⟩ := ih s2 s1 h (k1.trans hs)
      refine ⟨j1, fun t ht => j2 t (k2 t ht), ?_, ?_, ?_⟩
      · intro q m hq hsame
        refine j3 q m (k3 q m hq ?_) (fun x hx => hsame x (List.mem_cons_of_mem _ hx))
        intro e1 i1 hi1
        refine hsame (p, d) (List.mem_cons_self _ _) e1 i1 ?_
        rw [← stat_src_congr env s.world w0 q hs, ← e1]
        exact hi1
      · intro x hx hd
        rcases List.mem_cons.1 hx with rfl | hx
        · exact j2 _ (n1 hd)
        · exact j4 x hx hd
      · intro x hx hd
        rcases List.mem_cons.1 hx with rfl | hx
        · refine ⟨i, by rw [hp]; exact hst0, ?_⟩
          refine j3 p.rel i.mode (n2 hd) ?_
          intro y _ _ i1 hi1
          rw [hst0] at hi1
          cases hi1
          rfl
        · exact j5 x hx hd
    · rw [hr] at h
      simp at h

/-- The goroutines that the source callback starts on a list of entries are started for
regular files of that list, each with the mirrored destination path. -/
theorem visits_srcVisit_from (env : Env) (es : List (Path × DirEntry)) :
    ∀ s : Cycle, ∀ t ∈ (visits (srcVisit env) es s).1.spawned,
      t ∈ s.spawned ∨
        ∃ d, (t.srcPath, d) ∈ es ∧ d.isDir = false ∧ t.dstPath = ⟨.dst, t.srcPath.rel⟩ := by
  induction es with
  | nil => intro s t ht; exact Or.inl ht
  | cons x es ih =>
    intro s t ht
    obtain ⟨p, d⟩ := x
    have hstep : ∀ t ∈ (srcVisit env s p (some d) none).1.spawned,
        t ∈ s.spawned ∨ (t.srcPath = p ∧ d.isDir = false ∧ t.dstPath = ⟨.dst, p.rel⟩) := by
      refine srcVisit_step env s p d
        (fun s' => ∀ t ∈ s'.spawned,
          t ∈ s.spawned ∨ (t.srcPath = p ∧ d.isDir = false ∧ t.dstPath = ⟨.dst, p.rel⟩))
        (fun _ h => Or.inl h) ?_ ?_
      · intro hd t ht
        rw [spawn_spawned] at ht
        simp only [List.mem_append, List.mem_singleton] at ht
        rcases ht with ht | rfl
        · exact Or.inl ht
        · exact Or.inr ⟨rfl, hd, rfl⟩
      · intro i w1 _ _ _ _
        exact ⟨fun _ h => Or.inl h, fun _ _ _ h => Or.inl h⟩
    simp only [visits] at ht
    rcases hr : srcVisit env s p (some d) none with ⟨s1, _ | e⟩
    · rw [hr] at ht
      simp only at ht
      rcases ih s1 t ht with h | ⟨d', h, h'⟩
      · rcases hstep t (by rw [hr]; exact h) with h | ⟨h1, h2, h3⟩
        · exact Or.inl h
        · exact Or.inr ⟨d, by rw [h1]; exact List.mem_cons_self _ _, h2, by rw [h1]; exact h3⟩
      · exact Or.inr ⟨d', List.mem_cons_of_mem _ h, h'⟩
    · rw [hr] at ht
      simp only at ht
      rcases hstep t (by rw [hr]; exact ht) with h | ⟨h1, h2, h3⟩
      · exact Or.inl h
      · exact Or.inr ⟨d, by rw [h1]; exact List.mem_cons_self _ _, h2, by rw [h1]; exact h3⟩

/-- C7, as the code has it: when creating the destination directory for a source
directory `D`, or applying its mode, fails, the callback returns the error and the walk
over the source ends there. With the entries of the source in walk order split as `pre`,
`D`, `post`, where the walk has reached `D` (the callback returned no error on `pre`):
the error is the error of the walk; every regular file of `pre` is scheduled for
`syncFile`, and every directory of `pre` is in the destination with the mode of the
source when the walk ends; the goroutines of the cycle are those started on `pre`, each
for a regular file of `pre`, so none is started for `D` or for an entry of `post`, inside
the subtree of `D` or not; and the file system when the walk ends is the one after the
visit of `pre`, but for the directory of `D` where `os.MkdirAll` succeeded, so no
directory of `post` is mirrored. -/
theorem sourceWalk_ends_at_failed_directory (env : Env) (w : World) (m : Mode) (l : Listing)
    (pre post : List (Path × DirEntry)) (D : Path) (n : String) (s1 : Cycle)
    (perms : FileInfo) (e : Errno)
    (hsrc : w.src = some (.dir m l))
    (hread : ∀ p, env.fails .readDir p = false)
    (hlstat : env.fails .lstat ⟨srcDir, []⟩ = false)
    (horder : (⟨srcDir, []⟩, ⟨"", true⟩) :: entries srcDir [] l = pre ++ (D, ⟨n, true⟩) :: post)
    (hpre : visits (srcVisit env) pre (Cycle.start w) = (s1, none))
    (hD : D.base = srcDir)
    (hstat : Stat env s1.world D = .ok perms)
    (hfail : MkdirAll env s1.world (Join dstDir D.rel) ModePerm = .error e ∨
      ∃ w1, MkdirAll env s1.world (Join dstDir D.rel) ModePerm = .ok w1 ∧
        Chmod env w1 (Join dstDir D.rel) perms.mode = .error e) :
    (sourceWalk env w).srcWalkErr = some e ∧
    (syncDirectories env w).srcWalkErr = some e ∧
    (∀ x ∈ pre, x.2.isDir = false →
      (⟨x.1, ⟨.dst, x.1.rel⟩⟩ : Task) ∈ (syncDirectories env w).spawned) ∧
    (∀ x ∈ pre, x.2.isDir = true →
      ∃ i, Stat env w x.1 = .ok i ∧
        infoAt x.1.rel (sourceWalk env w).world.dst = .ok (.dir i.mode)) ∧
    (sourceWalk env w).spawned = s1.spawned ∧
    (syncDirectories env w).spawned = s1.spawned ∧
    (∀ t ∈ (syncDirectories env w).spawned,
      ∃ d, (t.srcPath, d) ∈ pre ∧ d.isDir = false ∧ t.dstPath = ⟨.dst, t.srcPath.rel⟩) ∧
    (sourceWalk env w).world =
      (match MkdirAll env s1.world (Join dstDir D.rel) ModePerm with
        | .ok w1 => w1
        | .error _ => s1.world) := by
  obtain ⟨c1, c2, c3⟩ := srcVisit_eq env s1 D ⟨n, true⟩ perms hD hstat
  have hvisit : ∃ s2, srcVisit env s1 D (some ⟨n, true⟩) none = (s2, some e) ∧
      s2.spawned = s1.spawned ∧
      s2.world = (match MkdirAll env s1.world (Join dstDir D.rel) ModePerm with
        | .ok w1 => w1
        | .error _ => s1.world) := by
    rcases hfail with h | ⟨w1, h, h'⟩
    · exact ⟨s1, c2 rfl e h, rfl, by rw [h]⟩
    · exact ⟨_, (c3 rfl w1 h).1 e h', rfl, by rw [h]⟩
  obtain ⟨s2, hv, hv1, hv2⟩ := hvisit
  have hwalk : WalkDir env w ⟨srcDir, []⟩ (srcVisit env) (Cycle.start w) = (s2, some e) := by
    rw [WalkDir_src_eq_visits env w _ _ m l hsrc hread hlstat, horder, visits_append, hpre]
    simp only [visits]
    rw [hv]
  have hsw1 : (sourceWalk env w).srcWalkErr = some e := by
    unfold sourceWalk
    rw [hwalk]
  have hsw2 : (sourceWalk env w).spawned = s1.spawned := by
    unfold sourceWalk
    rw [hwalk]
    exact hv1
  have hsw3 : (sourceWalk env w).world = s2.world := by
    unfold sourceWalk
    rw [hwalk]
  have hsp : (syncDirectories env w).spawned = s1.spawned := by
    rw [(syncDirectories_plan env w).1, (destWalk_fields env _).1, hsw2]
  obtain ⟨-, -, -, p4, p5⟩ := visits_srcVisit_pre env w pre (Cycle.start w) s1 hpre rfl
  refine ⟨hsw1, by rw [syncDirectories_srcWalkErr, hsw1], ?_, ?_, hsw2, hsp, ?_, ?_⟩
  · intro x hx hd
    rw [hsp]
    exact p4 x hx hd
  · intro x hx hd
    obtain ⟨i, hi1, hi2⟩ := p5 x hx hd
    refine ⟨i, hi1, ?_⟩
    rw [hsw3, hv2]
    cases hm : MkdirAll env s1.world (Join dstDir D.rel) ModePerm with
    | error e1 => exact hi2
    | ok w1 => exact (MkdirAll_spec env s1.world w1 D.rel ModePerm hm).1 _ _ hi2
  · intro t ht
    rw [hsp] at ht
    rcases visits_srcVisit_from env pre (Cycle.start w) t (by rw [hpre]; exact ht) with h | h
    · simp [Cycle.start] at h
    · exact h
  · rw [hsw3, hv2]

set_option maxRecDepth 100000 in
/-- C7 as the code has it, where creating the destination directory `c` fails after the
directory `a`, its file `a/f` and the file `b.txt` were visited: the goroutines for `a/f`
and `b.txt` are started and `a` is mirrored, and no goroutine is started for `c/g` or for
`d.txt`, which is not inside `c`. -/
theorem sourceWalk_ends_at_failed_directory_witness :
    (syncDirectories envMkdirFailsLate worldFourEntries).srcWalkErr = some .EACCES ∧
    (⟨⟨.src, ["b.txt"]⟩, ⟨.dst, ["b.txt"]⟩⟩ : Task) ∈
      (syncDirectories envMkdirFailsLate worldFourEntries).spawned ∧
    (∃ i, Stat envMkdirFailsLate worldFourEntries ⟨.src, ["a"]⟩ = .ok i ∧
      infoAt ["a"] (sourceWalk envMkdirFailsLate worldFourEntries).world.dst =
        .ok (.dir i.mode)) ∧
    (∀ t ∈ (syncDirectories envMkdirFailsLate worldFourEntries).spawned,
      ∃ d, (t.srcPath, d) ∈ [((⟨srcDir, []⟩ : Path), (⟨"", true⟩ : DirEntry)),
          (⟨srcDir, ["a"]⟩, ⟨"a", true⟩), (⟨srcDir, ["a", "f"]⟩, ⟨"f", false⟩),
          (⟨srcDir, ["b.txt"]⟩, ⟨"b.txt", false⟩)] ∧
        d.isDir = false ∧ t.dstPath = ⟨.dst, t.srcPath.rel⟩) :=
  have h := sourceWalk_ends_at_failed_directory envMkdirFailsLate worldFourEntries 0o755
    (.dir "a" 0o700 (.file "f" 0o644 (asciiBytes "f") .nil)
      (.file "b.txt" 0o644 (asciiBytes "hi")
        (.dir "c" 0o755 (.file "g" 0o644 (asciiBytes "g") .nil)
          (.file "d.txt" 0o644 (asciiBytes "d") .nil))))
    [(⟨srcDir, []⟩, ⟨"", true⟩), (⟨srcDir, ["a"]⟩, ⟨"a", true⟩),
      (⟨srcDir, ["a", "f"]⟩, ⟨"f", false⟩), (⟨srcDir, ["b.txt"]⟩, ⟨"b.txt", false⟩)]
    [(⟨srcDir, ["c", "g"]⟩, ⟨"g", false⟩), (⟨srcDir, ["d.txt"]⟩, ⟨"d.txt", false⟩)]
    ⟨srcDir, ["c"]⟩ "c"
    (visits (srcVisit envMkdirFailsLate) [(⟨srcDir, []⟩, ⟨"", true⟩),
      (⟨srcDir, ["a"]⟩, ⟨"a", true⟩), (⟨srcDir, ["a", "f"]⟩, ⟨"f", false⟩),
      (⟨srcDir, ["b.txt"]⟩, ⟨"b.txt", false⟩)] (Cycle.start worldFourEntries)).1
    ⟨true, 4096, 0o755⟩ .EACCES rfl (fun _ => rfl) (by decide) (by decide)
    (Prod.ext rfl (by decide)) rfl (by decide) (Or.inl (by decide))
  ⟨h.2.1, h.2.2.1 (⟨srcDir, ["b.txt"]⟩, ⟨"b.txt", false⟩) (by decide) rfl,
    h.2.2.2.1 (⟨srcDir, ["a"]⟩, ⟨"a", true⟩) (by decide) rfl, h.2.2.2.2.2.2.1⟩

end FolderSyncer
